import Mathlib

/-!
# simpool: the variable-size pool `DynamicSizePool` (src/DynamicSizePool.hpp)

A shallow embedding of `DynamicSizePool<MA, IA>`.

* A `Block` node is a record `data / size / isHead`; the `next` link is the
  order of a Lean `List`, so `usedBlocks` and `freeBlocks` are lists.
* A node pointer (`Block *`) is a position in its list, carried together with
  the node it points to; `NULL` is `none`.
* `std::size_t` and `char *` are 64-bit: every `+` and `-` of the source is
  taken modulo `2 ^ 64` (`wadd`, `wsub`).
* The backing source `MA` is an oracle: `allocate` receives the address that
  `MA::allocate` returns if it is called, and the pool records every call of
  `MA::allocate` and `MA::deallocate` in two logs.
* `blockPool` (a `FixedSizePool<Block>`) only hands out node storage; the
  embedding keeps its count of nodes in use.  `blockPool.allocate()` never
  returns `NULL` (it grows by a slab instead), so the `if (!curr) return;`
  branches are dead and are not modelled.  Assertions are compiled out.
-/

namespace SimPool

/-- Addition of two `std::size_t` (or of a `char *` and a `std::size_t`). -/
def wadd (a b : Nat) : Nat := (a + b) % 2 ^ 64

/-- Subtraction of two `std::size_t`. -/
def wsub (a b : Nat) : Nat := (a + (2 ^ 64 - b % 2 ^ 64)) % 2 ^ 64

/-- The node `struct Block` without its `next` link. -/
structure Block where
  data : Nat
  size : Nat
  isHead : Bool
deriving DecidableEq, Repr

/-- The state of a `DynamicSizePool`, with the two logs of the calls made to
the backing source `MA`: `maAllocated` holds, latest first, the pair
(address returned, bytes requested) of every `MA::allocate`, and
`maDeallocated` holds, latest first, the address of every `MA::deallocate`. -/
structure DynamicSizePool where
  usedBlocks : List Block
  freeBlocks : List Block
  totalBytes : Nat
  allocBytes : Nat
  minBytes : Nat
  blockPool : Nat
  maAllocated : List (Nat × Nat)
  maDeallocated : List Nat
deriving DecidableEq, Repr

/-- The constructor `DynamicSizePool(_minBytes)`. -/
def DynamicSizePool.init (minBytes : Nat) : DynamicSizePool :=
  { usedBlocks := [], freeBlocks := [], totalBytes := 0, allocBytes := 0,
    minBytes := minBytes, blockPool := 0, maAllocated := [], maDeallocated := [] }

/-- The test `!best || iter->size < best->size` of `findUsableBlock`. -/
def improves (iter : Block) : Option (Nat × Block) → Bool
  | none => true
  | some (_, best) => decide (iter.size < best.size)

/-- The loop of `findUsableBlock`: `i` is the position of `iter`, `iterPrev`
the position of the node before it; the result is `(best, prev)`. -/
def findUsableBlockLoop (size : Nat) :
    List Block → Nat → Option Nat → Option (Nat × Block) → Option Nat →
      Option (Nat × Block) × Option Nat
  | [], _, _, best, prev => (best, prev)
  | iter :: rest, i, iterPrev, best, prev =>
    if size ≤ iter.size ∧ improves iter best = true then
      findUsableBlockLoop size rest (i + 1) (some i) (some (i, iter)) iterPrev
    else
      findUsableBlockLoop size rest (i + 1) (some i) best prev

/-- `findUsableBlock(best, prev, size)` over the free list. -/
def findUsableBlock (freeBlocks : List Block) (size : Nat) :
    Option (Nat × Block) × Option Nat :=
  findUsableBlockLoop size freeBlocks 0 none none none

/-- `alignmentAdjust(size)`: `(size + 15) & ~15` in 64-bit arithmetic. -/
def alignmentAdjust (size : Nat) : Nat :=
  ((size + (16 - 1)) % 2 ^ 64) &&& (2 ^ 64 - 1 - (16 - 1))

/-- `allocateBlock(curr, prev, size)`; `ma` is the address returned by
`MA::allocate(sizeToAlloc)`.  The scan stops at the first free node whose
address is not below `ma`; the new head node is linked in there.  Returns the
new state, `curr` and `prev`. -/
def allocateBlock (s : DynamicSizePool) (size ma : Nat) :
    DynamicSizePool × (Nat × Block) × Option Nat :=
  let sizeToAlloc := max (alignmentAdjust size) s.minBytes
  let before := s.freeBlocks.takeWhile (fun b => decide (b.data < ma))
  let next := s.freeBlocks.dropWhile (fun b => decide (b.data < ma))
  let curr : Block := { data := ma, size := sizeToAlloc, isHead := true }
  let prev : Option Nat := if before.length = 0 then none else some (before.length - 1)
  ({ s with
      freeBlocks := before ++ curr :: next
      totalBytes := wadd s.totalBytes sizeToAlloc
      blockPool := wadd s.blockPool 1
      maAllocated := (ma, sizeToAlloc) :: s.maAllocated },
    (before.length, curr), prev)

/-- The nodes of a list up to and including `prev` (none when `prev` is
`NULL`): what stays in front when `prev->next` (or the list head) is
reassigned. -/
def upTo (l : List Block) : Option Nat → List Block
  | none => []
  | some j => l.take (j + 1)

/-- `splitBlock(curr, prev, size)`: returns the new state and the node `curr`
as it is afterwards. -/
def splitBlock (s : DynamicSizePool) (curr : Nat × Block) (prev : Option Nat) (size : Nat) :
    DynamicSizePool × Block :=
  let alignedsize := alignmentAdjust size
  let currNext := s.freeBlocks.drop (curr.1 + 1)
  if curr.2.size = size ∨ curr.2.size = alignedsize then
    ({ s with freeBlocks := upTo s.freeBlocks prev ++ currNext }, curr.2)
  else
    let remaining := wsub curr.2.size size
    let newBlock : Block :=
      { data := wadd curr.2.data size, size := remaining, isHead := false }
    ({ s with
        freeBlocks := upTo s.freeBlocks prev ++ newBlock :: currNext
        blockPool := wadd s.blockPool 1 },
      { curr.2 with size := size })

/-- `allocate(size)`; `ma` is the address `MA::allocate` returns if this call
has to grow the pool.  Returns the new state and the pointer handed out. -/
def allocate (s : DynamicSizePool) (size ma : Nat) : DynamicSizePool × Nat :=
  let found := findUsableBlock s.freeBlocks size
  let grown : DynamicSizePool × (Nat × Block) × Option Nat :=
    match found.1 with
    | some best => (s, best, found.2)
    | none => allocateBlock s size ma
  let split := splitBlock grown.1 grown.2.1 grown.2.2 size
  ({ split.1 with
      usedBlocks := split.2 :: split.1.usedBlocks
      allocBytes := wadd split.1.allocBytes size },
    split.2.data)

/-- The last test of `releaseBlock`, "check if curr and next can be merged":
`cur` is the node to link in front of the chain `next`.  Returns the chain
that starts at `cur` afterwards and the number of nodes given back to
`blockPool`. -/
def mergeWithNext (cur : Block) : List Block → List Block × Nat
  | nxt :: rest =>
    if wadd cur.data cur.size = nxt.data ∧ nxt.isHead = false then
      ({ cur with size := wadd cur.size nxt.size } :: rest, 1)
    else (cur :: nxt :: rest, 0)
  | [] => ([cur], 0)

/-- The second part of `releaseBlock`: `curr` is linked into the free list
after `prev`, the last leading node whose address is below its own, and merged
with `prev` and with the following node where the tests of the source allow
it.  Returns the free list and the number of nodes given back to `blockPool`. -/
def releaseIntoFree (freeBlocks : List Block) (curr : Block) : List Block × Nat :=
  let before := freeBlocks.takeWhile (fun b => decide (b.data < curr.data))
  let next := freeBlocks.dropWhile (fun b => decide (b.data < curr.data))
  match before.getLast? with
  | some prev =>
    if wadd prev.data prev.size = curr.data ∧ curr.isHead = false then
      let merged := mergeWithNext { prev with size := wadd prev.size curr.size } next
      (before.dropLast ++ merged.1, 1 + merged.2)
    else
      let merged := mergeWithNext curr next
      (before ++ merged.1, merged.2)
  | none => mergeWithNext curr next

/-- `releaseBlock(curr, prev)`: unlink `curr` from the used list, then link it
into the free list. -/
def releaseBlock (s : DynamicSizePool) (curr : Nat × Block) (prev : Option Nat) :
    DynamicSizePool :=
  let released := releaseIntoFree s.freeBlocks curr.2
  { s with
    usedBlocks := upTo s.usedBlocks prev ++ s.usedBlocks.drop (curr.1 + 1)
    freeBlocks := released.1
    blockPool := wsub s.blockPool released.2 }

/-- The search loop of `deallocate`: the first used node whose address is
`ptr`, and the node before it. -/
def findUsedLoop (ptr : Nat) :
    List Block → Nat → Option Nat → Option (Nat × Block) × Option Nat
  | [], _, prev => (none, prev)
  | curr :: rest, i, prev =>
    if curr.data ≠ ptr then findUsedLoop ptr rest (i + 1) (some i)
    else (some (i, curr), prev)

/-- `deallocate(ptr)`. -/
def deallocate (s : DynamicSizePool) (ptr : Nat) : DynamicSizePool :=
  match findUsedLoop ptr s.usedBlocks 0 none with
  | (none, _) => s
  | (some curr, prev) =>
    releaseBlock { s with allocBytes := wsub s.allocBytes curr.2.size } curr prev

/-- The first loop of `freeAllBlocks`: `while (usedBlocks) releaseBlock(usedBlocks, NULL)`,
run for at most `fuel` rounds. -/
def releaseUsedLoop : Nat → DynamicSizePool → DynamicSizePool
  | 0, s => s
  | fuel + 1, s =>
    match s.usedBlocks with
    | [] => s
    | curr :: _ => releaseUsedLoop fuel (releaseBlock s (0, curr) none)

/-- The second loop of `freeAllBlocks`: every free node is handed to
`MA::deallocate` and its storage to `blockPool`. -/
def releaseFreeLoop : List Block → DynamicSizePool → DynamicSizePool
  | [], s => { s with freeBlocks := [] }
  | curr :: rest, s =>
    releaseFreeLoop rest
      { s with
        maDeallocated := curr.data :: s.maDeallocated
        totalBytes := wsub s.totalBytes curr.size
        freeBlocks := rest
        blockPool := wsub s.blockPool 1 }

/-- `freeAllBlocks()` (the destructor).  Each round of the first loop removes
the head of the used list, so its length bounds the number of rounds. -/
def freeAllBlocks (s : DynamicSizePool) : DynamicSizePool :=
  let drained := releaseUsedLoop s.usedBlocks.length s
  releaseFreeLoop drained.freeBlocks drained

/-- `allocatedSize()`. -/
def allocatedSize (s : DynamicSizePool) : Nat := s.allocBytes

/-- `numFreeBlocks()`. -/
def numFreeBlocks (s : DynamicSizePool) : Nat := s.freeBlocks.length

/-- `numUsedBlocks()`. -/
def numUsedBlocks (s : DynamicSizePool) : Nat := s.usedBlocks.length

/-- One call made by the user of the pool.  `alloc size ma` is `allocate(size)`
where the backing source answers `ma` if asked; `dealloc ptr` is
`deallocate(ptr)`. -/
inductive Op where
  | alloc (size ma : Nat)
  | dealloc (ptr : Nat)
deriving DecidableEq, Repr

/-- The state after one call. -/
def step (s : DynamicSizePool) : Op → DynamicSizePool
  | Op.alloc size ma => (allocate s size ma).1
  | Op.dealloc ptr => deallocate s ptr

/-- The state after a sequence of calls. -/
def run (s : DynamicSizePool) (ops : List Op) : DynamicSizePool :=
  ops.foldl step s

/-! ## Vocabulary of the statements -/

/-- The position of the last node of a list (`NULL` for the empty list). -/
def lastPos (l : List Block) : Option Nat :=
  if l.length = 0 then none else some (l.length - 1)

/-- The position of the node before position `i` (`NULL` before the first). -/
def predPos (i : Nat) : Option Nat :=
  if i = 0 then none else some (i - 1)

/-- The loop invariant of `findUsableBlock`, for a result `r = (best, prev)`
over the nodes `l` visited so far: `best` is a node of `l` of size at least
`n`, no node of `l` of size at least `n` is smaller, none of the same size
comes earlier, and `prev` is the position before `best`. -/
def FindSpec (l : List Block) (n : Nat) (r : Option (Nat × Block) × Option Nat) : Prop :=
  match r.1 with
  | some (i, b) =>
    l[i]? = some b ∧ n ≤ b.size ∧
    (∀ j c, l[j]? = some c → n ≤ c.size → b.size ≤ c.size ∧ (c.size = b.size → i ≤ j)) ∧
    r.2 = predPos i
  | none => r.2 = none ∧ ∀ c ∈ l, c.size < n

/-- The number of bytes `allocateBlock` asks of the backing source. -/
def sizeToAlloc (s : DynamicSizePool) (size : Nat) : Nat :=
  max (alignmentAdjust size) s.minBytes

/-- The effect of `splitBlock` and of the push onto the used list that
follows it in `allocate`, when `curr` points to the node `b` of a free list
`pre ++ b :: post` and `prev` to the last node of `pre`: the new state and the
pointer handed out. -/
def carve (s : DynamicSizePool) (pre : List Block) (b : Block) (post : List Block)
    (size : Nat) : DynamicSizePool × Nat :=
  if b.size = size ∨ b.size = alignmentAdjust size then
    ({ s with
        usedBlocks := b :: s.usedBlocks
        freeBlocks := pre ++ post
        allocBytes := wadd s.allocBytes size }, b.data)
  else
    ({ s with
        usedBlocks := { b with size := size } :: s.usedBlocks
        freeBlocks := pre ++ { data := wadd b.data size, size := wsub b.size size,
                               isHead := false } :: post
        blockPool := wadd s.blockPool 1
        allocBytes := wadd s.allocBytes size }, b.data)

/-- Two address ranges `(start, length)` have no byte in common. -/
def SpanDisjoint (a b : Nat × Nat) : Prop :=
  a.1 + a.2 ≤ b.1 ∨ b.1 + b.2 ≤ a.1

instance instDecidableSpanDisjoint (a b : Nat × Nat) : Decidable (SpanDisjoint a b) :=
  inferInstanceAs (Decidable (a.1 + a.2 ≤ b.1 ∨ b.1 + b.2 ≤ a.1))

/-- The address `p` lies inside the range `sp = (start, length)`. -/
def InSpan (p : Nat) (sp : Nat × Nat) : Prop :=
  sp.1 ≤ p ∧ p < sp.1 + sp.2

instance instDecidableInSpan (p : Nat) (sp : Nat × Nat) : Decidable (InSpan p sp) :=
  inferInstanceAs (Decidable (sp.1 ≤ p ∧ p < sp.1 + sp.2))

/-- The byte ranges of two nodes do not meet. -/
def BlockDisjoint (b c : Block) : Prop :=
  b.data + b.size ≤ c.data ∨ c.data + c.size ≤ b.data

/-- The answer `ma` of the backing source to a request of `len` bytes is a
fresh span: it ends inside the 64-bit address space and shares no byte with a
span handed out before. -/
def FreshSpan (s : DynamicSizePool) (ma len : Nat) : Prop :=
  ma + len < 2 ^ 64 ∧ ∀ sp ∈ s.maAllocated, SpanDisjoint (ma, len) sp

instance instDecidableFreshSpan (s : DynamicSizePool) (ma len : Nat) :
    Decidable (FreshSpan s ma len) :=
  inferInstanceAs (Decidable (ma + len < 2 ^ 64 ∧ ∀ sp ∈ s.maAllocated, SpanDisjoint (ma, len) sp))

/-- A call the statements below speak about: a request of at least one byte
whose rounding up to 16 does not wrap around, answered, when the pool has to
grow, by a fresh span. -/
def OpOK (s : DynamicSizePool) : Op → Prop
  | Op.alloc size ma =>
    1 ≤ size ∧ size + 15 < 2 ^ 64 ∧
      ((findUsableBlock s.freeBlocks size).1 = none → FreshSpan s ma (sizeToAlloc s size))
  | Op.dealloc _ => True

instance instDecidableOpOK : (s : DynamicSizePool) → (op : Op) → Decidable (OpOK s op)
  | s, Op.alloc size ma =>
    inferInstanceAs (Decidable (1 ≤ size ∧ size + 15 < 2 ^ 64 ∧
      ((findUsableBlock s.freeBlocks size).1 = none → FreshSpan s ma (sizeToAlloc s size))))
  | _, Op.dealloc _ => inferInstanceAs (Decidable True)

/-- Every call of the sequence is `OpOK` in the state it is made in. -/
def RunOK : DynamicSizePool → List Op → Prop
  | _, [] => True
  | s, op :: ops => OpOK s op ∧ RunOK (step s op) ops

instance instDecidableRunOK : (s : DynamicSizePool) → (ops : List Op) → Decidable (RunOK s ops)
  | _, [] => inferInstanceAs (Decidable True)
  | s, op :: ops =>
    @instDecidableAnd _ _ (instDecidableOpOK s op) (instDecidableRunOK (step s op) ops)

/-- The spans obtained from the backing source are non-empty, end inside the
address space and are pairwise disjoint. -/
structure SpansOK (spans : List (Nat × Nat)) : Prop where
  bounded : ∀ sp ∈ spans, 1 ≤ sp.2 ∧ sp.1 + sp.2 < 2 ^ 64
  disjoint : spans.Pairwise SpanDisjoint

/-- The nodes `blocks` tile the spans: every node is non-empty and lies in one
span, it is a head exactly when it starts that span, the nodes are pairwise
disjoint, and every byte of every span belongs to a node. -/
structure Tiles (spans : List (Nat × Nat)) (blocks : List Block) : Prop where
  inSpan : ∀ b ∈ blocks, 1 ≤ b.size ∧ ∃ sp ∈ spans,
    sp.1 ≤ b.data ∧ b.data + b.size ≤ sp.1 + sp.2 ∧ (b.isHead = true ↔ b.data = sp.1)
  disjoint : blocks.Pairwise BlockDisjoint
  covered : ∀ sp ∈ spans, ∀ x, sp.1 ≤ x → x < sp.1 + sp.2 →
    ∃ b ∈ blocks, b.data ≤ x ∧ x < b.data + b.size

/-- The test of `releaseBlock` for merging `q` into the node `p` before it fails. -/
def NoMerge (p q : Block) : Prop :=
  ¬ (p.data + p.size = q.data ∧ q.isHead = false)

/-- The free list is sorted by strictly increasing address and no node can be
merged into the node before it. -/
structure FreeOK (freeBlocks : List Block) : Prop where
  sorted : freeBlocks.Pairwise (fun p q => p.data < q.data)
  coalesced : freeBlocks.Chain' NoMerge

/-- The invariant of the pool between two calls. -/
structure Inv (s : DynamicSizePool) : Prop where
  minBytes_lt : s.minBytes < 2 ^ 64
  spans : SpansOK s.maAllocated
  tiles : Tiles s.maAllocated (s.usedBlocks ++ s.freeBlocks)
  free : FreeOK s.freeBlocks


/-- The rounding up of `n` to a multiple of 16 (the `align_up(n, 16)` of the
specification); `alignmentAdjust` computes it as long as `n + 15` does not
wrap around. -/
def alignUp (n : Nat) : Nat := (n + 15) / 16 * 16

/-- The calls `deallocate(p)` for the pointers of a list, in order. -/
def deallocateAll (s : DynamicSizePool) (ptrs : List Nat) : DynamicSizePool :=
  ptrs.foldl deallocate s

/-- One round `p = allocate(n); deallocate(p)`. -/
def allocThenFree (s : DynamicSizePool) (n ma : Nat) : DynamicSizePool :=
  deallocate (allocate s n ma).1 (allocate s n ma).2

/-- The state after `k` rounds `p = allocate(n); deallocate(p)`; `ma j` is the
answer of the backing source if it is asked in round `j` (counted from 0). -/
def rounds (n : Nat) (ma : Nat → Nat) : Nat → DynamicSizePool → DynamicSizePool
  | 0, s => s
  | k + 1, s => allocThenFree (rounds n ma k s) n (ma k)
/-- The pool holds one span, wholly free. -/
structure OneFreeSpan (s : DynamicSizePool) (a len : Nat) : Prop where
  used : s.usedBlocks = []
  free : s.freeBlocks = [{ data := a, size := len, isHead := true }]
  total : s.totalBytes = len
  spans : s.maAllocated = [(a, len)]

/-! # The fixed-size pool `FixedSizePool<T, MA, NP>` (src/FixedSizePool.hpp)

* A slab (`struct Pool`) is a record of its `data` address, its `avail`
  bitmap as the list of its `NP` words of 32 bits, and its `numAvail`; the
  `next` link is the order of a `List`.
* `unsigned int` values are taken modulo `2 ^ 32`, `std::size_t` values modulo
  `2 ^ 64`; an unsigned value stored in an `int` goes through `toInt`.
* A `T *` is its address; a `NULL` result is `none`.  A slot is an object, so
  no slot has the address 0 and a pointer to a slot is never `NULL`.
* The difference `ptr - start` of two `T *` is the number of slots between
  them when `ptr` is at the start of a slot; for a pointer inside a slot it
  has no defined value, and `deallocate` then has no result
  (`Freed.undefinedDiff`).
* The backing source is an oracle `ma`: `ma j` is the address `MA::allocate`
  returns for the slab that becomes the `j`-th of the chain (from 0).
* `allocate` recurses after appending a slab; the embedding bounds the number
  of calls (the call itself and its nested calls) by `fuel` and returns `none`
  when the bound is reached.
-/

/-- `sizeof(struct Pool)`: two pointers, an `unsigned int` padded to 8 bytes,
one pointer. -/
def sizeofPool : Nat := 32

/-- The C library function `ffs` on a word of 32 bits: one plus the index of
the least significant set bit, 0 when no bit is set. -/
def ffs (w : Nat) : Nat :=
  match (List.range 32).find? (fun b => w.testBit b) with
  | some b => b + 1
  | none => 0

/-- The value of an `int` to which the unsigned value `v` is assigned
(two's complement on 32 bits). -/
def toInt (v : Nat) : Int :=
  if v % 2 ^ 32 < 2 ^ 31 then ((v % 2 ^ 32 : Nat) : Int)
  else ((v % 2 ^ 32 : Nat) : Int) - 2 ^ 32

/-- The value of a `std::size_t` to which the `int` `k` is converted. -/
def toSizeT (k : Int) : Nat := (k % 2 ^ 64).toNat

/-- The address `p + k` for a `T *` `p`. -/
def ptrAdd (sizeofT p : Nat) (k : Int) : Nat :=
  (((p : Int) + k * (sizeofT : Int)) % 2 ^ 64).toNat

/-- The slab `struct Pool` without its `next` link; `avail` is the content of
the bitmap the pointer `avail` points to. -/
structure Pool where
  data : Nat
  avail : List Nat
  numAvail : Nat
deriving DecidableEq, Repr

/-- The state of a `FixedSizePool`: the chain of slabs that starts at `pool`,
and `numBlocks`. -/
structure FixedSizePool where
  pool : List Pool
  numBlocks : Nat
deriving DecidableEq, Repr

/-- The constant `numPerPool = NP * sizeof(unsigned int) * 8`. -/
def numPerPool (NP : Nat) : Nat := (NP * 4 * 8) % 2 ^ 64

/-- `newPool(pnew)`: the slab built at the address `ma` returned by
`MA::allocate(totalPoolSize)`; every word of the bitmap is set to `-1`. -/
def newPool (NP ma : Nat) : Pool :=
  { data := wadd ma sizeofPool
    avail := List.replicate NP (2 ^ 32 - 1)
    numAvail := numPerPool NP % 2 ^ 32 }

/-- The constructor `FixedSizePool()`. -/
def FixedSizePool.init (NP : Nat) (ma : Nat → Nat) : FixedSizePool :=
  { pool := [newPool NP (ma 0)], numBlocks := 0 }

/-- The loop of `allocInPool` over the words of the bitmap, from word `i` on:
the position `i` of the first word whose `ffs` is not 0, with `bit = ffs - 1`. -/
def firstAvail : List Nat → Nat → Option (Nat × Nat)
  | [], _ => none
  | w :: rest, i => if ffs w ≠ 0 then some (i, ffs w - 1) else firstAvail rest (i + 1)

/-- `allocInPool(p)`: `none` is `NULL`; otherwise the slab afterwards and the
pointer to the slot taken. -/
def allocInPool (sizeofT : Nat) (p : Pool) : Option (Pool × Nat) :=
  if p.numAvail = 0 then none
  else
    match firstAvail p.avail 0 with
    | some (i, bit) =>
      some ({ p with
              avail := p.avail.set i ((p.avail.getD i 0 ^^^ (1 <<< bit)) % 2 ^ 32)
              numAvail := (p.numAvail + (2 ^ 32 - 1)) % 2 ^ 32 },
            ptrAdd sizeofT p.data (toInt (i * 4 * 8 + bit)))
    | none => none

/-- The loop `while (!ptr && curr)` of `allocate`: the chain afterwards and
the pointer found, `none` when every slab answered `NULL`. -/
def allocWalk (sizeofT : Nat) : List Pool → Option (List Pool × Nat)
  | [] => none
  | curr :: rest =>
    match allocInPool sizeofT curr with
    | some (c, ptr) => some (c :: rest, ptr)
    | none =>
      match allocWalk sizeofT rest with
      | some (r, ptr) => some (curr :: r, ptr)
      | none => none

/-- `FixedSizePool::allocate()`, for at most `fuel` calls (this one and the
nested ones).  When no slab has a slot, a slab is linked behind the last one
(`newPool(&prev->next)`) and the call recurses. -/
def FixedSizePool.allocate (NP sizeofT : Nat) (ma : Nat → Nat) :
    Nat → FixedSizePool → Option (FixedSizePool × Nat)
  | 0, _ => none
  | fuel + 1, s =>
    match allocWalk sizeofT s.pool with
    | some (chain, ptr) =>
      some ({ pool := chain, numBlocks := (s.numBlocks + 1) % 2 ^ 64 }, ptr)
    | none =>
      FixedSizePool.allocate NP sizeofT ma fuel
        { s with pool := s.pool ++ [newPool NP (ma s.pool.length)] }

/-- The statement `curr->avail[indexI] ^= 1 << indexB` for `int` indexes; an
index outside the bitmap leaves it as it is. -/
def xorAt (avail : List Nat) (indexI indexB : Int) : List Nat :=
  if 0 ≤ indexI then
    avail.set indexI.toNat
      ((avail.getD indexI.toNat 0 ^^^ (1 <<< indexB.toNat)) % 2 ^ 32)
  else avail

/-- How the loop of `deallocate` over the chain ends: with the slot of `ptr`
given back (the chain afterwards), at the end of the chain with no slab
holding `ptr`, or in the pointer subtraction `ptr - start` of two `T *` that
are not a whole number of `T` apart, which has no defined result. -/
inductive Freed where
  | gave (chain : List Pool)
  | noSlab
  | undefinedDiff
deriving DecidableEq, Repr

/-- The loop of `deallocate` over the chain, for the first slab whose slot
range holds `ptr`.  `indexD = ptr - reinterpret_cast<T*>(curr->data)` is the
number of slots between the two pointers when `ptr` is at the start of a
slot, and undefined when `ptr` points inside a slot. -/
def deallocWalk (NP sizeofT ptr : Nat) : List Pool → Freed
  | [] => Freed.noSlab
  | curr :: rest =>
    if curr.data ≤ ptr ∧ ptr < ptrAdd sizeofT curr.data (numPerPool NP) then
      if (ptr - curr.data) % sizeofT = 0 then
        let indexD := toInt ((ptr - curr.data) / sizeofT)
        let indexI := toInt (toSizeT indexD / 4 / 8)
        let indexB := toInt (toSizeT indexD % (4 * 8))
        Freed.gave ({ curr with
                      avail := xorAt curr.avail indexI indexB
                      numAvail := (curr.numAvail + 1) % 2 ^ 32 } :: rest)
      else Freed.undefinedDiff
    else
      match deallocWalk NP sizeofT ptr rest with
      | Freed.gave r => Freed.gave (curr :: r)
      | Freed.noSlab => Freed.noSlab
      | Freed.undefinedDiff => Freed.undefinedDiff

/-- `FixedSizePool::deallocate(ptr)`: the state afterwards, and `true` when
the call ends by `throw(std::bad_alloc())` instead of returning; `none` when
the pointer subtraction of the call is undefined. -/
def FixedSizePool.deallocate (NP sizeofT : Nat) (s : FixedSizePool) (ptr : Nat) :
    Option (FixedSizePool × Bool) :=
  match deallocWalk NP sizeofT ptr s.pool with
  | Freed.gave chain =>
    some ({ pool := chain, numBlocks := (s.numBlocks + (2 ^ 64 - 1)) % 2 ^ 64 }, false)
  | Freed.noSlab => some (s, true)
  | Freed.undefinedDiff => none

/-- `allocatedSize()`. -/
def FixedSizePool.allocatedSize (sizeofT : Nat) (s : FixedSizePool) : Nat :=
  (s.numBlocks * sizeofT) % 2 ^ 64

/-- `numPools()`. -/
def FixedSizePool.numPools (s : FixedSizePool) : Nat := s.pool.length


/-! ## Vocabulary of the statements about the fixed-size pool -/

/-- The avail bit of slot `k` of a slab: bit `k % 32` of word `k / 32`
(`true`: the slot is free). -/
def slotFree (p : Pool) (k : Nat) : Bool :=
  (p.avail.getD (k / 32) 0).testBit (k % 32)

/-- The number of slots of a slab (32 for each word of its bitmap). -/
def numSlots (p : Pool) : Nat := 32 * p.avail.length

/-- The number of set avail bits of a slab. -/
def countSet (p : Pool) : Nat :=
  (List.range (numSlots p)).countP (fun k => slotFree p k)

/-- The number of cleared avail bits of a slab: its slots in use. -/
def countCleared (p : Pool) : Nat :=
  (List.range (numSlots p)).countP (fun k => !slotFree p k)

/-- The slot ranges of two slabs of `n` slots of `sizeofT` bytes share no byte. -/
def SlabDisjoint (n sizeofT : Nat) (p q : Pool) : Prop :=
  p.data + n * sizeofT ≤ q.data ∨ q.data + n * sizeofT ≤ p.data

/-- The bitmap after the avail bit of slot `k` is flipped (`^= 1 << bit` on
word `k / 32`, bit `k % 32`). -/
def toggleSlot (avail : List Nat) (k : Nat) : List Nat :=
  avail.set (k / 32) ((avail.getD (k / 32) 0 ^^^ (1 <<< (k % 32))) % 2 ^ 32)


/-! ## Sequences of calls on a fixed-size pool -/

/-- The test of `deallocate` that `ptr` lies in the slot range of the slab `p`:
`(ptr >= start) && (ptr < end)`. -/
def InSlab (NP sizeofT : Nat) (p : Pool) (ptr : Nat) : Prop :=
  p.data ≤ ptr ∧ ptr < ptrAdd sizeofT p.data (numPerPool NP)

instance instDecidableInSlab (NP sizeofT : Nat) (p : Pool) (ptr : Nat) :
    Decidable (InSlab NP sizeofT p ptr) :=
  inferInstanceAs (Decidable (p.data ≤ ptr ∧ ptr < ptrAdd sizeofT p.data (numPerPool NP)))

instance instDecidableSlabDisjoint (n sizeofT : Nat) (p q : Pool) :
    Decidable (SlabDisjoint n sizeofT p q) :=
  inferInstanceAs (Decidable (p.data + n * sizeofT ≤ q.data ∨ q.data + n * sizeofT ≤ p.data))

/-- A call on a fixed-size pool. -/
inductive FOp where
  | alloc
  | dealloc (ptr : Nat)
deriving DecidableEq, Repr

/-- One call, on the pool and on the list of the pointers its callers hold
(those returned by `allocate()` and not yet passed to `deallocate`).  The
result is `none` when `allocate()` has not returned after one nested call, or
when `deallocate` leaves by its `throw` or has no defined result. -/
def fixedStep (NP sizeofT : Nat) (ma : Nat → Nat) (st : FixedSizePool × List Nat) :
    FOp → Option (FixedSizePool × List Nat)
  | FOp.alloc =>
    match FixedSizePool.allocate NP sizeofT ma 2 st.1 with
    | some (s, ptr) => some (s, ptr :: st.2)
    | none => none
  | FOp.dealloc ptr =>
    match FixedSizePool.deallocate NP sizeofT st.1 ptr with
    | some (s, false) => some (s, st.2.erase ptr)
    | some (_, true) => none
    | none => none

/-- A sequence of calls, from the first. -/
def fixedRun (NP sizeofT : Nat) (ma : Nat → Nat) :
    FixedSizePool × List Nat → List FOp → Option (FixedSizePool × List Nat)
  | st, [] => some st
  | st, op :: ops =>
    match fixedStep NP sizeofT ma st op with
    | some st1 => fixedRun NP sizeofT ma st1 ops
    | none => none

/-- The slab `q` is fresh for the chain `pool`: its `NP * 32` slots end inside
the 64-bit address space and share no byte with the slots of a slab of the
chain. -/
def FreshSlab (NP sizeofT : Nat) (pool : List Pool) (q : Pool) : Prop :=
  q.data + NP * 32 * sizeofT < 2 ^ 64 ∧ ∀ p ∈ pool, SlabDisjoint (NP * 32) sizeofT p q

instance instDecidableFreshSlab (NP sizeofT : Nat) (pool : List Pool) (q : Pool) :
    Decidable (FreshSlab NP sizeofT pool q) :=
  inferInstanceAs (Decidable (q.data + NP * 32 * sizeofT < 2 ^ 64 ∧
    ∀ p ∈ pool, SlabDisjoint (NP * 32) sizeofT p q))

/-- The template arguments the statements speak about: at least one bitmap
word, slot indices that fit the `int` variables of the code, and a slot of at
least one byte. -/
def FixedParams (NP sizeofT : Nat) : Prop :=
  1 ≤ NP ∧ NP * 32 ≤ 2 ^ 31 ∧ 1 ≤ sizeofT

instance instDecidableFixedParams (NP sizeofT : Nat) : Decidable (FixedParams NP sizeofT) :=
  inferInstanceAs (Decidable (1 ≤ NP ∧ NP * 32 ≤ 2 ^ 31 ∧ 1 ≤ sizeofT))

/-- A call the statements below speak about: an `allocate()` that has to grow
the chain is answered by a fresh slab, and a `deallocate(p)` is given a
pointer that a caller holds. -/
def FixedOpOK (NP sizeofT : Nat) (ma : Nat → Nat) (st : FixedSizePool × List Nat) :
    FOp → Prop
  | FOp.alloc =>
    allocWalk sizeofT st.1.pool = none →
      FreshSlab NP sizeofT st.1.pool (newPool NP (ma st.1.pool.length))
  | FOp.dealloc ptr => ptr ∈ st.2

instance instDecidableFixedOpOK (NP sizeofT : Nat) (ma : Nat → Nat)
    (st : FixedSizePool × List Nat) : (op : FOp) → Decidable (FixedOpOK NP sizeofT ma st op)
  | FOp.alloc =>
    inferInstanceAs (Decidable (allocWalk sizeofT st.1.pool = none →
      FreshSlab NP sizeofT st.1.pool (newPool NP (ma st.1.pool.length))))
  | FOp.dealloc ptr => inferInstanceAs (Decidable (ptr ∈ st.2))

/-- Every call of the sequence is `FixedOpOK` in the state it is made in (as
far as the calls return). -/
def FixedRunOK (NP sizeofT : Nat) (ma : Nat → Nat) :
    FixedSizePool × List Nat → List FOp → Prop
  | _, [] => True
  | st, op :: ops =>
    FixedOpOK NP sizeofT ma st op ∧
      ∀ st1, fixedStep NP sizeofT ma st op = some st1 → FixedRunOK NP sizeofT ma st1 ops

instance instDecidableFixedRunOK (NP sizeofT : Nat) (ma : Nat → Nat) :
    (st : FixedSizePool × List Nat) → (ops : List FOp) →
      Decidable (FixedRunOK NP sizeofT ma st ops)
  | _, [] => inferInstanceAs (Decidable True)
  | st, op :: ops =>
    match h : fixedStep NP sizeofT ma st op with
    | some st1 =>
      @decidable_of_iff _ (FixedOpOK NP sizeofT ma st op ∧ FixedRunOK NP sizeofT ma st1 ops)
        (by simp [FixedRunOK, h])
        (@instDecidableAnd _ _ (instDecidableFixedOpOK NP sizeofT ma st op)
          (instDecidableFixedRunOK NP sizeofT ma st1 ops))
    | none =>
      @decidable_of_iff _ (FixedOpOK NP sizeofT ma st op) (by simp [FixedRunOK, h])
        (instDecidableFixedOpOK NP sizeofT ma st op)

/-- The slab is well formed: a bitmap of `NP` words of 32 bits, `numAvail`
the number of its set bits, and slots that end inside the address space. -/
structure SlabOK (NP sizeofT : Nat) (p : Pool) : Prop where
  words : p.avail.length = NP
  word_lt : ∀ w ∈ p.avail, w < 2 ^ 32
  count : p.numAvail = countSet p
  fits : p.data + NP * 32 * sizeofT < 2 ^ 64

/-- The invariant of a fixed-size pool and the pointers `ptrs` its callers
hold: well-formed slabs that share no slot, `numBlocks` the number of cleared
avail bits, and the pointers held exactly the addresses of the slots whose
avail bit is cleared, each held once. -/
structure FixedInv (NP sizeofT : Nat) (s : FixedSizePool) (ptrs : List Nat) : Prop where
  slabs : ∀ p ∈ s.pool, SlabOK NP sizeofT p
  disjoint : s.pool.Pairwise (SlabDisjoint (NP * 32) sizeofT)
  inUse : s.numBlocks = (s.pool.map countCleared).sum
  nodup : ptrs.Nodup
  held : ∀ x, x ∈ ptrs ↔
    ∃ p ∈ s.pool, ∃ k, k < NP * 32 ∧ slotFree p k = false ∧ x = p.data + k * sizeofT

/-- A backing source that answers 4096, 8192, 12288, ... -/
def spacedMa : Nat → Nat := fun j => 4096 * (j + 1)

/-- A backing source that answers `2^40` (used for a pool of one slab). -/
def highMa : Nat → Nat := fun _ => 2 ^ 40

/-- The first `m` slots of the slab are in use and the others free, the
bitmap having `NP` words and `numAvail` counting the free slots. -/
def FilledTo (NP : Nat) (p : Pool) (m : Nat) : Prop :=
  p.avail.length = NP ∧
  (∀ k, slotFree p k = (decide (m ≤ k) && decide (k < NP * 32))) ∧
  p.numAvail + m = NP * 32 ∧ countCleared p = m ∧ countSet p + m = NP * 32

/-! # `FixedPoolAllocator<T, MA, NP>` (src/FixedPoolAllocator.hpp)

`struct Pool`, `newPool` and `allocInPool` have the same text as in
src/FixedSizePool.hpp, and so has the loop of `allocate()`: `Pool`, `newPool`,
`allocInPool` and `allocWalk` stand for both classes.
-/

/-- The state of a `FixedPoolAllocator`: the chain of slabs that starts at
`pool`, and `numBlocks`. -/
structure FixedPoolAllocator where
  pool : List Pool
  numBlocks : Nat
deriving DecidableEq, Repr

/-- The constructor: one slab, nothing in use. -/
def FixedPoolAllocator.init (NP : Nat) (ma : Nat → Nat) : FixedPoolAllocator :=
  { pool := [newPool NP (ma 0)], numBlocks := 0 }

/-- `allocate()`: when the loop ends with `ptr == NULL` a slab is appended and
`allocate()` is called again, its result is dropped, and the statements
`numBlocks++; return ptr;` follow in every case.  The pointer returned is
`none` for `NULL`; the whole result is `none` when `fuel` calls were not
enough. -/
def FixedPoolAllocator.allocate (NP sizeofT : Nat) (ma : Nat → Nat) :
    Nat → FixedPoolAllocator → Option (FixedPoolAllocator × Option Nat)
  | 0, _ => none
  | fuel + 1, s =>
    match allocWalk sizeofT s.pool with
    | some (chain, ptr) =>
      some ({ pool := chain, numBlocks := (s.numBlocks + 1) % 2 ^ 64 }, some ptr)
    | none =>
      match FixedPoolAllocator.allocate NP sizeofT ma fuel
          { s with pool := s.pool ++ [newPool NP (ma s.pool.length)] } with
      | some (s1, _) => some ({ s1 with numBlocks := (s1.numBlocks + 1) % 2 ^ 64 }, none)
      | none => none

/-- The calls `allocate()` made `n` times in a row (each within one nested
call): the final state and the results, latest first. -/
def FixedPoolAllocator.allocateTimes (NP sizeofT : Nat) (ma : Nat → Nat) :
    Nat → FixedPoolAllocator → Option (FixedPoolAllocator × List (Option Nat))
  | 0, s => some (s, [])
  | n + 1, s =>
    match FixedPoolAllocator.allocateTimes NP sizeofT ma n s with
    | some (s1, ptrs) =>
      match FixedPoolAllocator.allocate NP sizeofT ma 2 s1 with
      | some (s2, ptr) => some (s2, ptr :: ptrs)
      | none => none
    | none => none

/-! # `DynamicPoolAllocator<MA, IA, MINSIZE>` (src/DynamicPoolAllocator.hpp)

The lists are modelled as for `DynamicSizePool`; `findUsableBlock` has the
same text in both classes.  Node storage comes from a
`FixedPoolAllocator<struct Block, IA, 1 << 6>`, whose `allocate()` may return
`NULL`: `allocate(size)` then either fails its `assert(best)` or goes on with
a node linked in both lists; the embedding returns `none` there.
-/

/-- `sizeof(struct Block)`: a pointer, a `std::size_t`, a `bool` padded to 8
bytes, a pointer. -/
def sizeofBlock : Nat := 32

/-- The state of a `DynamicPoolAllocator`, with the log `maAllocated` of the
calls of `MA::allocate`: latest first, the pair (address returned, bytes
requested). -/
structure DynamicPoolAllocator where
  blockAllocator : FixedPoolAllocator
  usedBlocks : List Block
  freeBlocks : List Block
  loanedSize : Nat
  maAllocated : List (Nat × Nat)
deriving DecidableEq, Repr

/-- The constructor; `ia` is the backing source of the node storage. -/
def DynamicPoolAllocator.init (ia : Nat → Nat) : DynamicPoolAllocator :=
  { blockAllocator := FixedPoolAllocator.init (2 ^ 6) ia
    usedBlocks := []
    freeBlocks := []
    loanedSize := 0
    maAllocated := [] }

/-- `allocateBlock(curr, prev, size)`; `ma` is the address returned by
`MA::allocate(size)`.  Returns the new state, `curr` and `prev`. -/
def DynamicPoolAllocator.allocateBlock (MINSIZE : Nat) (ia : Nat → Nat)
    (s : DynamicPoolAllocator) (size ma : Nat) :
    Option (DynamicPoolAllocator × (Nat × Block) × Option Nat) :=
  let allocSize := max size MINSIZE
  let before := s.freeBlocks.takeWhile (fun b => decide (b.data < ma))
  let next := s.freeBlocks.dropWhile (fun b => decide (b.data < ma))
  match FixedPoolAllocator.allocate (2 ^ 6) sizeofBlock ia 2 s.blockAllocator with
  | some (b, some _) =>
    let curr : Block := { data := ma, size := allocSize, isHead := true }
    let prev : Option Nat := if before.length = 0 then none else some (before.length - 1)
    some ({ s with
            blockAllocator := b
            freeBlocks := before ++ curr :: next
            loanedSize := wadd s.loanedSize allocSize
            maAllocated := (ma, size) :: s.maAllocated },
          (before.length, curr), prev)
  | _ => none

/-- `splitBlock(curr, prev, size)`: returns the new state and the node `curr`
as it is afterwards. -/
def DynamicPoolAllocator.splitBlock (ia : Nat → Nat) (s : DynamicPoolAllocator)
    (curr : Nat × Block) (prev : Option Nat) (size : Nat) :
    Option (DynamicPoolAllocator × Block) :=
  let currNext := s.freeBlocks.drop (curr.1 + 1)
  if curr.2.size = size then
    some ({ s with
            freeBlocks := upTo s.freeBlocks prev ++ currNext
            loanedSize := wadd s.loanedSize size },
          curr.2)
  else
    match FixedPoolAllocator.allocate (2 ^ 6) sizeofBlock ia 2 s.blockAllocator with
    | some (b, some _) =>
      let newBlock : Block :=
        { data := wadd curr.2.data size, size := wsub curr.2.size size, isHead := false }
      some ({ s with
              blockAllocator := b
              freeBlocks := upTo s.freeBlocks prev ++ newBlock :: currNext
              loanedSize := wadd s.loanedSize size },
            { curr.2 with size := size })
    | _ => none

/-- `allocate(size)`; `ma` is the address `MA::allocate` returns if this call
has to grow the pool.  Returns the new state and the pointer handed out. -/
def DynamicPoolAllocator.allocate (MINSIZE : Nat) (ia : Nat → Nat)
    (s : DynamicPoolAllocator) (size ma : Nat) : Option (DynamicPoolAllocator × Nat) :=
  let found := findUsableBlock s.freeBlocks size
  let grown : Option (DynamicPoolAllocator × (Nat × Block) × Option Nat) :=
    match found.1 with
    | some best => some (s, best, found.2)
    | none => DynamicPoolAllocator.allocateBlock MINSIZE ia s size ma
  match grown with
  | some g =>
    match DynamicPoolAllocator.splitBlock ia g.1 g.2.1 g.2.2 size with
    | some split =>
      some ({ split.1 with usedBlocks := split.2 :: split.1.usedBlocks }, split.2.data)
    | none => none
  | none => none

/-! ## Vocabulary of the statements about byte counts -/

/-- The sum of the `size` fields over the nodes of the used list and of the
free list. -/
def sizeSum (s : DynamicSizePool) : Nat :=
  ((s.usedBlocks ++ s.freeBlocks).map (fun b => b.size)).sum

/-- The total number of bytes asked of the backing source, over the calls of
`MA::allocate` recorded in the log. -/
def bytesObtained (s : DynamicSizePool) : Nat :=
  (s.maAllocated.map (fun sp => sp.2)).sum

/-- A call whose requested size can be rounded up to 16 without wrapping
around and which is answered, when the pool has to grow, by a fresh span. -/
def OpFits (s : DynamicSizePool) : Op → Prop
  | Op.alloc size ma =>
    size + 15 < 2 ^ 64 ∧
      ((findUsableBlock s.freeBlocks size).1 = none → FreshSpan s ma (sizeToAlloc s size))
  | Op.dealloc _ => True

instance instDecidableOpFits : (s : DynamicSizePool) → (op : Op) → Decidable (OpFits s op)
  | s, Op.alloc size ma =>
    inferInstanceAs (Decidable (size + 15 < 2 ^ 64 ∧
      ((findUsableBlock s.freeBlocks size).1 = none → FreshSpan s ma (sizeToAlloc s size))))
  | _, Op.dealloc _ => inferInstanceAs (Decidable True)

/-- Every call of the sequence is `OpFits` in the state it is made in. -/
def RunFits : DynamicSizePool → List Op → Prop
  | _, [] => True
  | s, op :: ops => OpFits s op ∧ RunFits (step s op) ops

instance instDecidableRunFits :
    (s : DynamicSizePool) → (ops : List Op) → Decidable (RunFits s ops)
  | _, [] => inferInstanceAs (Decidable True)
  | s, op :: ops =>
    @instDecidableAnd _ _ (instDecidableOpFits s op) (instDecidableRunFits (step s op) ops)

/-- The byte counts of the pool agree: the spans obtained end inside the
address space and are pairwise disjoint, the sizes of the nodes add up to
`totalBytes`, and `totalBytes` is the number of bytes obtained. -/
structure SumInv (s : DynamicSizePool) : Prop where
  minBytes_lt : s.minBytes < 2 ^ 64
  bounded : ∀ sp ∈ s.maAllocated, sp.1 + sp.2 < 2 ^ 64
  disjoint : s.maAllocated.Pairwise SpanDisjoint
  sum : sizeSum s = s.totalBytes
  total : s.totalBytes = bytesObtained s

/-! # `DynamicSizePool` together with its node pool

A second embedding of `DynamicSizePool<MA, IA>` (src/DynamicSizePool.hpp),
for the statements that speak about `blockPool`.

* `blockPool`, a `FixedSizePool<struct Block, IA, (1 << 6)>`, is a state of
  the fixed-size pool embedded above, with slots of `sizeof(struct Block)`
  bytes; `ia` is its backing source.
* A node is kept together with the address of its storage, the value of the
  `Block *` that `blockPool.allocate()` returned for it.
* The lists, the counters and the logs are as in the first embedding.
* A call is `none` when a `blockPool.allocate()` made in it does not return
  within one nested call or returns the null pointer (address 0), or when a
  `blockPool.deallocate` made in it leaves by its `throw` or has no defined
  result.  After a null
  pointer `allocateBlock` returns with `curr = NULL` and `allocate` fails its
  `assert(best)`, and `splitBlock` returns with `curr` still in the free list,
  which `allocate` then links into the used list as well; the two lists of the
  embedding do not express either.  `releaseBlock` edits the lists and calls
  `blockPool.deallocate` in between; the embedding edits the lists first and
  makes these calls afterwards, in the order of the source.
-/

/-- A node `struct Block` at the address `addr` of its storage. -/
structure Node where
  addr : Nat
  block : Block
deriving DecidableEq, Repr

/-- The state of a `DynamicSizePool` with its node pool. -/
structure TwoTierPool where
  blockPool : FixedSizePool
  usedBlocks : List Node
  freeBlocks : List Node
  totalBytes : Nat
  allocBytes : Nat
  minBytes : Nat
  maAllocated : List (Nat × Nat)
  maDeallocated : List Nat
deriving DecidableEq, Repr

/-- The constructor: `blockPool()` builds the first slab of the node pool. -/
def TwoTierPool.init (minBytes : Nat) (ia : Nat → Nat) : TwoTierPool :=
  { blockPool := FixedSizePool.init (2 ^ 6) ia
    usedBlocks := [], freeBlocks := [], totalBytes := 0, allocBytes := 0,
    minBytes := minBytes, maAllocated := [], maDeallocated := [] }

/-- The test `!best || iter->size < best->size` of `findUsableBlock`. -/
def improvesNode (iter : Node) : Option (Nat × Node) → Bool
  | none => true
  | some (_, best) => decide (iter.block.size < best.block.size)

/-- The loop of `findUsableBlock` over nodes: `i` is the position of `iter`,
`iterPrev` the position of the node before it; the result is `(best, prev)`. -/
def findUsableNodeLoop (size : Nat) :
    List Node → Nat → Option Nat → Option (Nat × Node) → Option Nat →
      Option (Nat × Node) × Option Nat
  | [], _, _, best, prev => (best, prev)
  | iter :: rest, i, iterPrev, best, prev =>
    if size ≤ iter.block.size ∧ improvesNode iter best = true then
      findUsableNodeLoop size rest (i + 1) (some i) (some (i, iter)) iterPrev
    else
      findUsableNodeLoop size rest (i + 1) (some i) best prev

/-- `findUsableBlock(best, prev, size)` over the free list. -/
def findUsableNode (freeBlocks : List Node) (size : Nat) :
    Option (Nat × Node) × Option Nat :=
  findUsableNodeLoop size freeBlocks 0 none none none

/-- The nodes of a list up to and including `prev` (none when `prev` is
`NULL`). -/
def upToNode (l : List Node) : Option Nat → List Node
  | none => []
  | some j => l.take (j + 1)

/-- `allocateBlock(curr, prev, size)`; `ma` is the address returned by
`MA::allocate(sizeToAlloc)`.  Returns the new state, `curr` and `prev`. -/
def TwoTierPool.allocateBlock (ia : Nat → Nat) (t : TwoTierPool) (size ma : Nat) :
    Option (TwoTierPool × (Nat × Node) × Option Nat) :=
  let sizeToAlloc := max (alignmentAdjust size) t.minBytes
  let before := t.freeBlocks.takeWhile (fun b => decide (b.block.data < ma))
  let next := t.freeBlocks.dropWhile (fun b => decide (b.block.data < ma))
  match FixedSizePool.allocate (2 ^ 6) sizeofBlock ia 2 t.blockPool with
  | some (bp, ptr) =>
    if ptr = 0 then none
    else
      let curr : Node :=
        { addr := ptr, block := { data := ma, size := sizeToAlloc, isHead := true } }
      let prev : Option Nat := if before.length = 0 then none else some (before.length - 1)
      some ({ t with
              blockPool := bp
              freeBlocks := before ++ curr :: next
              totalBytes := wadd t.totalBytes sizeToAlloc
              maAllocated := (ma, sizeToAlloc) :: t.maAllocated },
            (before.length, curr), prev)
  | none => none

/-- `splitBlock(curr, prev, size)`: returns the new state and the node `curr`
as it is afterwards. -/
def TwoTierPool.splitBlock (ia : Nat → Nat) (t : TwoTierPool) (curr : Nat × Node)
    (prev : Option Nat) (size : Nat) : Option (TwoTierPool × Node) :=
  let alignedsize := alignmentAdjust size
  let currNext := t.freeBlocks.drop (curr.1 + 1)
  if curr.2.block.size = size ∨ curr.2.block.size = alignedsize then
    some ({ t with freeBlocks := upToNode t.freeBlocks prev ++ currNext }, curr.2)
  else
    match FixedSizePool.allocate (2 ^ 6) sizeofBlock ia 2 t.blockPool with
    | some (bp, ptr) =>
      if ptr = 0 then none
      else
        let newBlock : Node :=
          { addr := ptr
            block := { data := wadd curr.2.block.data size
                       size := wsub curr.2.block.size size, isHead := false } }
        some ({ t with
                blockPool := bp
                freeBlocks := upToNode t.freeBlocks prev ++ newBlock :: currNext },
              { curr.2 with block := { curr.2.block with size := size } })
    | none => none

/-- `allocate(size)`; `ma` is the address `MA::allocate` returns if this call
has to grow the pool.  Returns the new state and the pointer handed out. -/
def TwoTierPool.allocate (ia : Nat → Nat) (t : TwoTierPool) (size ma : Nat) :
    Option (TwoTierPool × Nat) :=
  let found := findUsableNode t.freeBlocks size
  let grown : Option (TwoTierPool × (Nat × Node) × Option Nat) :=
    match found.1 with
    | some best => some (t, best, found.2)
    | none => TwoTierPool.allocateBlock ia t size ma
  match grown with
  | some g =>
    match TwoTierPool.splitBlock ia g.1 g.2.1 g.2.2 size with
    | some split =>
      some ({ split.1 with
              usedBlocks := split.2 :: split.1.usedBlocks
              allocBytes := wadd split.1.allocBytes size },
            split.2.block.data)
    | none => none
  | none => none

/-- The last test of `releaseBlock`, "check if curr and next can be merged".
Returns the chain that starts at `cur` afterwards and the addresses of the
nodes handed to `blockPool.deallocate`. -/
def mergeNodeWithNext (cur : Node) : List Node → List Node × List Nat
  | nxt :: rest =>
    if wadd cur.block.data cur.block.size = nxt.block.data ∧ nxt.block.isHead = false then
      ({ cur with block := { cur.block with size := wadd cur.block.size nxt.block.size } } ::
        rest, [nxt.addr])
    else (cur :: nxt :: rest, [])
  | [] => ([cur], [])

/-- The second part of `releaseBlock`: `curr` is linked into the free list
after `prev`, the last leading node whose address is below its own, and merged
with `prev` and with the following node where the tests of the source allow
it.  Returns the free list and the addresses of the nodes handed to
`blockPool.deallocate`, in the order of the calls. -/
def releaseNodeIntoFree (freeBlocks : List Node) (curr : Node) : List Node × List Nat :=
  let before := freeBlocks.takeWhile (fun b => decide (b.block.data < curr.block.data))
  let next := freeBlocks.dropWhile (fun b => decide (b.block.data < curr.block.data))
  match before.getLast? with
  | some prev =>
    if wadd prev.block.data prev.block.size = curr.block.data ∧ curr.block.isHead = false then
      let merged := mergeNodeWithNext
        { prev with block := { prev.block with size := wadd prev.block.size curr.block.size } }
        next
      (before.dropLast ++ merged.1, curr.addr :: merged.2)
    else
      let merged := mergeNodeWithNext curr next
      (before ++ merged.1, merged.2)
  | none => mergeNodeWithNext curr next

/-- The calls `blockPool.deallocate(p)` for the addresses of a list, in
order. -/
def TwoTierPool.giveBack : List Nat → TwoTierPool → Option TwoTierPool
  | [], t => some t
  | p :: rest, t =>
    match FixedSizePool.deallocate (2 ^ 6) sizeofBlock t.blockPool p with
    | some (bp, false) => TwoTierPool.giveBack rest { t with blockPool := bp }
    | some (_, true) => none
    | none => none

/-- `releaseBlock(curr, prev)`: unlink `curr` from the used list, then link it
into the free list. -/
def TwoTierPool.releaseBlock (t : TwoTierPool) (curr : Nat × Node) (prev : Option Nat) :
    Option TwoTierPool :=
  let released := releaseNodeIntoFree t.freeBlocks curr.2
  TwoTierPool.giveBack released.2
    { t with
      usedBlocks := upToNode t.usedBlocks prev ++ t.usedBlocks.drop (curr.1 + 1)
      freeBlocks := released.1 }

/-- The search loop of `deallocate`: the first used node whose address is
`ptr`, and the node before it. -/
def findUsedNodeLoop (ptr : Nat) :
    List Node → Nat → Option Nat → Option (Nat × Node) × Option Nat
  | [], _, prev => (none, prev)
  | curr :: rest, i, prev =>
    if curr.block.data ≠ ptr then findUsedNodeLoop ptr rest (i + 1) (some i)
    else (some (i, curr), prev)

/-- `deallocate(ptr)`. -/
def TwoTierPool.deallocate (t : TwoTierPool) (ptr : Nat) : Option TwoTierPool :=
  match findUsedNodeLoop ptr t.usedBlocks 0 none with
  | (none, _) => some t
  | (some curr, prev) =>
    TwoTierPool.releaseBlock { t with allocBytes := wsub t.allocBytes curr.2.block.size }
      curr prev

/-- The first loop of `freeAllBlocks`, run for at most `fuel` rounds. -/
def TwoTierPool.releaseUsedLoop : Nat → TwoTierPool → Option TwoTierPool
  | 0, t => some t
  | fuel + 1, t =>
    match t.usedBlocks with
    | [] => some t
    | curr :: _ =>
      match TwoTierPool.releaseBlock t (0, curr) none with
      | some t1 => TwoTierPool.releaseUsedLoop fuel t1
      | none => none

/-- The second loop of `freeAllBlocks`: every free node is handed to
`MA::deallocate` and its storage to `blockPool.deallocate`. -/
def TwoTierPool.releaseFreeLoop : List Node → TwoTierPool → Option TwoTierPool
  | [], t => some { t with freeBlocks := [] }
  | curr :: rest, t =>
    match FixedSizePool.deallocate (2 ^ 6) sizeofBlock t.blockPool curr.addr with
    | some (bp, false) =>
      TwoTierPool.releaseFreeLoop rest
        { t with
          blockPool := bp
          maDeallocated := curr.block.data :: t.maDeallocated
          totalBytes := wsub t.totalBytes curr.block.size
          freeBlocks := rest }
    | some (_, true) => none
    | none => none

/-- `freeAllBlocks()` (the destructor).  Each round of the first loop removes
the head of the used list, so its length bounds the number of rounds. -/
def TwoTierPool.freeAllBlocks (t : TwoTierPool) : Option TwoTierPool :=
  match TwoTierPool.releaseUsedLoop t.usedBlocks.length t with
  | some drained => TwoTierPool.releaseFreeLoop drained.freeBlocks drained
  | none => none

/-- `numFreeBlocks()`. -/
def TwoTierPool.numFreeBlocks (t : TwoTierPool) : Nat := t.freeBlocks.length

/-- `numUsedBlocks()`. -/
def TwoTierPool.numUsedBlocks (t : TwoTierPool) : Nat := t.usedBlocks.length

/-- The state after one call. -/
def TwoTierPool.step (ia : Nat → Nat) (t : TwoTierPool) : Op → Option TwoTierPool
  | Op.alloc size ma =>
    match TwoTierPool.allocate ia t size ma with
    | some r => some r.1
    | none => none
  | Op.dealloc ptr => TwoTierPool.deallocate t ptr

/-- The state after a sequence of calls. -/
def TwoTierPool.run (ia : Nat → Nat) : TwoTierPool → List Op → Option TwoTierPool
  | t, [] => some t
  | t, op :: ops =>
    match TwoTierPool.step ia t op with
    | some t1 => TwoTierPool.run ia t1 ops
    | none => none

/-- The first embedding's state that a state with its node pool stands for:
the nodes without their addresses, and `blockPool` as its count of nodes in
use. -/
def TwoTierPool.erase (t : TwoTierPool) : DynamicSizePool :=
  { usedBlocks := t.usedBlocks.map Node.block
    freeBlocks := t.freeBlocks.map Node.block
    totalBytes := t.totalBytes
    allocBytes := t.allocBytes
    minBytes := t.minBytes
    blockPool := t.blockPool.numBlocks
    maAllocated := t.maAllocated
    maDeallocated := t.maDeallocated }

/-- The addresses of the nodes of the two lists. -/
def TwoTierPool.nodes (t : TwoTierPool) : List Nat :=
  (t.usedBlocks ++ t.freeBlocks).map Node.addr

/-- The number of slots of the node pool in use, as the source can compute it:
`blockPool.allocatedSize() / sizeof(struct Block)`. -/
def TwoTierPool.slotsInUse (t : TwoTierPool) : Nat :=
  FixedSizePool.allocatedSize sizeofBlock t.blockPool / sizeofBlock

/-- The backing source of the node pool answers its requests number 0 to `N`
with slabs whose slots do not start at address 0, end inside the 64-bit
address space and are pairwise disjoint. -/
def NodeSlabsFresh (ia : Nat → Nat) (N : Nat) : Prop :=
  ∀ j, j ≤ N →
    0 < (newPool (2 ^ 6) (ia j)).data ∧
    (newPool (2 ^ 6) (ia j)).data + 2 ^ 6 * 32 * sizeofBlock < 2 ^ 64 ∧
    ∀ i, i < j →
      SlabDisjoint (2 ^ 6 * 32) sizeofBlock (newPool (2 ^ 6) (ia i)) (newPool (2 ^ 6) (ia j))

/-- A backing source of the node pool that answers `2^20`, `2 * 2^20`, ... -/
def spacedIa : Nat → Nat := fun j => 2 ^ 20 * (j + 1)

/-- The invariant of the node pool `bp` and the addresses `held` of the nodes
in the two lists: the invariant of the fixed-size pool, `numBlocks` the number
of nodes, and the slabs those the backing source `ia` answered with, at most
`B + 1` of them. -/
structure NodePoolInv (ia : Nat → Nat) (bp : FixedSizePool) (held : List Nat) (B : Nat) :
    Prop where
  fixed : FixedInv (2 ^ 6) sizeofBlock bp held
  count : bp.numBlocks = held.length
  slabs : bp.pool.map (fun p => p.data) =
    (List.range bp.pool.length).map (fun j => (newPool (2 ^ 6) (ia j)).data)
  len : bp.pool.length ≤ B + 1

/-! ## Arithmetic of `std::size_t` -/

theorem wadd_of_lt {a b : Nat} (h : a + b < 2 ^ 64) : wadd a b = a + b :=
  Nat.mod_eq_of_lt h

theorem wsub_of_le {a b : Nat} (hb : b ≤ a) (ha : a < 2 ^ 64) : wsub a b = a - b := by
  unfold wsub
  have hb' : b % 2 ^ 64 = b := Nat.mod_eq_of_lt (by omega)
  rw [hb']
  have : a + (2 ^ 64 - b) = (a - b) + 2 ^ 64 := by omega
  rw [this, Nat.add_mod_right]
  exact Nat.mod_eq_of_lt (by omega)

theorem land_mask (x : Nat) (hx : x < 2 ^ 64) :
    x &&& (2 ^ 64 - 1 - (16 - 1)) = x / 16 * 16 := by
  apply Nat.eq_of_testBit_eq
  intro i
  have h1 : (2 ^ 64 - 1 - (16 - 1) : Nat) = 2 ^ 4 * (2 ^ 60 - 1) := by norm_num
  have h2 : x / 16 * 16 = 2 ^ 4 * (x / 2 ^ 4) := by norm_num [Nat.mul_comm]
  rw [Nat.testBit_land, h1, h2, Nat.testBit_mul_pow_two, Nat.testBit_mul_pow_two,
    Nat.testBit_two_pow_sub_one, ← Nat.shiftRight_eq_div_pow, Nat.testBit_shiftRight]
  by_cases hi : 4 ≤ i
  · by_cases hi2 : i < 64
    · have e : 4 + (i - 4) = i := by omega
      simp [hi, e]
      intro _; omega
    · have e : 4 + (i - 4) = i := by omega
      have : x.testBit i = false := by
        apply Nat.testBit_lt_two_pow
        calc x < 2 ^ 64 := hx
          _ ≤ 2 ^ i := Nat.pow_le_pow_right (by norm_num) (by omega)
      simp [hi, e, this]
  · simp [hi]

theorem alignmentAdjust_eq {n : Nat} (h : n + 15 < 2 ^ 64) :
    alignmentAdjust n = (n + 15) / 16 * 16 := by
  unfold alignmentAdjust
  rw [Nat.mod_eq_of_lt (by omega), land_mask _ (by omega)]

theorem alignmentAdjust_ge {n : Nat} (h : n + 15 < 2 ^ 64) : n ≤ alignmentAdjust n := by
  rw [alignmentAdjust_eq h]; omega

theorem alignmentAdjust_lt {n : Nat} (h : n + 15 < 2 ^ 64) : alignmentAdjust n < 2 ^ 64 := by
  rw [alignmentAdjust_eq h]; omega

/-! ## `findUsableBlock` -/

theorem getElem?_snoc_cases (pre : List Block) (x c : Block) (j : Nat)
    (h : (pre ++ [x])[j]? = some c) :
    (j < pre.length ∧ pre[j]? = some c) ∨ (j = pre.length ∧ c = x) := by
  rcases Nat.lt_trichotomy j pre.length with hj | hj | hj
  · left; rw [List.getElem?_append_left hj] at h; exact ⟨hj, h⟩
  · right; subst hj; simp at h; exact ⟨rfl, h.symm⟩
  · exfalso
    have : (pre ++ [x])[j]? = none := by
      apply List.getElem?_eq_none; simp; omega
    rw [this] at h; cases h

theorem findUsableBlockLoop_spec (n : Nat) (rest : List Block) :
    ∀ (pre : List Block) (best : Option (Nat × Block)) (prev : Option Nat),
      FindSpec pre n (best, prev) →
      FindSpec (pre ++ rest) n
        (findUsableBlockLoop n rest pre.length (lastPos pre) best prev) := by
  induction rest with
  | nil => intro pre best prev h; simpa [findUsableBlockLoop] using h
  | cons iter rest ih =>
    intro pre best prev h
    have hlen : (pre ++ [iter]).length = pre.length + 1 := by simp
    have hlast : lastPos (pre ++ [iter]) = some pre.length := by simp [lastPos]
    have happ : pre ++ iter :: rest = (pre ++ [iter]) ++ rest := by simp
    have hget : (pre ++ [iter])[pre.length]? = some iter := by simp
    unfold findUsableBlockLoop
    split_ifs with hc
    · have key : FindSpec (pre ++ [iter]) n (some (pre.length, iter), lastPos pre) := by
        refine ⟨hget, hc.1, ?_, ?_⟩
        · intro j c hj hn
          rcases getElem?_snoc_cases pre iter c j hj with ⟨_, hj⟩ | ⟨hj, hcx⟩
          · cases best with
            | none =>
              have := h.2 c (List.getElem?_mem hj)
              omega
            | some ib =>
              obtain ⟨i, b⟩ := ib
              have h1 := (h.2.2.1 j c hj hn).1
              have h2 : iter.size < b.size := by simpa [improves] using hc.2
              exact ⟨by omega, fun he => by omega⟩
          · rw [hcx, hj]; exact ⟨le_refl _, fun _ => le_refl _⟩
        · simp only [lastPos, predPos]
      have := ih (pre ++ [iter]) (some (pre.length, iter)) (lastPos pre) key
      rw [hlen, hlast] at this
      rw [happ]; exact this
    · have key : FindSpec (pre ++ [iter]) n (best, prev) := by
        cases best with
        | none =>
          refine ⟨h.1, ?_⟩
          intro c hcm
          rcases List.mem_append.1 hcm with hcm | hcm
          · exact h.2 c hcm
          · have : c = iter := by simpa using hcm
            subst this
            have : ¬ n ≤ c.size := fun hle => hc ⟨hle, rfl⟩
            omega
        | some ib =>
          obtain ⟨i, b⟩ := ib
          obtain ⟨h1, h2, h3, h4⟩ := h
          have hi : i < pre.length := by
            by_contra hge
            rw [List.getElem?_eq_none (by omega)] at h1; cases h1
          refine ⟨?_, h2, ?_, h4⟩
          · show (pre ++ [iter])[i]? = some b
            rw [List.getElem?_append_left hi]; exact h1
          · intro j c hj hn
            rcases getElem?_snoc_cases pre iter c j hj with ⟨_, hj⟩ | ⟨hj, hcx⟩
            · exact h3 j c hj hn
            · subst hcx
              have : ¬ c.size < b.size := by
                intro hlt; exact hc ⟨hn, by simp [improves, hlt]⟩
              exact ⟨by omega, fun _ => by omega⟩
      have := ih (pre ++ [iter]) best prev key
      rw [hlen, hlast] at this
      rw [happ]; exact this

theorem findUsableBlock_FindSpec (fl : List Block) (n : Nat) :
    FindSpec fl n (findUsableBlock fl n) := by
  have h := findUsableBlockLoop_spec n fl [] none none ⟨rfl, by simp⟩
  simpa [findUsableBlock, lastPos] using h


/-! ## The calls in terms of list surgery -/

theorem findUsableBlock_none_iff (fl : List Block) (n : Nat) :
    (findUsableBlock fl n).1 = none ↔ ∀ c ∈ fl, c.size < n := by
  have h := findUsableBlock_FindSpec fl n
  unfold FindSpec at h
  constructor
  · intro hn
    rw [hn] at h
    exact h.2
  · intro hall
    cases hb : (findUsableBlock fl n).1 with
    | none => rfl
    | some ib =>
      obtain ⟨i, b⟩ := ib
      rw [hb] at h
      have := hall b (List.getElem?_mem h.1)
      have := h.2.1
      omega

theorem upTo_predPos (l : List Block) (i : Nat) : upTo l (predPos i) = l.take i := by
  unfold predPos
  split_ifs with h
  · subst h; simp [upTo]
  · have : i - 1 + 1 = i := by omega
    simp [upTo, this]

theorem upTo_lastPos (pre post : List Block) : upTo (pre ++ post) (lastPos pre) = pre := by
  unfold lastPos
  split_ifs with h
  · have : pre = [] := List.length_eq_zero.1 h
    subst this; simp [upTo]
  · have : pre.length - 1 + 1 = pre.length := by omega
    simp [upTo, this]

theorem findUsableBlock_some {fl : List Block} {n i : Nat} {b : Block}
    (h : (findUsableBlock fl n).1 = some (i, b)) :
    n ≤ b.size ∧ fl = fl.take i ++ b :: fl.drop (i + 1) ∧
      upTo fl (findUsableBlock fl n).2 = fl.take i := by
  have hs := findUsableBlock_FindSpec fl n
  unfold FindSpec at hs
  rw [h] at hs
  obtain ⟨h1, h2, _, h4⟩ := hs
  obtain ⟨hi, hb⟩ := List.getElem?_eq_some.1 h1
  refine ⟨h2, ?_, ?_⟩
  · rw [← hb, ← List.drop_eq_getElem_cons hi, List.take_append_drop]
  · rw [h4, upTo_predPos]

theorem splitBlock_eq_carve (s : DynamicSizePool) (i : Nat) (b : Block) (prev : Option Nat)
    (n : Nat) (pre post : List Block) (hpre : upTo s.freeBlocks prev = pre)
    (hpost : s.freeBlocks.drop (i + 1) = post) :
    (({ (splitBlock s (i, b) prev n).1 with
        usedBlocks := (splitBlock s (i, b) prev n).2 :: (splitBlock s (i, b) prev n).1.usedBlocks
        allocBytes := wadd (splitBlock s (i, b) prev n).1.allocBytes n } : DynamicSizePool),
      (splitBlock s (i, b) prev n).2.data) = carve s pre b post n := by
  unfold splitBlock carve
  simp only [hpre, hpost]
  split_ifs <;> rfl

theorem allocate_found {s : DynamicSizePool} {n i : Nat} {b : Block} (ma : Nat)
    (h : (findUsableBlock s.freeBlocks n).1 = some (i, b)) :
    allocate s n ma = carve s (s.freeBlocks.take i) b (s.freeBlocks.drop (i + 1)) n := by
  have hs := findUsableBlock_some h
  unfold allocate
  simp only [h]
  exact splitBlock_eq_carve s i b _ n _ _ hs.2.2 rfl

/-- The state after `allocateBlock`. -/
theorem allocateBlock_state (s : DynamicSizePool) (n ma : Nat) :
    (allocateBlock s n ma).1 =
      { s with
        freeBlocks := s.freeBlocks.takeWhile (fun b => decide (b.data < ma)) ++
          { data := ma, size := sizeToAlloc s n, isHead := true } ::
            s.freeBlocks.dropWhile (fun b => decide (b.data < ma))
        totalBytes := wadd s.totalBytes (sizeToAlloc s n)
        blockPool := wadd s.blockPool 1
        maAllocated := (ma, sizeToAlloc s n) :: s.maAllocated } := rfl

theorem allocate_grow {s : DynamicSizePool} {n : Nat} (ma : Nat)
    (h : (findUsableBlock s.freeBlocks n).1 = none) :
    allocate s n ma =
      carve (allocateBlock s n ma).1 (s.freeBlocks.takeWhile (fun b => decide (b.data < ma)))
        { data := ma, size := sizeToAlloc s n, isHead := true }
        (s.freeBlocks.dropWhile (fun b => decide (b.data < ma))) n := by
  unfold allocate
  simp only [h]
  apply splitBlock_eq_carve
  · exact upTo_lastPos _ _
  · show List.drop _ (_ ++ _ :: _) = _
    rw [List.drop_append]; simp

theorem findUsedLoop_none (ptr : Nat) (l : List Block) (h : ∀ c ∈ l, c.data ≠ ptr) :
    ∀ i prev, (findUsedLoop ptr l i prev).1 = none := by
  induction l with
  | nil => intro i prev; rfl
  | cons c rest ih =>
    intro i prev
    unfold findUsedLoop
    rw [if_pos (h c (List.mem_cons_self _ _))]
    exact ih (fun d hd => h d (List.mem_cons_of_mem _ hd)) _ _

theorem findUsedLoop_some (ptr : Nat) (b : Block) (post : List Block) (hb : b.data = ptr) :
    ∀ (pre : List Block) (k : Nat) (prev : Option Nat), (∀ c ∈ pre, c.data ≠ ptr) →
      findUsedLoop ptr (pre ++ b :: post) k prev =
        (some (k + pre.length, b), if pre.length = 0 then prev else some (k + pre.length - 1)) := by
  intro pre
  induction pre with
  | nil => intro k prev _; simp [findUsedLoop, hb]
  | cons c rest ih =>
    intro k prev h
    have hc : c.data ≠ ptr := h c (List.mem_cons_self _ _)
    show findUsedLoop ptr (c :: (rest ++ b :: post)) k prev = _
    unfold findUsedLoop
    rw [if_pos hc, ih (k + 1) (some k) (fun d hd => h d (List.mem_cons_of_mem _ hd))]
    have e1 : k + 1 + rest.length = k + (c :: rest).length := by simp; omega
    rw [e1]
    congr 1
    by_cases hr : rest.length = 0
    · simp [hr]
    · simp [hr]

/-- The used list splits at the first node whose address is `ptr`. -/
theorem exists_first_used (ptr : Nat) (l : List Block) (h : ∃ c ∈ l, c.data = ptr) :
    ∃ pre b post, l = pre ++ b :: post ∧ b.data = ptr ∧ ∀ c ∈ pre, c.data ≠ ptr := by
  induction l with
  | nil => obtain ⟨c, hc, _⟩ := h; cases hc
  | cons c rest ih =>
    by_cases hc : c.data = ptr
    · exact ⟨[], c, rest, rfl, hc, by simp⟩
    · have : ∃ d ∈ rest, d.data = ptr := by
        obtain ⟨d, hd, hdp⟩ := h
        rcases List.mem_cons.1 hd with rfl | hd
        · exact absurd hdp hc
        · exact ⟨d, hd, hdp⟩
      obtain ⟨pre, b, post, e, hb, hpre⟩ := ih this
      refine ⟨c :: pre, b, post, by simp [e], hb, ?_⟩
      intro d hd
      rcases List.mem_cons.1 hd with rfl | hd
      · exact hc
      · exact hpre d hd

theorem deallocate_absent (s : DynamicSizePool) (ptr : Nat)
    (h : ∀ c ∈ s.usedBlocks, c.data ≠ ptr) : deallocate s ptr = s := by
  unfold deallocate
  have := findUsedLoop_none ptr s.usedBlocks h 0 none
  split
  · rfl
  · rename_i heq
    rw [heq] at this; cases this

theorem deallocate_present (s : DynamicSizePool) (ptr : Nat) (pre post : List Block) (b : Block)
    (hu : s.usedBlocks = pre ++ b :: post) (hb : b.data = ptr) (hpre : ∀ c ∈ pre, c.data ≠ ptr) :
    deallocate s ptr =
      { s with
        allocBytes := wsub s.allocBytes b.size
        usedBlocks := pre ++ post
        freeBlocks := (releaseIntoFree s.freeBlocks b).1
        blockPool := wsub s.blockPool (releaseIntoFree s.freeBlocks b).2 } := by
  unfold deallocate
  rw [hu, findUsedLoop_some ptr b post hb pre 0 none hpre]
  simp only [releaseBlock, Nat.zero_add]
  have e1 : upTo (pre ++ b :: post) (if pre.length = 0 then none else some (pre.length - 1)) = pre :=
    upTo_lastPos pre (b :: post)
  have e2 : List.drop (pre.length + 1) (pre ++ b :: post) = post := by
    rw [List.drop_append]; simp
  rw [e1, e2]

/-! ## Tilings of the spans -/

theorem BlockDisjoint.symmBlock {b c : Block} (h : BlockDisjoint b c) : BlockDisjoint c b :=
  Or.symm h

theorem SpanDisjoint.symmSpan {a b : Nat × Nat} (h : SpanDisjoint a b) : SpanDisjoint b a :=
  Or.symm h

theorem Tiles.perm {spans : List (Nat × Nat)} {l l' : List Block} (h : Tiles spans l)
    (hp : l.Perm l') : Tiles spans l' where
  inSpan := fun b hb => h.inSpan b (hp.mem_iff.2 hb)
  disjoint := (hp.pairwise_iff (fun {_ _} hbc => BlockDisjoint.symmBlock hbc)).1 h.disjoint
  covered := fun sp hsp x h1 h2 => by
    obtain ⟨b, hb, hx⟩ := h.covered sp hsp x h1 h2
    exact ⟨b, hp.mem_iff.1 hb, hx⟩

/-- Two spans of the pool that share a byte are the same span. -/
theorem SpansOK.eq_of_common {spans : List (Nat × Nat)} (h : SpansOK spans)
    {a b : Nat × Nat} (ha : a ∈ spans) (hb : b ∈ spans) (x : Nat)
    (hxa : InSpan x a) (hxb : InSpan x b) : a = b := by
  by_contra hne
  have := h.disjoint.forall (fun _ _ hab => SpanDisjoint.symmSpan hab) ha hb hne
  unfold InSpan at hxa hxb
  unfold SpanDisjoint at this
  omega

/-- The end of a tiling node lies inside the address space. -/
theorem Tiles.end_lt {spans : List (Nat × Nat)} {l : List Block} (h : Tiles spans l)
    (hs : SpansOK spans) {b : Block} (hb : b ∈ l) : b.data + b.size < 2 ^ 64 := by
  obtain ⟨_, sp, hsp, _, h2, _⟩ := h.inSpan b hb
  have := (hs.bounded sp hsp).2
  omega

theorem Tiles.split {spans : List (Nat × Nat)} {b : Block} {rest : List Block}
    (h : Tiles spans (b :: rest)) {n : Nat} (hn : 1 ≤ n) (hlt : n < b.size) :
    Tiles spans ({ b with size := n } ::
      { data := b.data + n, size := b.size - n, isHead := false } :: rest) where
  inSpan := by
    obtain ⟨hb1, sp, hsp, h1, h2, h3⟩ := h.inSpan b (List.mem_cons_self _ _)
    intro c hc
    rcases List.mem_cons.1 hc with rfl | hc
    · exact ⟨hn, sp, hsp, h1, by simp only; omega, h3⟩
    rcases List.mem_cons.1 hc with rfl | hc
    · refine ⟨by simp only; omega, sp, hsp, by simp only; omega, by simp only; omega, ?_⟩
      simp only
      constructor
      · intro hf; cases hf
      · intro he; omega
    · exact h.inSpan c (List.mem_cons_of_mem _ hc)
  disjoint := by
    have hd := h.disjoint
    rw [List.pairwise_cons] at hd
    rw [List.pairwise_cons, List.pairwise_cons]
    refine ⟨?_, ?_, hd.2⟩
    · intro c hc
      rcases List.mem_cons.1 hc with rfl | hc
      · left; simp only; omega
      · have := hd.1 c hc
        unfold BlockDisjoint at this ⊢
        simp only; omega
    · intro c hc
      have := hd.1 c hc
      unfold BlockDisjoint at this ⊢
      simp only; omega
  covered := by
    intro sp hsp x h1 h2
    obtain ⟨c, hc, hx⟩ := h.covered sp hsp x h1 h2
    rcases List.mem_cons.1 hc with rfl | hc
    · by_cases hxn : x < c.data + n
      · exact ⟨_, List.mem_cons_self _ _, by simp only; omega⟩
      · exact ⟨_, List.mem_cons_of_mem _ (List.mem_cons_self _ _), by simp only; omega⟩
    · exact ⟨c, List.mem_cons_of_mem _ (List.mem_cons_of_mem _ hc), hx⟩

theorem Tiles.merge {spans : List (Nat × Nat)} {p c : Block} {rest : List Block}
    (h : Tiles spans (p :: c :: rest)) (hs : SpansOK spans)
    (hadj : p.data + p.size = c.data) (hc : c.isHead = false) :
    Tiles spans ({ p with size := p.size + c.size } :: rest) where
  inSpan := by
    obtain ⟨hp1, sp, hsp, h1, h2, h3⟩ := h.inSpan p (List.mem_cons_self _ _)
    obtain ⟨hc1, sc, hsc, k1, k2, k3⟩ :=
      h.inSpan c (List.mem_cons_of_mem _ (List.mem_cons_self _ _))
    intro d hd
    rcases List.mem_cons.1 hd with rfl | hd
    · have hne : c.data ≠ sc.1 := by
        intro he; rw [k3.2 he] at hc; cases hc
      have hsame : sp = sc := by
        apply hs.eq_of_common hsp hsc (c.data - 1)
        · unfold InSpan; omega
        · unfold InSpan; omega
      subst hsame
      exact ⟨by simp only; omega, sp, hsp, h1, by simp only; omega, h3⟩
    · exact h.inSpan d (List.mem_cons_of_mem _ (List.mem_cons_of_mem _ hd))
  disjoint := by
    have hd := h.disjoint
    rw [List.pairwise_cons, List.pairwise_cons] at hd
    have hp1 := (h.inSpan p (List.mem_cons_self _ _)).1
    have hc1 := (h.inSpan c (List.mem_cons_of_mem _ (List.mem_cons_self _ _))).1
    rw [List.pairwise_cons]
    refine ⟨?_, hd.2.2⟩
    intro d hdm
    have h1 := hd.1 d (List.mem_cons_of_mem _ hdm)
    have h2 := hd.2.1 d hdm
    have hd1 := (h.inSpan d (List.mem_cons_of_mem _ (List.mem_cons_of_mem _ hdm))).1
    unfold BlockDisjoint at h1 h2 ⊢
    simp only; omega
  covered := by
    intro sp hsp x h1 h2
    obtain ⟨d, hd, hx⟩ := h.covered sp hsp x h1 h2
    rcases List.mem_cons.1 hd with rfl | hd
    · exact ⟨_, List.mem_cons_self _ _, by simp only; omega⟩
    rcases List.mem_cons.1 hd with rfl | hd
    · exact ⟨_, List.mem_cons_self _ _, by simp only; omega⟩
    · exact ⟨d, List.mem_cons_of_mem _ hd, hx⟩

theorem SpansOK.cons {spans : List (Nat × Nat)} (h : SpansOK spans) {a len : Nat}
    (hlen : 1 ≤ len) (hb : a + len < 2 ^ 64)
    (hd : ∀ sp ∈ spans, SpanDisjoint (a, len) sp) : SpansOK ((a, len) :: spans) where
  bounded := by
    intro sp hsp
    rcases List.mem_cons.1 hsp with rfl | hsp
    · exact ⟨hlen, hb⟩
    · exact h.bounded sp hsp
  disjoint := List.pairwise_cons.2 ⟨hd, h.disjoint⟩

theorem Tiles.grow {spans : List (Nat × Nat)} {l : List Block} (h : Tiles spans l)
    {a len : Nat} (hlen : 1 ≤ len) (hd : ∀ sp ∈ spans, SpanDisjoint (a, len) sp) :
    Tiles ((a, len) :: spans) ({ data := a, size := len, isHead := true } :: l) where
  inSpan := by
    intro b hb
    rcases List.mem_cons.1 hb with rfl | hb
    · exact ⟨hlen, (a, len), List.mem_cons_self _ _, le_refl _, le_refl _, by simp⟩
    · obtain ⟨h1, sp, hsp, h2⟩ := h.inSpan b hb
      exact ⟨h1, sp, List.mem_cons_of_mem _ hsp, h2⟩
  disjoint := by
    rw [List.pairwise_cons]
    refine ⟨?_, h.disjoint⟩
    intro b hb
    obtain ⟨h1, sp, hsp, h2, h3, _⟩ := h.inSpan b hb
    have := hd sp hsp
    unfold SpanDisjoint at this
    unfold BlockDisjoint
    simp only at this ⊢
    omega
  covered := by
    intro sp hsp x h1 h2
    rcases List.mem_cons.1 hsp with rfl | hsp
    · exact ⟨_, List.mem_cons_self _ _, h1, h2⟩
    · obtain ⟨b, hb, hx⟩ := h.covered sp hsp x h1 h2
      exact ⟨b, List.mem_cons_of_mem _ hb, hx⟩

/-! ## The free list: sorted and coalesced -/

/-- In an address-sorted list of disjoint non-empty nodes, a node ends before
any later node starts. -/
theorem lined_of_sorted {l : List Block} (hs : l.Pairwise (fun p q => p.data < q.data))
    (hd : l.Pairwise BlockDisjoint) (hpos : ∀ b ∈ l, 1 ≤ b.size) :
    l.Pairwise (fun p q => p.data + p.size ≤ q.data) := by
  refine (hs.and hd).imp_of_mem ?_
  intro p q _ hq h
  have := hpos q hq
  obtain ⟨h1, h2⟩ := h
  unfold BlockDisjoint at h2
  omega

theorem FreeOK.remove {pre post : List Block} {b : Block} (h : FreeOK (pre ++ b :: post))
    (hl : (pre ++ b :: post).Pairwise (fun p q => p.data + p.size ≤ q.data))
    (hb : 1 ≤ b.size) : FreeOK (pre ++ post) where
  sorted := h.sorted.sublist (List.Sublist.append_left (List.sublist_cons_self _ _) _)
  coalesced := by
    have hc := h.coalesced
    rw [List.chain'_append] at hc ⊢
    rw [List.pairwise_append, List.pairwise_cons] at hl
    refine ⟨hc.1, (List.chain'_cons'.1 hc.2.1).2, ?_⟩
    intro x hx y hy
    have hxb := hl.2.2 x (List.mem_of_mem_getLast? hx) b (List.mem_cons_self _ _)
    have hby := hl.2.1.1 y (List.mem_of_mem_head? hy)
    unfold NoMerge
    omega

theorem FreeOK.replace {pre post : List Block} {b : Block} (h : FreeOK (pre ++ b :: post))
    (hl : (pre ++ b :: post).Pairwise (fun p q => p.data + p.size ≤ q.data))
    {n : Nat} (hn : 1 ≤ n) (hlt : n < b.size) :
    FreeOK (pre ++ { data := b.data + n, size := b.size - n, isHead := false } :: post) where
  sorted := by
    have hs := h.sorted
    rw [List.pairwise_append, List.pairwise_cons] at hs hl ⊢
    refine ⟨hs.1, ⟨?_, hs.2.1.2⟩, ?_⟩
    · intro q hq
      have := hl.2.1.1 q hq
      simp only; omega
    · intro p hp q hq
      rcases List.mem_cons.1 hq with rfl | hq
      · have := hs.2.2 p hp b (List.mem_cons_self _ _)
        simp only; omega
      · exact hs.2.2 p hp q (List.mem_cons_of_mem _ hq)
  coalesced := by
    have hc := h.coalesced
    rw [List.chain'_append] at hc ⊢
    rw [List.pairwise_append, List.pairwise_cons] at hl
    rw [List.chain'_cons'] at hc ⊢
    refine ⟨hc.1, ⟨?_, hc.2.1.2⟩, ?_⟩
    · intro y hy
      have := hc.2.1.1 y hy
      unfold NoMerge at this ⊢
      simp only
      have e : b.data + n + (b.size - n) = b.data + b.size := by omega
      rw [e]; exact this
    · intro x hx y hy
      have hxb := hl.2.2 x (List.mem_of_mem_getLast? hx) b (List.mem_cons_self _ _)
      have : y = { data := b.data + n, size := b.size - n, isHead := false } := by
        simpa using hy.symm
      subst this
      unfold NoMerge
      simp only; omega

/-- Behind the scan of a sorted list, no address is below the one looked for. -/
theorem le_of_mem_dropWhile {l : List Block} (hs : l.Pairwise (fun p q => p.data < q.data))
    (a : Nat) : ∀ q ∈ l.dropWhile (fun b => decide (b.data < a)), a ≤ q.data := by
  induction l with
  | nil => intro q hq; simp at hq
  | cons c t ih =>
    rw [List.pairwise_cons] at hs
    intro q hq
    by_cases hc : c.data < a
    · rw [List.dropWhile_cons_of_pos (by simpa using hc)] at hq
      exact ih hs.2 q hq
    · rw [List.dropWhile_cons_of_neg (by simpa using hc)] at hq
      rcases List.mem_cons.1 hq with rfl | hq
      · omega
      · have := hs.1 q hq
        omega

theorem lt_of_mem_takeWhile {l : List Block} (a : Nat) :
    ∀ q ∈ l.takeWhile (fun b => decide (b.data < a)), q.data < a := by
  intro q hq
  simpa using List.mem_takeWhile_imp hq

theorem mem_of_mem_takeWhile {l : List Block} {p : Block → Bool} {q : Block}
    (h : q ∈ l.takeWhile p) : q ∈ l :=
  (List.takeWhile_sublist p).subset h

theorem mem_of_mem_dropWhile {l : List Block} {p : Block → Bool} {q : Block}
    (h : q ∈ l.dropWhile p) : q ∈ l :=
  (List.dropWhile_sublist p).subset h

/-- Linking a head node into the free list where `allocateBlock` puts it. -/
theorem FreeOK.insertHead {l : List Block} (h : FreeOK l) (a len : Nat)
    (hne : ∀ q ∈ l, q.data ≠ a)
    (hnm : ∀ q ∈ l, NoMerge { data := a, size := len, isHead := true } q) :
    FreeOK (l.takeWhile (fun b => decide (b.data < a)) ++
      { data := a, size := len, isHead := true } ::
        l.dropWhile (fun b => decide (b.data < a))) where
  sorted := by
    have hs := h.sorted
    rw [← List.takeWhile_append_dropWhile (fun b => decide (b.data < a)) l] at hs
    rw [List.pairwise_append] at hs ⊢
    rw [List.pairwise_cons]
    have hgt : ∀ q ∈ l.dropWhile (fun b => decide (b.data < a)), a < q.data := by
      intro q hq
      have h1 := le_of_mem_dropWhile h.sorted a q hq
      have h2 := hne q (mem_of_mem_dropWhile hq)
      omega
    refine ⟨hs.1, ⟨hgt, hs.2.1⟩, ?_⟩
    intro p hp q hq
    rcases List.mem_cons.1 hq with rfl | hq
    · exact lt_of_mem_takeWhile a p hp
    · exact hs.2.2 p hp q hq
  coalesced := by
    have hc := h.coalesced
    rw [← List.takeWhile_append_dropWhile (fun b => decide (b.data < a)) l] at hc
    rw [List.chain'_append] at hc ⊢
    rw [List.chain'_cons']
    refine ⟨hc.1, ⟨?_, hc.2.1⟩, ?_⟩
    · intro y hy
      exact hnm y (mem_of_mem_dropWhile (List.mem_of_mem_head? hy))
    · intro x _ y hy
      have : y = { data := a, size := len, isHead := true } := by simpa using hy.symm
      subst this
      unfold NoMerge
      simp

/-! ## `releaseBlock` keeps the free list sorted and coalesced -/

theorem mergeWithNext_nil (cur : Block) : mergeWithNext cur [] = ([cur], 0) := rfl

theorem mergeWithNext_cons (cur q : Block) (r : List Block) :
    mergeWithNext cur (q :: r) =
      if wadd cur.data cur.size = q.data ∧ q.isHead = false then
        ({ cur with size := wadd cur.size q.size } :: r, 1)
      else (cur :: q :: r, 0) := rfl

theorem releaseIntoFree_nil {l : List Block} {curr : Block}
    (h : l.takeWhile (fun b => decide (b.data < curr.data)) = []) :
    releaseIntoFree l curr =
      mergeWithNext curr (l.dropWhile (fun b => decide (b.data < curr.data))) := by
  unfold releaseIntoFree
  simp only [h, List.getLast?_nil]

theorem releaseIntoFree_concat {l bs : List Block} {p curr : Block}
    (h : l.takeWhile (fun b => decide (b.data < curr.data)) = bs ++ [p]) :
    releaseIntoFree l curr =
      if wadd p.data p.size = curr.data ∧ curr.isHead = false then
        (bs ++ (mergeWithNext { p with size := wadd p.size curr.size }
            (l.dropWhile (fun b => decide (b.data < curr.data)))).1,
          1 + (mergeWithNext { p with size := wadd p.size curr.size }
            (l.dropWhile (fun b => decide (b.data < curr.data)))).2)
      else
        ((bs ++ [p]) ++ (mergeWithNext curr
            (l.dropWhile (fun b => decide (b.data < curr.data)))).1,
          (mergeWithNext curr (l.dropWhile (fun b => decide (b.data < curr.data)))).2) := by
  unfold releaseIntoFree
  simp only [h, List.getLast?_concat, List.dropLast_concat]

theorem FreeOK.mergeFree {front next : List Block} {cur : Block}
    (hfs : front.Pairwise (fun p q => p.data < q.data)) (hfc : front.Chain' NoMerge)
    (hns : next.Pairwise (fun p q => p.data < q.data)) (hnc : next.Chain' NoMerge)
    (hlo : ∀ p ∈ front, p.data < cur.data) (hhi : ∀ q ∈ next, cur.data < q.data)
    (hlink : ∀ x ∈ front.getLast?, NoMerge x cur)
    (hcur : cur.data + cur.size < 2 ^ 64) (hnb : ∀ q ∈ next, q.data + q.size < 2 ^ 64) :
    FreeOK (front ++ (mergeWithNext cur next).1) := by
  cases next with
  | nil =>
    constructor
    · rw [List.pairwise_append]
      refine ⟨hfs, List.pairwise_singleton _ _, ?_⟩
      intro p hp q hq
      have : q = cur := by simpa [mergeWithNext_nil] using hq
      subst this; exact hlo p hp
    · rw [List.chain'_append]
      refine ⟨hfc, List.chain'_singleton _, ?_⟩
      intro x hx y hy
      have : y = cur := by simpa [mergeWithNext_nil] using hy.symm
      subst this; exact hlink x hx
  | cons q r =>
    rw [List.pairwise_cons] at hns
    rw [List.chain'_cons'] at hnc
    have hq := hnb q (List.mem_cons_self _ _)
    have hcq := hhi q (List.mem_cons_self _ _)
    have hw : wadd cur.data cur.size = cur.data + cur.size := wadd_of_lt hcur
    rw [mergeWithNext_cons, hw]
    split_ifs with hc
    · obtain ⟨hadj, hqh⟩ := hc
      have hw2 : wadd cur.size q.size = cur.size + q.size := wadd_of_lt (by omega)
      rw [hw2]
      constructor
      · rw [List.pairwise_append, List.pairwise_cons]
        refine ⟨hfs, ⟨?_, hns.2⟩, ?_⟩
        · intro y hy
          exact hhi y (List.mem_cons_of_mem _ hy)
        · intro p hp y hy
          rcases List.mem_cons.1 hy with rfl | hy
          · exact hlo p hp
          · exact lt_trans (hlo p hp) (hhi y (List.mem_cons_of_mem _ hy))
      · rw [List.chain'_append, List.chain'_cons']
        refine ⟨hfc, ⟨?_, hnc.2⟩, ?_⟩
        · intro y hy
          have := hnc.1 y hy
          unfold NoMerge at this ⊢
          simp only
          have e : cur.data + (cur.size + q.size) = q.data + q.size := by omega
          rw [e]; exact this
        · intro x hx y hy
          have : y = { cur with size := cur.size + q.size } := by simpa using hy.symm
          subst this
          exact hlink x hx
    · constructor
      · rw [List.pairwise_append, List.pairwise_cons, List.pairwise_cons]
        refine ⟨hfs, ⟨hhi, hns⟩, ?_⟩
        intro p hp y hy
        rcases List.mem_cons.1 hy with rfl | hy
        · exact hlo p hp
        · exact lt_trans (hlo p hp) (hhi y hy)
      · rw [List.chain'_append, List.chain'_cons', List.chain'_cons']
        refine ⟨hfc, ⟨?_, hnc⟩, ?_⟩
        · intro y hy
          have : y = q := by simpa using hy.symm
          subst this
          exact hc
        · intro x hx y hy
          have : y = cur := by simpa using hy.symm
          subst this
          exact hlink x hx

theorem FreeOK.releaseFree {l : List Block} (h : FreeOK l) (curr : Block)
    (hb : ∀ q ∈ l, q.data + q.size < 2 ^ 64) (hcb : curr.data + curr.size < 2 ^ 64)
    (hne : ∀ q ∈ l, q.data ≠ curr.data) : FreeOK (releaseIntoFree l curr).1 := by
  have hsplit := List.takeWhile_append_dropWhile (fun b => decide (b.data < curr.data)) l
  have hs := h.sorted
  have hc := h.coalesced
  rw [← hsplit, List.pairwise_append] at hs
  rw [← hsplit, List.chain'_append] at hc
  have hhi : ∀ q ∈ l.dropWhile (fun b => decide (b.data < curr.data)), curr.data < q.data := by
    intro q hq
    have h1 := le_of_mem_dropWhile h.sorted curr.data q hq
    have h2 := hne q (mem_of_mem_dropWhile hq)
    omega
  have hnb : ∀ q ∈ l.dropWhile (fun b => decide (b.data < curr.data)),
      q.data + q.size < 2 ^ 64 := fun q hq => hb q (mem_of_mem_dropWhile hq)
  cases hlast : (l.takeWhile (fun b => decide (b.data < curr.data))).getLast? with
  | none =>
    have hnil : l.takeWhile (fun b => decide (b.data < curr.data)) = [] := by
      simpa using hlast
    have := @FreeOK.mergeFree [] _ curr List.Pairwise.nil
      List.chain'_nil hs.2.1 hc.2.1 (by simp) hhi (by simp) hcb hnb
    rw [releaseIntoFree_nil hnil]
    simpa using this
  | some p =>
    obtain ⟨bs, hbs⟩ := List.getLast?_eq_some_iff.1 hlast
    have hp_mem : p ∈ l.takeWhile (fun b => decide (b.data < curr.data)) := by
      rw [hbs]; simp
    have hp_lt : p.data < curr.data := lt_of_mem_takeWhile _ p hp_mem
    have hpb := hb p (mem_of_mem_takeWhile hp_mem)
    have hw : wadd p.data p.size = p.data + p.size := wadd_of_lt hpb
    rw [releaseIntoFree_concat hbs, hw]
    split_ifs with hm
    · obtain ⟨hadj, hch⟩ := hm
      have hw2 : wadd p.size curr.size = p.size + curr.size := wadd_of_lt (by omega)
      rw [hw2]
      have hs1 := hs.1
      have hc1 := hc.1
      rw [hbs, List.pairwise_append] at hs1
      rw [hbs, List.chain'_append] at hc1
      apply FreeOK.mergeFree hs1.1 hc1.1 hs.2.1 hc.2.1
      · intro x hx
        exact hs1.2.2 x hx p (List.mem_singleton_self _)
      · intro q hq
        exact lt_trans hp_lt (hhi q hq)
      · intro x hx
        have := hc1.2.2 x hx p (by simp)
        exact this
      · simp only; omega
      · exact hnb
    · rw [← hbs]
      apply FreeOK.mergeFree hs.1 hc.1 hs.2.1 hc.2.1
      · exact fun x hx => lt_of_mem_takeWhile _ x hx
      · exact hhi
      · intro x hx
        have : x = p := by
          rw [hlast] at hx; simpa using hx.symm
        subst this
        exact hm
      · exact hcb
      · exact hnb

/-! ## `releaseBlock` keeps the tiling -/

theorem Tiles.mergeNextTiles {spans : List (Nat × Nat)} {cur : Block} {next others : List Block}
    (h : Tiles spans (cur :: next ++ others)) (hs : SpansOK spans) :
    Tiles spans ((mergeWithNext cur next).1 ++ others) := by
  cases next with
  | nil => simpa [mergeWithNext_nil] using h
  | cons q r =>
    have hcur := h.end_lt hs (List.mem_cons_self _ _)
    have hq := h.end_lt hs (b := q) (by simp)
    have hw : wadd cur.data cur.size = cur.data + cur.size := wadd_of_lt hcur
    rw [mergeWithNext_cons, hw]
    split_ifs with hc
    · obtain ⟨hadj, hqh⟩ := hc
      have hw2 : wadd cur.size q.size = cur.size + q.size := wadd_of_lt (by omega)
      rw [hw2]
      exact @Tiles.merge spans cur q (r ++ others) h hs hadj hqh
    · exact h

theorem Tiles.releaseTiles {spans : List (Nat × Nat)} {curr : Block} {l others : List Block}
    (h : Tiles spans (curr :: l ++ others)) (hs : SpansOK spans) :
    Tiles spans ((releaseIntoFree l curr).1 ++ others) := by
  have hsplit := List.takeWhile_append_dropWhile (fun b => decide (b.data < curr.data)) l
  cases hlast : (l.takeWhile (fun b => decide (b.data < curr.data))).getLast? with
  | none =>
    have hnil : l.takeWhile (fun b => decide (b.data < curr.data)) = [] := by
      simpa using hlast
    rw [releaseIntoFree_nil hnil]
    rw [hnil, List.nil_append] at hsplit
    apply Tiles.mergeNextTiles _ hs
    rw [hsplit]; exact h
  | some p =>
    obtain ⟨bs, hbs⟩ := List.getLast?_eq_some_iff.1 hlast
    rw [hbs] at hsplit
    have hpl : p ∈ l := by rw [← hsplit]; simp
    have hpb := h.end_lt hs (b := p) (by simp [hpl])
    have hcb := h.end_lt hs (b := curr) (by simp)
    have hw : wadd p.data p.size = p.data + p.size := wadd_of_lt hpb
    rw [releaseIntoFree_concat hbs, hw]
    generalize l.dropWhile (fun b => decide (b.data < curr.data)) = next at hsplit ⊢
    subst hsplit
    split_ifs with hm
    · obtain ⟨hadj, hch⟩ := hm
      have hw2 : wadd p.size curr.size = p.size + curr.size := wadd_of_lt (by omega)
      rw [hw2]
      have h1 : Tiles spans (p :: curr :: (next ++ (bs ++ others))) := by
        apply h.perm
        rw [List.perm_iff_count]
        intro a
        simp only [List.count_append, List.count_cons, List.count_nil]
        omega
      have h2 := Tiles.merge h1 hs hadj hch
      have h3 := @Tiles.mergeNextTiles spans _ next (bs ++ others) (by simpa using h2) hs
      apply h3.perm
      rw [List.perm_iff_count]
      intro a
      simp only [List.count_append, List.count_cons, List.count_nil]
      omega
    · have h1 : Tiles spans (curr :: next ++ ((bs ++ [p]) ++ others)) := by
        apply h.perm
        rw [List.perm_iff_count]
        intro a
        simp only [List.count_append, List.count_cons, List.count_nil]
        omega
      have h3 := Tiles.mergeNextTiles h1 hs
      apply h3.perm
      rw [List.perm_iff_count]
      intro a
      simp only [List.count_append, List.count_cons, List.count_nil]
      omega

/-! ## The invariant is kept by every call -/

theorem Inv.init {minBytes : Nat} (h : minBytes < 2 ^ 64) :
    Inv (DynamicSizePool.init minBytes) where
  minBytes_lt := h
  spans := ⟨by simp [DynamicSizePool.init], by simp [DynamicSizePool.init]⟩
  tiles := ⟨by simp [DynamicSizePool.init], by simp [DynamicSizePool.init],
    by simp [DynamicSizePool.init]⟩
  free := ⟨by simp [DynamicSizePool.init], by simp [DynamicSizePool.init]⟩

/-- The free list of a pool in a good state is lined up: each node ends before
the next one starts. -/
theorem Inv.lined {s : DynamicSizePool} (h : Inv s) :
    s.freeBlocks.Pairwise (fun p q => p.data + p.size ≤ q.data) := by
  apply lined_of_sorted h.free.sorted
  · exact h.tiles.disjoint.sublist (List.sublist_append_right _ _)
  · intro b hb
    exact (h.tiles.inSpan b (List.mem_append_right _ hb)).1

theorem perm_by_count {l l' : List Block} (h : ∀ a, l.count a = l'.count a) : l.Perm l' :=
  List.perm_iff_count.2 h

theorem Inv.carve {s : DynamicSizePool} (h : Inv s) {pre post : List Block} {b : Block}
    (hf : s.freeBlocks = pre ++ b :: post) {n : Nat} (hn : 1 ≤ n) (hle : n ≤ b.size) :
    Inv (carve s pre b post n).1 := by
  have hl := h.lined
  have ht := h.tiles
  have hfr := h.free
  rw [hf] at hl ht hfr
  have hbm : b ∈ s.usedBlocks ++ (pre ++ b :: post) := by simp
  have hb1 := (ht.inSpan b hbm).1
  have hbe := ht.end_lt h.spans hbm
  unfold SimPool.carve
  split_ifs with hc
  · refine ⟨h.minBytes_lt, h.spans, ?_, hfr.remove hl hb1⟩
    apply ht.perm
    apply perm_by_count
    intro a
    simp only [List.count_append, List.count_cons, List.count_nil]
    omega
  · have hlt : n < b.size := by
      have : b.size ≠ n := fun e => hc (Or.inl e)
      omega
    have hw1 : wadd b.data n = b.data + n := wadd_of_lt (by omega)
    have hw2 : wsub b.size n = b.size - n := wsub_of_le hle (by omega)
    simp only [hw1, hw2]
    refine ⟨h.minBytes_lt, h.spans, ?_, hfr.replace hl hn hlt⟩
    have h1 : Tiles s.maAllocated (b :: (s.usedBlocks ++ (pre ++ post))) := by
      apply ht.perm
      apply perm_by_count
      intro a
      simp only [List.count_append, List.count_cons, List.count_nil]
      omega
    apply (h1.split hn hlt).perm
    apply perm_by_count
    intro a
    simp only [List.count_append, List.count_cons, List.count_nil]
    omega

theorem sizeToAlloc_pos {s : DynamicSizePool} {n : Nat} (hn : 1 ≤ n) (hb : n + 15 < 2 ^ 64) :
    1 ≤ sizeToAlloc s n := by
  have := alignmentAdjust_ge hb
  unfold sizeToAlloc
  omega

theorem le_sizeToAlloc {s : DynamicSizePool} {n : Nat} (hb : n + 15 < 2 ^ 64) :
    n ≤ sizeToAlloc s n := by
  have := alignmentAdjust_ge hb
  unfold sizeToAlloc
  omega

theorem Inv.allocateBlock {s : DynamicSizePool} (h : Inv s) {n ma : Nat}
    (hpos : 1 ≤ sizeToAlloc s n) (hfresh : FreshSpan s ma (sizeToAlloc s n)) :
    Inv (allocateBlock s n ma).1 := by
  rw [allocateBlock_state]
  have key : ∀ q ∈ s.freeBlocks, q.data ≠ ma ∧
      NoMerge { data := ma, size := sizeToAlloc s n, isHead := true } q := by
    intro q hq
    obtain ⟨h1, sp, hsp, h2, h3, h4⟩ := h.tiles.inSpan q (List.mem_append_right _ hq)
    have hd := hfresh.2 sp hsp
    unfold SpanDisjoint at hd
    simp only at hd
    constructor
    · omega
    · unfold NoMerge
      simp only
      rintro ⟨he, hh⟩
      have : q.data ≠ sp.1 := by
        intro e; rw [h4.2 e] at hh; cases hh
      omega
  refine ⟨h.minBytes_lt, h.spans.cons hpos hfresh.1 hfresh.2, ?_, ?_⟩
  · apply (h.tiles.grow hpos hfresh.2).perm
    apply perm_by_count
    intro a
    have e := congrArg (List.count a)
      (List.takeWhile_append_dropWhile (fun b => decide (b.data < ma)) s.freeBlocks)
    simp only [List.count_append, List.count_cons, List.count_nil] at e ⊢
    omega
  · exact h.free.insertHead ma _ (fun q hq => (key q hq).1) (fun q hq => (key q hq).2)

theorem Inv.allocate {s : DynamicSizePool} (h : Inv s) {n ma : Nat}
    (hok : OpOK s (Op.alloc n ma)) : Inv (allocate s n ma).1 := by
  obtain ⟨hn, hb, hfresh⟩ := hok
  cases hfind : (findUsableBlock s.freeBlocks n).1 with
  | none =>
    rw [allocate_grow ma hfind]
    have h1 := h.allocateBlock (sizeToAlloc_pos hn hb) (hfresh hfind)
    apply h1.carve _ hn (le_sizeToAlloc hb)
    rw [allocateBlock_state]
  | some ib =>
    obtain ⟨i, b⟩ := ib
    rw [allocate_found ma hfind]
    have hs := findUsableBlock_some hfind
    exact h.carve hs.2.1 hn hs.1

theorem Inv.deallocate {s : DynamicSizePool} (h : Inv s) (ptr : Nat) :
    Inv (deallocate s ptr) := by
  by_cases hex : ∃ c ∈ s.usedBlocks, c.data = ptr
  · obtain ⟨pre, b, post, hu, hb, hpre⟩ := exists_first_used ptr s.usedBlocks hex
    rw [deallocate_present s ptr pre post b hu hb hpre]
    have ht := h.tiles
    rw [hu] at ht
    have h1 : Tiles s.maAllocated (b :: s.freeBlocks ++ (pre ++ post)) := by
      apply ht.perm
      apply perm_by_count
      intro a
      simp only [List.count_append, List.count_cons, List.count_nil]
      omega
    refine ⟨h.minBytes_lt, h.spans, ?_, ?_⟩
    · apply (h1.releaseTiles h.spans).perm
      exact List.perm_append_comm
    · apply h.free.releaseFree
      · intro q hq
        exact h1.end_lt h.spans (by simp [hq])
      · exact h1.end_lt h.spans (by simp)
      · intro q hq
        have hd := h1.disjoint
        rw [List.cons_append, List.pairwise_cons] at hd
        have hbq := hd.1 q (List.mem_append_left _ hq)
        have hq1 := (h1.inSpan q (by simp [hq])).1
        have hb1 := (h1.inSpan b (by simp)).1
        unfold BlockDisjoint at hbq
        omega
  · have : ∀ c ∈ s.usedBlocks, c.data ≠ ptr := by
      intro c hc e; exact hex ⟨c, hc, e⟩
    rw [deallocate_absent s ptr this]
    exact h

theorem Inv.step {s : DynamicSizePool} (h : Inv s) {op : Op} (hok : OpOK s op) :
    Inv (step s op) := by
  cases op with
  | alloc n ma => exact h.allocate hok
  | dealloc ptr => exact h.deallocate ptr

theorem Inv.run {ops : List Op} : ∀ {s : DynamicSizePool}, Inv s → RunOK s ops →
    Inv (run s ops) := by
  induction ops with
  | nil => intro s h _; exact h
  | cons op ops ih =>
    intro s h hok
    exact ih (h.step hok.1) hok.2

/-! ## A pool without used nodes holds exactly its head nodes -/

/-- In a sorted chain, two nodes with no node between them are neighbours. -/
theorem chain_of_no_between {R : Block → Block → Prop} :
    ∀ {l : List Block}, l.Pairwise (fun p q => p.data < q.data) → l.Chain' R →
      ∀ {c b : Block}, c ∈ l → b ∈ l → c.data < b.data →
        (∀ d ∈ l, ¬ (c.data < d.data ∧ d.data < b.data)) → R c b := by
  intro l
  induction l with
  | nil => intro _ _ c b hc; cases hc
  | cons x t ih =>
    intro hs hch c b hc hb hlt hno
    rw [List.pairwise_cons] at hs
    rw [List.chain'_cons'] at hch
    rcases List.mem_cons.1 hc with rfl | hc
    · rcases List.mem_cons.1 hb with rfl | hb
      · omega
      · cases t with
        | nil => cases hb
        | cons y t2 =>
          have hRy : R c y := hch.1 y (by simp)
          have hcy := hs.1 y (List.mem_cons_self _ _)
          rcases List.mem_cons.1 hb with rfl | hb2
          · exact hRy
          · exfalso
            have hs2 := hs.2
            rw [List.pairwise_cons] at hs2
            have := hs2.1 b hb2
            exact hno y (by simp) ⟨hcy, this⟩
    · rcases List.mem_cons.1 hb with hbx | hbt
      · have := hs.1 c hc
        rw [hbx] at hlt
        omega
      · exact ih hs.2 hch.2 hc hbt hlt
          (fun d hd => hno d (List.mem_cons_of_mem _ hd))

/-- Two nodes of a tiling with the same address are the same node. -/
theorem Tiles.eq_of_data_eq {spans : List (Nat × Nat)} {l : List Block} (h : Tiles spans l)
    {b c : Block} (hb : b ∈ l) (hc : c ∈ l) (he : b.data = c.data) : b = c := by
  by_contra hne
  have hd := h.disjoint.forall (fun _ _ hab => BlockDisjoint.symmBlock hab) hb hc hne
  have h1 := (h.inSpan b hb).1
  have h2 := (h.inSpan c hc).1
  unfold BlockDisjoint at hd
  omega

theorem Tiles.disjoint_of_ne {spans : List (Nat × Nat)} {l : List Block} (h : Tiles spans l)
    {b c : Block} (hb : b ∈ l) (hc : c ∈ l) (hne : b ≠ c) : BlockDisjoint b c :=
  h.disjoint.forall (fun _ _ hab => BlockDisjoint.symmBlock hab) hb hc hne

theorem Inv.free_isHead {s : DynamicSizePool} (h : Inv s) (hu : s.usedBlocks = []) :
    ∀ b ∈ s.freeBlocks, b.isHead = true := by
  have ht := h.tiles
  rw [hu, List.nil_append] at ht
  intro b hb
  by_contra hnh
  have hbf : b.isHead = false := by simpa using hnh
  obtain ⟨hb1, sp, hsp, h1, h2, h3⟩ := ht.inSpan b hb
  have hne : b.data ≠ sp.1 := by
    intro e; rw [h3.2 e] at hbf; cases hbf
  obtain ⟨c, hc, hc1, hc2⟩ := ht.covered sp hsp (b.data - 1) (by omega) (by omega)
  have hcb : c ≠ b := by
    intro e; subst e; omega
  have hd := ht.disjoint_of_ne hc hb hcb
  have hcpos := (ht.inSpan c hc).1
  have hend : c.data + c.size = b.data := by
    unfold BlockDisjoint at hd; omega
  have hR : NoMerge c b := by
    apply chain_of_no_between h.free.sorted h.free.coalesced hc hb (by omega)
    intro d hd ⟨hd1, hd2⟩
    have hcd : c ≠ d := by
      intro e; subst e; omega
    have hdd := ht.disjoint_of_ne hc hd hcd
    have hdpos := (ht.inSpan d hd).1
    unfold BlockDisjoint at hdd
    omega
  exact hR ⟨hend, hbf⟩

theorem Inv.free_is_span {s : DynamicSizePool} (h : Inv s) (hu : s.usedBlocks = []) :
    ∀ b ∈ s.freeBlocks, (b.data, b.size) ∈ s.maAllocated := by
  have ht := h.tiles
  rw [hu, List.nil_append] at ht
  intro b hb
  have hbh := h.free_isHead hu b hb
  obtain ⟨hb1, sp, hsp, h1, h2, h3⟩ := ht.inSpan b hb
  have hbd : b.data = sp.1 := h3.1 hbh
  have hsz : b.size = sp.2 := by
    by_contra hne
    obtain ⟨c, hc, hc1, hc2⟩ := ht.covered sp hsp (b.data + b.size) (by omega) (by omega)
    have hch := h.free_isHead hu c hc
    obtain ⟨_, sc, hsc, k1, k2, k3⟩ := ht.inSpan c hc
    have hcd : c.data = sc.1 := k3.1 hch
    have hsame : sp = sc := by
      apply h.spans.eq_of_common hsp hsc (b.data + b.size)
      · unfold InSpan; omega
      · unfold InSpan; omega
    subst hsame
    have : b = c := ht.eq_of_data_eq hb hc (by omega)
    subst this
    omega
  have : (b.data, b.size) = sp := by
    rw [hbd, hsz]
  rw [this]; exact hsp

theorem Inv.span_is_free {s : DynamicSizePool} (h : Inv s) (hu : s.usedBlocks = []) :
    ∀ sp ∈ s.maAllocated, ∃ b ∈ s.freeBlocks, (b.data, b.size) = sp := by
  have ht := h.tiles
  rw [hu, List.nil_append] at ht
  intro sp hsp
  have hpos := (h.spans.bounded sp hsp).1
  obtain ⟨c, hc, hc1, hc2⟩ := ht.covered sp hsp sp.1 (le_refl _) (by omega)
  have hcs := h.free_is_span hu c hc
  refine ⟨c, hc, ?_⟩
  apply h.spans.eq_of_common hcs hsp sp.1
  · unfold InSpan; simp only; omega
  · unfold InSpan; omega

/-- With an empty used list, the free list is the list of the spans obtained
from the backing source, one head node for each. -/
theorem Inv.drained {s : DynamicSizePool} (h : Inv s) (hu : s.usedBlocks = []) :
    (∀ b ∈ s.freeBlocks, b.isHead = true) ∧
      (s.freeBlocks.map (fun b => (b.data, b.size))).Perm s.maAllocated := by
  refine ⟨h.free_isHead hu, ?_⟩
  rw [List.perm_ext_iff_of_nodup]
  · intro sp
    constructor
    · intro hm
      obtain ⟨b, hb, rfl⟩ := List.mem_map.1 hm
      exact h.free_is_span hu b hb
    · intro hm
      obtain ⟨b, hb, e⟩ := h.span_is_free hu sp hm
      exact List.mem_map.2 ⟨b, hb, e⟩
  · rw [List.Nodup, List.pairwise_map]
    refine h.free.sorted.imp ?_
    intro p q hpq e
    have : p.data = q.data := congrArg Prod.fst e
    omega
  · rw [List.Nodup]
    refine h.spans.disjoint.imp_of_mem ?_
    intro a b ha hb hd e
    subst e
    have := (h.spans.bounded a ha).1
    unfold SpanDisjoint at hd
    omega

/-! ## What the calls leave alone -/

theorem carve_fields (t : DynamicSizePool) (pre post : List Block) (b : Block) (n : Nat) :
    (carve t pre b post n).1.maAllocated = t.maAllocated ∧
    (carve t pre b post n).1.maDeallocated = t.maDeallocated ∧
    (carve t pre b post n).1.totalBytes = t.totalBytes ∧
    (carve t pre b post n).1.minBytes = t.minBytes ∧
    (carve t pre b post n).2 = b.data ∧
    ∃ c, (carve t pre b post n).1.usedBlocks = c :: t.usedBlocks ∧
      c.data = b.data ∧ c.isHead = b.isHead ∧ (n ≤ b.size → n ≤ c.size) := by
  unfold carve
  split_ifs
  · exact ⟨rfl, rfl, rfl, rfl, rfl, b, rfl, rfl, rfl, fun h => h⟩
  · exact ⟨rfl, rfl, rfl, rfl, rfl, _, rfl, rfl, rfl, fun _ => le_refl _⟩

theorem allocate_fields (s : DynamicSizePool) (n ma : Nat) :
    (allocate s n ma).1.maDeallocated = s.maDeallocated ∧
    (allocate s n ma).1.minBytes = s.minBytes ∧
    ∃ c, (allocate s n ma).1.usedBlocks = c :: s.usedBlocks ∧
      c.data = (allocate s n ma).2 ∧ (n + 15 < 2 ^ 64 → n ≤ c.size) := by
  cases hfind : (findUsableBlock s.freeBlocks n).1 with
  | none =>
    rw [allocate_grow ma hfind]
    obtain ⟨_, h2, _, h4, h5, c, hc1, hc2, _, hc4⟩ := carve_fields (allocateBlock s n ma).1
      (s.freeBlocks.takeWhile (fun b => decide (b.data < ma)))
      (s.freeBlocks.dropWhile (fun b => decide (b.data < ma)))
      { data := ma, size := sizeToAlloc s n, isHead := true } n
    refine ⟨h2, h4, c, hc1, by rw [hc2, h5], ?_⟩
    intro hb
    exact hc4 (le_sizeToAlloc hb)
  | some ib =>
    obtain ⟨i, b⟩ := ib
    rw [allocate_found ma hfind]
    obtain ⟨_, h2, _, h4, h5, c, hc1, hc2, _, hc4⟩ :=
      carve_fields s (s.freeBlocks.take i) (s.freeBlocks.drop (i + 1)) b n
    exact ⟨h2, h4, c, hc1, by rw [hc2, h5], fun _ => hc4 (findUsableBlock_some hfind).1⟩

theorem deallocate_fields (s : DynamicSizePool) (ptr : Nat) :
    (deallocate s ptr).maAllocated = s.maAllocated ∧
    (deallocate s ptr).maDeallocated = s.maDeallocated ∧
    (deallocate s ptr).totalBytes = s.totalBytes ∧
    (deallocate s ptr).minBytes = s.minBytes := by
  by_cases hex : ∃ c ∈ s.usedBlocks, c.data = ptr
  · obtain ⟨pre, b, post, hu, hb, hpre⟩ := exists_first_used ptr s.usedBlocks hex
    rw [deallocate_present s ptr pre post b hu hb hpre]
    exact ⟨rfl, rfl, rfl, rfl⟩
  · have : ∀ c ∈ s.usedBlocks, c.data ≠ ptr := by
      intro c hc e; exact hex ⟨c, hc, e⟩
    rw [deallocate_absent s ptr this]
    exact ⟨rfl, rfl, rfl, rfl⟩

theorem step_maDeallocated (s : DynamicSizePool) (op : Op) :
    (step s op).maDeallocated = s.maDeallocated := by
  cases op with
  | alloc n ma => exact (allocate_fields s n ma).1
  | dealloc p => exact (deallocate_fields s p).2.1

theorem run_maDeallocated (ops : List Op) : ∀ s : DynamicSizePool,
    (run s ops).maDeallocated = s.maDeallocated := by
  induction ops with
  | nil => intro s; rfl
  | cons op ops ih =>
    intro s
    show (run (step s op) ops).maDeallocated = _
    rw [ih, step_maDeallocated]

/-- After `deallocate(ptr)` in a good state no used node has the address `ptr`. -/
theorem absent_after_deallocate {s : DynamicSizePool} (h : Inv s) (ptr : Nat) :
    ∀ c ∈ (deallocate s ptr).usedBlocks, c.data ≠ ptr := by
  by_cases hex : ∃ c ∈ s.usedBlocks, c.data = ptr
  · obtain ⟨pre, b, post, hu, hb, hpre⟩ := exists_first_used ptr s.usedBlocks hex
    rw [deallocate_present s ptr pre post b hu hb hpre]
    intro c hc
    rcases List.mem_append.1 hc with hc | hc
    · exact hpre c hc
    · have hd := h.tiles.disjoint
      rw [hu, List.pairwise_append, List.pairwise_append, List.pairwise_cons] at hd
      have hbc := hd.1.2.1.1 c hc
      have hb1 := (h.tiles.inSpan b (by rw [hu]; simp)).1
      have hc1 := (h.tiles.inSpan c (by rw [hu]; simp [hc])).1
      unfold BlockDisjoint at hbc
      omega
  · have : ∀ c ∈ s.usedBlocks, c.data ≠ ptr := by
      intro c hc e; exact hex ⟨c, hc, e⟩
    rw [deallocate_absent s ptr this]
    exact this

/-! ## Pools whose free list is a single node -/

theorem alignmentAdjust_eq_alignUp {n : Nat} (h : n + 15 < 2 ^ 64) :
    alignmentAdjust n = alignUp n := alignmentAdjust_eq h

theorem findUsableBlock_single (b : Block) {n : Nat} (h : n ≤ b.size) :
    (findUsableBlock [b] n).1 = some (0, b) := by
  simp [findUsableBlock, findUsableBlockLoop, improves, h]

theorem allocate_single {s : DynamicSizePool} {b : Block} (hf : s.freeBlocks = [b])
    {n : Nat} (h : n ≤ b.size) (ma : Nat) : allocate s n ma = carve s [] b [] n := by
  have hfind : (findUsableBlock s.freeBlocks n).1 = some (0, b) := by
    rw [hf]; exact findUsableBlock_single b h
  rw [allocate_found ma hfind, hf]
  rfl

theorem findUsableBlock_nil (n : Nat) : (findUsableBlock [] n).1 = none := rfl

/-- On a pool with an empty free list, `allocate` behaves as on the pool that
`allocateBlock` leaves, whose free list is the new head node alone. -/
theorem allocate_of_empty_free {s : DynamicSizePool} (hf : s.freeBlocks = []) {n : Nat}
    (ma ma' : Nat) (hle : n ≤ sizeToAlloc s n) :
    (allocateBlock s n ma).1.freeBlocks =
        [{ data := ma, size := sizeToAlloc s n, isHead := true }] ∧
      allocate s n ma = allocate (allocateBlock s n ma).1 n ma' := by
  have hfind : (findUsableBlock s.freeBlocks n).1 = none := by
    rw [hf]; rfl
  have hfb : (allocateBlock s n ma).1.freeBlocks =
      [{ data := ma, size := sizeToAlloc s n, isHead := true }] := by
    rw [allocateBlock_state, hf]; rfl
  refine ⟨hfb, ?_⟩
  rw [allocate_grow ma hfind, allocate_single hfb hle ma', hf]
  rfl

theorem deallocateAll_cons (s : DynamicSizePool) (p : Nat) (rest : List Nat) :
    deallocateAll s (p :: rest) = deallocateAll (deallocate s p) rest := rfl

/-- Deallocating, in any order, the addresses of all used nodes empties the
used list; the invariant and the log of spans are kept. -/
theorem deallocateAll_drains (order : List Nat) : ∀ s : DynamicSizePool, Inv s →
    order.Perm (s.usedBlocks.map Block.data) →
      Inv (deallocateAll s order) ∧ (deallocateAll s order).usedBlocks = [] ∧
        (deallocateAll s order).maAllocated = s.maAllocated := by
  induction order with
  | nil =>
    intro s h hp
    have : s.usedBlocks.map Block.data = [] := List.Perm.eq_nil (List.Perm.symm hp)
    exact ⟨h, by simpa using this, rfl⟩
  | cons p rest ih =>
    intro s h hp
    have hmem : p ∈ s.usedBlocks.map Block.data := hp.subset (List.mem_cons_self _ _)
    obtain ⟨c, hc, hcp⟩ := List.mem_map.1 hmem
    obtain ⟨pre, b, post, hu, hb, hpre⟩ := exists_first_used p s.usedBlocks ⟨c, hc, hcp⟩
    have hd := deallocate_present s p pre post b hu hb hpre
    have hperm : rest.Perm ((deallocate s p).usedBlocks.map Block.data) := by
      rw [hd]
      show rest.Perm ((pre ++ post).map Block.data)
      rw [hu, List.map_append, List.map_cons, hb] at hp
      rw [List.map_append]
      exact List.Perm.cons_inv (hp.trans List.perm_middle)
    obtain ⟨h1, h2, h3⟩ := ih (deallocate s p) (h.deallocate p) hperm
    rw [deallocateAll_cons]
    exact ⟨h1, h2, by rw [h3, (deallocate_fields s p).1]⟩

theorem round_of_oneFreeSpan {s : DynamicSizePool} {a len n : Nat} (h : OneFreeSpan s a len)
    (hn : n ≤ len) (hspan : a + len < 2 ^ 64) (ma : Nat) :
    (allocate s n ma).1.maAllocated = [(a, len)] ∧
    (allocate s n ma).1.totalBytes = len ∧
    numFreeBlocks (allocate s n ma).1 ≤ 1 ∧
    OneFreeSpan (allocThenFree s n ma) a len := by
  have hal := allocate_single h.free (b := { data := a, size := len, isHead := true }) hn ma
  unfold allocThenFree
  rw [hal]
  unfold carve
  simp only
  split_ifs with hc
  · refine ⟨h.spans, h.total, by simp [numFreeBlocks], ?_⟩
    rw [deallocate_present _ a [] [] { data := a, size := len, isHead := true } (by simp [h.used])
      rfl (by simp)]
    exact ⟨rfl, rfl, h.total, h.spans⟩
  · have hlt : n < len := by
      have : len ≠ n := fun e => hc (Or.inl e)
      omega
    have hw1 : wadd a n = a + n := wadd_of_lt (by omega)
    have hw2 : wsub len n = len - n := wsub_of_le hn (by omega)
    rw [hw1, hw2]
    refine ⟨h.spans, h.total, by simp [numFreeBlocks], ?_⟩
    rw [deallocate_present _ a [] [] { data := a, size := n, isHead := true } (by simp [h.used])
      rfl (by simp)]
    have hrel : releaseIntoFree [{ data := a + n, size := len - n, isHead := false }]
        { data := a, size := n, isHead := true } =
        ([{ data := a, size := len, isHead := true }], 1) := by
      have hw3 : wadd n (len - n) = len := by
        rw [wadd_of_lt (by omega)]; omega
      rw [releaseIntoFree_nil (by simp), List.dropWhile_cons_of_neg (by simp),
        mergeWithNext_cons, if_pos ⟨hw1, rfl⟩]
      simp only [hw3, List.dropWhile_nil]
    simp only [List.nil_append, hrel]
    exact ⟨rfl, rfl, h.total, h.spans⟩

/-! ## The first loop of `freeAllBlocks` ends -/

theorem releaseBlock_head_used (s : DynamicSizePool) (curr : Block) (rest : List Block)
    (h : s.usedBlocks = curr :: rest) : (releaseBlock s (0, curr) none).usedBlocks = rest := by
  unfold releaseBlock
  simp [upTo, h]

/-- With as much fuel as the used list is long, the first loop of
`freeAllBlocks` stops on an empty used list. -/
theorem releaseUsedLoop_drains (fuel : Nat) : ∀ s : DynamicSizePool,
    s.usedBlocks.length ≤ fuel → (releaseUsedLoop fuel s).usedBlocks = [] := by
  induction fuel with
  | zero =>
    intro s h
    exact List.length_eq_zero.1 (Nat.le_zero.1 h)
  | succ k ih =>
    intro s h
    unfold releaseUsedLoop
    cases hu : s.usedBlocks with
    | nil => simpa using hu
    | cons curr rest =>
      simp only
      apply ih
      rw [releaseBlock_head_used s curr rest hu]
      rw [hu] at h
      simpa using h

/-! ## The claims -/

/-- C4: `findUsableBlock(best, prev, size)` over any free list.  When it
returns a node `best` (position `i`, contents `b`), that node is in the free
list, its size is at least `size`, no free node of size at least `size` is
smaller, no free node of the same size comes earlier in the list, and `prev`
is the position just before `best` (`NULL` when `best` is the first node).
`best` is `NULL` exactly when no free node has size at least `size`, and then
`prev` is `NULL` too. -/
theorem findUsableBlock_best_fit (freeBlocks : List Block) (size : Nat) :
    (∀ i b prev, findUsableBlock freeBlocks size = (some (i, b), prev) →
      freeBlocks[i]? = some b ∧ size ≤ b.size ∧
      (∀ j c, freeBlocks[j]? = some c → size ≤ c.size →
        b.size ≤ c.size ∧ (c.size = b.size → i ≤ j)) ∧
      prev = (if i = 0 then none else some (i - 1))) ∧
    ((findUsableBlock freeBlocks size).1 = none ↔ ∀ c ∈ freeBlocks, c.size < size) ∧
    ((findUsableBlock freeBlocks size).1 = none → (findUsableBlock freeBlocks size).2 = none) := by
  have h := findUsableBlock_FindSpec freeBlocks size
  refine ⟨?_, findUsableBlock_none_iff freeBlocks size, ?_⟩
  · intro i b prev he
    rw [he] at h
    exact h
  · intro hn
    unfold FindSpec at h
    rw [hn] at h
    exact h.1

/-- The backing request of `allocate(size)` in terms of `alignmentAdjust`, for
every size: when no free node has size at least `size`, one request of
`max(alignmentAdjust(size), minBytes)` bytes is logged, `totalBytes` grows by
that amount in `size_t` arithmetic, and `allocateBlock` links a head node of
that size at the returned address; when some free node has size at least
`size`, nothing is requested. -/
theorem allocate_request_fields (s : DynamicSizePool) (size ma : Nat) :
    ((∀ b ∈ s.freeBlocks, b.size < size) →
      (allocate s size ma).1.maAllocated =
        (ma, max (alignmentAdjust size) s.minBytes) :: s.maAllocated ∧
      (allocate s size ma).1.totalBytes =
        (s.totalBytes + max (alignmentAdjust size) s.minBytes) % 2 ^ 64 ∧
      (s.totalBytes + max (alignmentAdjust size) s.minBytes < 2 ^ 64 →
        (allocate s size ma).1.totalBytes =
          s.totalBytes + max (alignmentAdjust size) s.minBytes) ∧
      (allocateBlock s size ma).2.1.2 =
        { data := ma, size := max (alignmentAdjust size) s.minBytes, isHead := true } ∧
      (allocateBlock s size ma).1.freeBlocks[(allocateBlock s size ma).2.1.1]? =
        some { data := ma, size := max (alignmentAdjust size) s.minBytes, isHead := true } ∧
      (allocate s size ma).2 = ma ∧
      ∃ b, (allocate s size ma).1.usedBlocks = b :: s.usedBlocks ∧
        b.data = ma ∧ b.isHead = true) ∧
    ((∃ b ∈ s.freeBlocks, size ≤ b.size) →
      (allocate s size ma).1.maAllocated = s.maAllocated ∧
      (allocate s size ma).1.totalBytes = s.totalBytes) ∧
    (size + 15 < 2 ^ 64 → alignmentAdjust size = (size + 15) / 16 * 16) ∧
    ((allocate (DynamicSizePool.init 256) 1000 4096).1.maAllocated = [(4096, 1008)] ∧
      (allocate (DynamicSizePool.init 256) 1000 4096).1.totalBytes = 1008 ∧
      numUsedBlocks (allocate (DynamicSizePool.init 256) 1000 4096).1 = 1 ∧
      numFreeBlocks (allocate (DynamicSizePool.init 256) 1000 4096).1 = 0 ∧
      allocatedSize (allocate (DynamicSizePool.init 256) 1000 4096).1 = 1000) := by
  refine ⟨?_, ?_, fun h => alignmentAdjust_eq h, by decide⟩
  · intro hno
    have hfind := (findUsableBlock_none_iff s.freeBlocks size).2 hno
    have hgrow := allocate_grow ma hfind
    have hst := allocateBlock_state s size ma
    have hcarve : ∀ (t : DynamicSizePool) (pre post : List Block) (b : Block) (n : Nat),
        (carve t pre b post n).1.maAllocated = t.maAllocated ∧
        (carve t pre b post n).1.totalBytes = t.totalBytes ∧
        (carve t pre b post n).2 = b.data ∧
        ∃ c, (carve t pre b post n).1.usedBlocks = c :: t.usedBlocks ∧
          c.data = b.data ∧ c.isHead = b.isHead := by
      intro t pre post b n
      unfold carve
      split_ifs
      · exact ⟨rfl, rfl, rfl, b, rfl, rfl, rfl⟩
      · exact ⟨rfl, rfl, rfl, _, rfl, rfl, rfl⟩
    obtain ⟨c1, c2, c3, c4⟩ := hcarve (allocateBlock s size ma).1
      (s.freeBlocks.takeWhile (fun b => decide (b.data < ma)))
      (s.freeBlocks.dropWhile (fun b => decide (b.data < ma)))
      { data := ma, size := sizeToAlloc s size, isHead := true } size
    rw [← hgrow] at c1 c2 c3 c4
    have ht : (allocate s size ma).1.totalBytes =
        (s.totalBytes + max (alignmentAdjust size) s.minBytes) % 2 ^ 64 := by
      rw [c2, hst]; rfl
    refine ⟨?_, ht, ?_, rfl, ?_, c3, ?_⟩
    · rw [c1, hst]; rfl
    · intro hlt
      rw [ht, Nat.mod_eq_of_lt hlt]
    · show (_ ++ _ :: _)[(List.takeWhile (fun b => decide (b.data < ma)) s.freeBlocks).length]? = _
      rw [List.getElem?_append_right (le_refl _)]
      simp
    · obtain ⟨c, hc1, hc2, hc3⟩ := c4
      exact ⟨c, by rw [hc1, hst], hc2, hc3⟩
  · intro hex
    cases hfind : (findUsableBlock s.freeBlocks size).1 with
    | none =>
      exfalso
      obtain ⟨b, hb, hle⟩ := hex
      have := (findUsableBlock_none_iff s.freeBlocks size).1 hfind b hb
      omega
    | some ib =>
      obtain ⟨i, b⟩ := ib
      rw [allocate_found ma hfind]
      unfold carve
      split_ifs <;> exact ⟨rfl, rfl⟩

/-- C5 (the claim as stated fails).  On an empty pool with `minBytes = 256` no
free block has size at least `n = 2^64 - 1`, and `allocate(n)` asks the
backing source for 256 bytes, while `max(align_up(n, 16), minBytes)` is
`2^64`: `alignmentAdjust` computes `n + 15` in 64-bit arithmetic, where it
wraps around. -/
theorem allocate_requests_below_aligned_size :
    (∀ b ∈ (DynamicSizePool.init 256).freeBlocks, b.size < 2 ^ 64 - 1) ∧
    (allocate (DynamicSizePool.init 256) (2 ^ 64 - 1) 4096).1.maAllocated = [(4096, 256)] ∧
    max (alignUp (2 ^ 64 - 1)) 256 = 2 ^ 64 := by
  refine ⟨?_, ?_, ?_⟩ <;> decide

/-- C5 (amended): `allocate(size)` for `size + 15 < 2^64`.  When no free node
has size at least `size`: exactly one request is logged for the backing
source, of `max(align_up(size, 16), minBytes)` bytes; `totalBytes` grows by
that amount (in `size_t` arithmetic, and exactly when the sum stays below
`2^64`); `allocateBlock` links a head node of that size at the returned
address `ma` into the free list, at the position it reports as `curr`; the
pointer handed out is `ma` and the node pushed on the used list is a head at
`ma`.  When some free node has size at least `size`, nothing is requested and
`totalBytes` is unchanged.  Witness: `allocate(1000)` on an empty pool with
`minBytes = 256` (the backing source answering 4096) requests 1008 bytes and
leaves one used node, no free node and `allocatedSize() = 1000`. -/
theorem allocate_backing_request (s : DynamicSizePool) (size ma : Nat)
    (hsize : size + 15 < 2 ^ 64) :
    ((∀ b ∈ s.freeBlocks, b.size < size) →
      (allocate s size ma).1.maAllocated =
        (ma, max (alignUp size) s.minBytes) :: s.maAllocated ∧
      (allocate s size ma).1.totalBytes =
        (s.totalBytes + max (alignUp size) s.minBytes) % 2 ^ 64 ∧
      (s.totalBytes + max (alignUp size) s.minBytes < 2 ^ 64 →
        (allocate s size ma).1.totalBytes =
          s.totalBytes + max (alignUp size) s.minBytes) ∧
      (allocateBlock s size ma).2.1.2 =
        { data := ma, size := max (alignUp size) s.minBytes, isHead := true } ∧
      (allocateBlock s size ma).1.freeBlocks[(allocateBlock s size ma).2.1.1]? =
        some { data := ma, size := max (alignUp size) s.minBytes, isHead := true } ∧
      (allocate s size ma).2 = ma ∧
      ∃ b, (allocate s size ma).1.usedBlocks = b :: s.usedBlocks ∧
        b.data = ma ∧ b.isHead = true) ∧
    ((∃ b ∈ s.freeBlocks, size ≤ b.size) →
      (allocate s size ma).1.maAllocated = s.maAllocated ∧
      (allocate s size ma).1.totalBytes = s.totalBytes) ∧
    ((allocate (DynamicSizePool.init 256) 1000 4096).1.maAllocated = [(4096, 1008)] ∧
      (allocate (DynamicSizePool.init 256) 1000 4096).1.totalBytes = 1008 ∧
      numUsedBlocks (allocate (DynamicSizePool.init 256) 1000 4096).1 = 1 ∧
      numFreeBlocks (allocate (DynamicSizePool.init 256) 1000 4096).1 = 0 ∧
      allocatedSize (allocate (DynamicSizePool.init 256) 1000 4096).1 = 1000) := by
  have h := allocate_request_fields s size ma
  rw [alignmentAdjust_eq_alignUp hsize] at h
  exact ⟨h.1, h.2.1, h.2.2.2⟩

/-- C5 (amended), at a concrete input: `allocate(1000)` on an empty pool with
`minBytes = 256`, the backing source answering 4096. -/
theorem allocate_backing_request_witness :
    (1000 + 15 < 2 ^ 64 ∧ ∀ b ∈ (DynamicSizePool.init 256).freeBlocks, b.size < 1000) ∧
    (allocate (DynamicSizePool.init 256) 1000 4096).1.maAllocated =
      (4096, max (alignUp 1000) (DynamicSizePool.init 256).minBytes) ::
        (DynamicSizePool.init 256).maAllocated ∧
    max (alignUp 1000) (DynamicSizePool.init 256).minBytes = 1008 :=
  ⟨⟨by decide, by decide⟩,
    ((allocate_backing_request (DynamicSizePool.init 256) 1000 4096 (by decide)).1
      (by decide)).1,
    by decide⟩

/-- C6: `splitBlock` on the chosen free node `b` at position `i`, with `prev`
the position before it and `size ≤ b.size` (sizes and addresses inside the
64-bit range).  If `b.size` is `size` or `alignmentAdjust(size)`, `b` leaves
the free list (the other nodes keep their order), `b` itself is unchanged and
no node is taken from `blockPool`.  Otherwise `b` gets size `size` (address
and head flag unchanged) and a new node at `b.data + size` of size
`b.size - size`, not a head, stands at position `i` of the free list, every
other free node being unchanged.  Witness: `allocate(100)` on an empty pool
with `minBytes = 4096` (the backing source answering 8192) gives one used node
of size 100 and one free node of size 3996 that is not a head. -/
theorem splitBlock_spec (s : DynamicSizePool) (i : Nat) (b : Block) (size : Nat)
    (hcur : s.freeBlocks[i]? = some b) (hfit : size ≤ b.size)
    (hsize : b.size < 2 ^ 64) (hend : b.data + b.size ≤ 2 ^ 64) :
    ((b.size = size ∨ b.size = alignmentAdjust size) →
      splitBlock s (i, b) (predPos i) size =
        ({ s with freeBlocks := s.freeBlocks.eraseIdx i }, b)) ∧
    (¬ (b.size = size ∨ b.size = alignmentAdjust size) →
      splitBlock s (i, b) (predPos i) size =
        ({ s with
            freeBlocks := s.freeBlocks.set i
              { data := b.data + size, size := b.size - size, isHead := false }
            blockPool := wadd s.blockPool 1 },
          { b with size := size })) ∧
    ((allocate (DynamicSizePool.init 4096) 100 8192).1.usedBlocks =
        [{ data := 8192, size := 100, isHead := true }] ∧
      (allocate (DynamicSizePool.init 4096) 100 8192).1.freeBlocks =
        [{ data := 8292, size := 3996, isHead := false }]) := by
  obtain ⟨hi, hb⟩ := List.getElem?_eq_some.1 hcur
  have hup := upTo_predPos s.freeBlocks i
  refine ⟨?_, ?_, by decide⟩
  · intro hc
    unfold splitBlock
    simp only [hup]
    rw [if_pos hc, List.eraseIdx_eq_take_drop_succ]
  · intro hc
    have hlt : size < b.size := by
      have : b.size ≠ size := fun e => hc (Or.inl e)
      omega
    unfold splitBlock
    simp only [hup]
    rw [if_neg hc, wadd_of_lt (by omega), wsub_of_le hfit hsize, List.set_eq_take_append_cons_drop,
      if_pos hi]

/-- C6, at a concrete input: the head node of 4096 bytes at 8192, alone in the
free list, is split for a request of 100 bytes. -/
theorem splitBlock_spec_witness :
    (({ DynamicSizePool.init 4096 with
          freeBlocks := [{ data := 8192, size := 4096, isHead := true }] } :
        DynamicSizePool).freeBlocks[0]? = some { data := 8192, size := 4096, isHead := true } ∧
      100 ≤ 4096 ∧ 4096 < 2 ^ 64 ∧ 8192 + 4096 ≤ 2 ^ 64) ∧
    splitBlock
        { DynamicSizePool.init 4096 with
          freeBlocks := [{ data := 8192, size := 4096, isHead := true }] }
        (0, { data := 8192, size := 4096, isHead := true }) (predPos 0) 100 =
      ({ DynamicSizePool.init 4096 with
          freeBlocks := [{ data := 8292, size := 3996, isHead := false }]
          blockPool := 1 },
        { data := 8192, size := 100, isHead := true }) :=
  ⟨⟨by decide, by decide, by decide, by decide⟩,
    (splitBlock_spec
      { DynamicSizePool.init 4096 with
        freeBlocks := [{ data := 8192, size := 4096, isHead := true }] }
      0 { data := 8192, size := 4096, isHead := true } 100
      (by decide) (by decide) (by decide) (by decide)).2.1 (by decide)⟩

/-- C2 (the code at a failing input): after `allocate(1000)` on an empty pool
with `minBytes = 256` the only used node has size 1008 while `allocatedSize()`
is 1000; after `deallocate` of the pointer the used list is empty and
`allocatedSize()` is `2^64 - 8`, not 0. -/
theorem allocBytes_not_sum_of_used_sizes :
    (allocate (DynamicSizePool.init 256) 1000 4096).2 = 4096 ∧
    allocatedSize (allocate (DynamicSizePool.init 256) 1000 4096).1 = 1000 ∧
    ((allocate (DynamicSizePool.init 256) 1000 4096).1.usedBlocks.map Block.size).sum = 1008 ∧
    (deallocate (allocate (DynamicSizePool.init 256) 1000 4096).1 4096).usedBlocks = [] ∧
    allocatedSize (deallocate (allocate (DynamicSizePool.init 256) 1000 4096).1 4096) =
      2 ^ 64 - 8 := by
  decide

/-- C3 (the code at two failing inputs).  First input: two adjacent spans
(512 bytes at 4096, 256 bytes at 4608) and a request of 0 bytes; when the
destructor runs, its first loop leaves the free list
`(4096, 600, head), (4608, 0, head), (4696, 168, not head)`, and its second
loop hands 4096, 4608 and 4696 to `MA::deallocate`, although 4696 was never
returned by `MA::allocate`.  Second input: one request of `2^64 - 1` bytes,
for which `alignmentAdjust` wraps around to 0; the destructor hands 4095 to
`MA::deallocate`, an address `MA::allocate` never returned. -/
theorem freeAllBlocks_releases_foreign_address :
    ((run (DynamicSizePool.init 256)
        [Op.alloc 512 4096, Op.alloc 256 4608, Op.dealloc 4608, Op.alloc 0 0,
         Op.dealloc 4096, Op.dealloc 4608, Op.alloc 600 0, Op.alloc 168 0]).maAllocated =
        [(4608, 256), (4096, 512)] ∧
      (releaseUsedLoop 2 (run (DynamicSizePool.init 256)
        [Op.alloc 512 4096, Op.alloc 256 4608, Op.dealloc 4608, Op.alloc 0 0,
         Op.dealloc 4096, Op.dealloc 4608, Op.alloc 600 0, Op.alloc 168 0])).freeBlocks =
        [{ data := 4096, size := 600, isHead := true },
         { data := 4608, size := 0, isHead := true },
         { data := 4696, size := 168, isHead := false }] ∧
      (freeAllBlocks (run (DynamicSizePool.init 256)
        [Op.alloc 512 4096, Op.alloc 256 4608, Op.dealloc 4608, Op.alloc 0 0,
         Op.dealloc 4096, Op.dealloc 4608, Op.alloc 600 0, Op.alloc 168 0])).maDeallocated =
        [4696, 4608, 4096]) ∧
    ((run (DynamicSizePool.init 256) [Op.alloc (2 ^ 64 - 1) 4096]).maAllocated =
        [(4096, 256)] ∧
      (freeAllBlocks (run (DynamicSizePool.init 256)
        [Op.alloc (2 ^ 64 - 1) 4096])).maDeallocated = [4096, 4095]) := by
  decide

/-- C7 (the claim as stated fails).  After `allocate(0)` and `allocate(100)`
on an empty pool with `minBytes = 256` both calls have returned 4096, and the
second of two `deallocate(4096)` in a row changes the pool.  The same happens
after `allocate(2^64 - 1)`, `allocate(1)`, `allocate(256)`, where the third
call returns 4096 like the first. -/
theorem second_deallocate_not_noop :
    ((allocate (DynamicSizePool.init 256) 0 4096).2 = 4096 ∧
      (allocate (run (DynamicSizePool.init 256) [Op.alloc 0 4096]) 100 0).2 = 4096 ∧
      deallocate (deallocate
        (run (DynamicSizePool.init 256) [Op.alloc 0 4096, Op.alloc 100 0]) 4096) 4096 ≠
      deallocate (run (DynamicSizePool.init 256) [Op.alloc 0 4096, Op.alloc 100 0]) 4096) ∧
    ((allocate (DynamicSizePool.init 256) (2 ^ 64 - 1) 4096).2 = 4096 ∧
      (allocate (run (DynamicSizePool.init 256)
        [Op.alloc (2 ^ 64 - 1) 4096, Op.alloc 1 0]) 256 0).2 = 4096 ∧
      deallocate (deallocate (run (DynamicSizePool.init 256)
        [Op.alloc (2 ^ 64 - 1) 4096, Op.alloc 1 0, Op.alloc 256 0]) 4096) 4096 ≠
      deallocate (run (DynamicSizePool.init 256)
        [Op.alloc (2 ^ 64 - 1) 4096, Op.alloc 1 0, Op.alloc 256 0]) 4096) := by
  decide

/-- C7 (amended).  `deallocate(p)` with a `p` that is the address of no used
node leaves the whole pool unchanged (free list, used list, `allocBytes`,
`totalBytes`).  In every state reached from an empty pool by calls whose
requested sizes `n` satisfy `1 ≤ n` and `n + 15 < 2^64`, the backing source
answering with fresh spans, no used node has the address `p` after
`deallocate(p)`, so that a second `deallocate(p)` right after the first
changes nothing. -/
theorem deallocate_unknown_is_noop (minBytes : Nat) (ops : List Op) (ptr : Nat)
    (hmin : minBytes < 2 ^ 64) (hok : RunOK (DynamicSizePool.init minBytes) ops) :
    (∀ (s : DynamicSizePool) (p : Nat), (∀ b ∈ s.usedBlocks, b.data ≠ p) →
      deallocate s p = s) ∧
    (∀ b ∈ (deallocate (run (DynamicSizePool.init minBytes) ops) ptr).usedBlocks,
      b.data ≠ ptr) ∧
    deallocate (deallocate (run (DynamicSizePool.init minBytes) ops) ptr) ptr =
      deallocate (run (DynamicSizePool.init minBytes) ops) ptr := by
  have hI : Inv (run (DynamicSizePool.init minBytes) ops) := (Inv.init hmin).run hok
  have habs := absent_after_deallocate hI ptr
  exact ⟨fun s p h => deallocate_absent s p h, habs, deallocate_absent _ ptr habs⟩

/-- C7 (amended), at a concrete input: after `allocate(100)` and
`allocate(200)` with `minBytes = 4096`, a second `deallocate(8192)` changes
nothing. -/
theorem deallocate_unknown_is_noop_witness :
    (4096 < 2 ^ 64 ∧
      RunOK (DynamicSizePool.init 4096) [Op.alloc 100 8192, Op.alloc 200 0]) ∧
    deallocate (deallocate
        (run (DynamicSizePool.init 4096) [Op.alloc 100 8192, Op.alloc 200 0]) 8192) 8192 =
      deallocate (run (DynamicSizePool.init 4096) [Op.alloc 100 8192, Op.alloc 200 0]) 8192 :=
  ⟨⟨by decide, by decide⟩,
    (deallocate_unknown_is_noop 4096 [Op.alloc 100 8192, Op.alloc 200 0] 8192
      (by decide) (by decide)).2.2⟩

/-- C1 (the claim as stated fails).  After `allocate(2^64 - 1)` on an empty
pool with `minBytes = 256`, answered by the span of 256 bytes at 4096,
`allocate(10)` returns 4095, which lies in no span of the pool, and byte 4096
of its 10 bytes belongs to the used node at 4096.  On an empty pool with
`minBytes = 0`, `allocate(0)` obtains a span of 0 bytes at 4096 and returns
4096, which lies inside no span. -/
theorem allocate_outside_every_span :
    ((allocate (run (DynamicSizePool.init 256) [Op.alloc (2 ^ 64 - 1) 4096]) 10 0).2 = 4095 ∧
      (¬ ∃ sp ∈ (allocate (run (DynamicSizePool.init 256)
          [Op.alloc (2 ^ 64 - 1) 4096]) 10 0).1.maAllocated, InSpan 4095 sp) ∧
      (∃ b ∈ (run (DynamicSizePool.init 256) [Op.alloc (2 ^ 64 - 1) 4096]).usedBlocks,
        (4095 ≤ 4096 ∧ 4096 < 4095 + 10) ∧ (b.data ≤ 4096 ∧ 4096 < b.data + b.size))) ∧
    ((allocate (DynamicSizePool.init 0) 0 4096).2 = 4096 ∧
      (allocate (DynamicSizePool.init 0) 0 4096).1.maAllocated = [(4096, 0)] ∧
      ¬ ∃ sp ∈ (allocate (DynamicSizePool.init 0) 0 4096).1.maAllocated, InSpan 4096 sp) := by
  decide

/-- C1 (amended).  In every state reached from an empty pool by calls whose
requested sizes `n` satisfy `1 ≤ n` and `n + 15 < 2^64`, the backing source
answering with fresh (pairwise disjoint) spans inside the address space, a
further such `allocate(size)` returns a pointer that lies inside exactly one
span held by the pool (no span has been given back), the `size` bytes that
start there stay inside that span, the node pushed on the used list starts at
the pointer, and none of the `size` bytes belongs to another used node. -/
theorem allocate_inside_one_span (minBytes : Nat) (ops : List Op) (size ma : Nat)
    (hmin : minBytes < 2 ^ 64) (hok : RunOK (DynamicSizePool.init minBytes) ops)
    (hop : OpOK (run (DynamicSizePool.init minBytes) ops) (Op.alloc size ma)) :
    (allocate (run (DynamicSizePool.init minBytes) ops) size ma).1.maDeallocated = [] ∧
    (∃ sp ∈ (allocate (run (DynamicSizePool.init minBytes) ops) size ma).1.maAllocated,
      InSpan (allocate (run (DynamicSizePool.init minBytes) ops) size ma).2 sp ∧
      (allocate (run (DynamicSizePool.init minBytes) ops) size ma).2 + size ≤ sp.1 + sp.2 ∧
      ∀ sp' ∈ (allocate (run (DynamicSizePool.init minBytes) ops) size ma).1.maAllocated,
        InSpan (allocate (run (DynamicSizePool.init minBytes) ops) size ma).2 sp' → sp' = sp) ∧
    (∃ c, (allocate (run (DynamicSizePool.init minBytes) ops) size ma).1.usedBlocks =
        c :: (run (DynamicSizePool.init minBytes) ops).usedBlocks ∧
      c.data = (allocate (run (DynamicSizePool.init minBytes) ops) size ma).2) ∧
    (∀ b ∈ (run (DynamicSizePool.init minBytes) ops).usedBlocks, ∀ x,
      (allocate (run (DynamicSizePool.init minBytes) ops) size ma).2 ≤ x →
      x < (allocate (run (DynamicSizePool.init minBytes) ops) size ma).2 + size →
      ¬ (b.data ≤ x ∧ x < b.data + b.size)) := by
  have hI : Inv (run (DynamicSizePool.init minBytes) ops) := (Inv.init hmin).run hok
  have hI2 := hI.allocate hop
  obtain ⟨hd, _, c, hc1, hc2, hc3⟩ :=
    allocate_fields (run (DynamicSizePool.init minBytes) ops) size ma
  have hsz := hc3 hop.2.1
  have hcm : c ∈ (allocate (run (DynamicSizePool.init minBytes) ops) size ma).1.usedBlocks ++
      (allocate (run (DynamicSizePool.init minBytes) ops) size ma).1.freeBlocks := by
    rw [hc1]; simp
  obtain ⟨hpos, sp, hsp, h1, h2, _⟩ := hI2.tiles.inSpan c hcm
  refine ⟨?_, ⟨sp, hsp, ?_, ?_, ?_⟩, ⟨c, hc1, hc2⟩, ?_⟩
  · rw [hd, run_maDeallocated]; rfl
  · unfold InSpan; omega
  · omega
  · intro sp' hsp' hin
    exact hI2.spans.eq_of_common hsp' hsp _ hin (by unfold InSpan; omega)
  · intro b hb x hx1 hx2
    have hdis := hI2.tiles.disjoint
    rw [hc1, List.cons_append, List.pairwise_cons] at hdis
    have := hdis.1 b (List.mem_append_left _ hb)
    unfold BlockDisjoint at this
    omega

/-- C1 (amended), at a concrete input: after `allocate(100)` and
`allocate(200)` with `minBytes = 4096`, the 300 bytes of a third request meet
no other used node. -/
theorem allocate_inside_one_span_witness :
    (4096 < 2 ^ 64 ∧
      RunOK (DynamicSizePool.init 4096) [Op.alloc 100 8192, Op.alloc 200 0] ∧
      OpOK (run (DynamicSizePool.init 4096) [Op.alloc 100 8192, Op.alloc 200 0])
        (Op.alloc 300 0)) ∧
    ∀ b ∈ (run (DynamicSizePool.init 4096) [Op.alloc 100 8192, Op.alloc 200 0]).usedBlocks,
      ∀ x,
      (allocate (run (DynamicSizePool.init 4096)
        [Op.alloc 100 8192, Op.alloc 200 0]) 300 0).2 ≤ x →
      x < (allocate (run (DynamicSizePool.init 4096)
        [Op.alloc 100 8192, Op.alloc 200 0]) 300 0).2 + 300 →
      ¬ (b.data ≤ x ∧ x < b.data + b.size) :=
  ⟨⟨by decide, by decide, by decide⟩,
    (allocate_inside_one_span 4096 [Op.alloc 100 8192, Op.alloc 200 0] 300 0
      (by decide) (by decide) (by decide)).2.2.2⟩

theorem allocate_grow_fields {s : DynamicSizePool} {n : Nat} (ma : Nat)
    (h : (findUsableBlock s.freeBlocks n).1 = none) :
    (allocate s n ma).1.maAllocated = (ma, sizeToAlloc s n) :: s.maAllocated ∧
      (allocate s n ma).2 = ma := by
  rw [allocate_grow ma h]
  obtain ⟨h1, _, _, _, h5, _⟩ := carve_fields (allocateBlock s n ma).1
    (s.freeBlocks.takeWhile (fun b => decide (b.data < ma)))
    (s.freeBlocks.dropWhile (fun b => decide (b.data < ma)))
    { data := ma, size := sizeToAlloc s n, isHead := true } n
  rw [h1, h5, allocateBlock_state]
  exact ⟨rfl, rfl⟩

/-- C9 (the claim as stated fails).  `allocate(0)` on an empty pool with
`minBytes = 256` obtains the span `(4096, 256)`; `allocate(300)` does not fit
and obtains the adjacent span `(3792, 304)`; after both pointers are given
back the free list holds a node of 560 bytes at 3792, which covers both spans,
and a node of 0 bytes at 4096.  After `allocate(2^64 - 1)` and `allocate(300)`
(spans `(4096, 256)` and `(8192, 304)`) three free nodes remain. -/
theorem two_spans_merged_across_boundary :
    ((run (DynamicSizePool.init 256) [Op.alloc 0 4096, Op.alloc 300 3792]).maAllocated =
        [(3792, 304), (4096, 256)] ∧
      (allocate (DynamicSizePool.init 256) 0 4096).2 = 4096 ∧
      (allocate (run (DynamicSizePool.init 256) [Op.alloc 0 4096]) 300 3792).2 = 3792 ∧
      (run (DynamicSizePool.init 256)
        [Op.alloc 0 4096, Op.alloc 300 3792, Op.dealloc 3792, Op.dealloc 4096]).freeBlocks =
        [{ data := 3792, size := 560, isHead := true },
         { data := 4096, size := 0, isHead := true }]) ∧
    ((run (DynamicSizePool.init 256)
        [Op.alloc (2 ^ 64 - 1) 4096, Op.alloc 300 8192]).maAllocated =
        [(8192, 304), (4096, 256)] ∧
      (run (DynamicSizePool.init 256)
        [Op.alloc (2 ^ 64 - 1) 4096, Op.alloc 300 8192, Op.dealloc 4096,
         Op.dealloc 8192]).freeBlocks =
        [{ data := 4095, size := 257, isHead := false },
         { data := 4096, size := 2 ^ 64 - 1, isHead := true },
         { data := 8192, size := 304, isHead := true }]) := by
  decide

/-- C9 (amended).  On an empty pool, let `allocate(a)` obtain a span at `x` and
let a following `allocate(b)` find no free node of size at least `b`, so that
it obtains a second span at `y`; both sizes are at least 1 and their rounding
up does not wrap around, and the spans are disjoint (they may be adjacent) and
end inside the address space.  After the two returned pointers (`x` and `y`)
are deallocated, in either order, the used list is empty and the free list
holds exactly two nodes, both heads, whose addresses and sizes are those of
the two spans `(x, max(alignmentAdjust(a), minBytes))` and
`(y, max(alignmentAdjust(b), minBytes))`. -/
theorem two_spans_two_heads (M a b x y : Nat) (order : List Nat) (hM : M < 2 ^ 64)
    (hok : RunOK (DynamicSizePool.init M) [Op.alloc a x, Op.alloc b y])
    (hgrow : (findUsableBlock (allocate (DynamicSizePool.init M) a x).1.freeBlocks b).1 = none)
    (hord : order = [x, y] ∨ order = [y, x]) :
    (allocate (DynamicSizePool.init M) a x).2 = x ∧
    (allocate (allocate (DynamicSizePool.init M) a x).1 b y).2 = y ∧
    (deallocateAll (run (DynamicSizePool.init M) [Op.alloc a x, Op.alloc b y])
      order).usedBlocks = [] ∧
    (deallocateAll (run (DynamicSizePool.init M) [Op.alloc a x, Op.alloc b y])
      order).freeBlocks.length = 2 ∧
    (∀ blk ∈ (deallocateAll (run (DynamicSizePool.init M) [Op.alloc a x, Op.alloc b y])
      order).freeBlocks, blk.isHead = true) ∧
    ((deallocateAll (run (DynamicSizePool.init M) [Op.alloc a x, Op.alloc b y])
      order).freeBlocks.map (fun blk => (blk.data, blk.size))).Perm
      [(x, max (alignmentAdjust a) M), (y, max (alignmentAdjust b) M)] := by
  have hI : Inv (run (DynamicSizePool.init M) [Op.alloc a x, Op.alloc b y]) :=
    (Inv.init hM).run hok
  have h1 := allocate_grow_fields (s := DynamicSizePool.init M) (n := a) x rfl
  have h2 := allocate_grow_fields y hgrow
  obtain ⟨_, hm1, c1, hc1, hc1d, _⟩ := allocate_fields (DynamicSizePool.init M) a x
  obtain ⟨_, hm2, c2, hc2, hc2d, _⟩ := allocate_fields (allocate (DynamicSizePool.init M) a x).1 b y
  have hrun : run (DynamicSizePool.init M) [Op.alloc a x, Op.alloc b y] =
      (allocate (allocate (DynamicSizePool.init M) a x).1 b y).1 := rfl
  have hused : (run (DynamicSizePool.init M) [Op.alloc a x, Op.alloc b y]).usedBlocks.map
      Block.data = [y, x] := by
    rw [hrun, hc2, hc1]
    simp only [List.map_cons, hc2d, hc1d, h1.2, h2.2]
    rfl
  have hma : (run (DynamicSizePool.init M) [Op.alloc a x, Op.alloc b y]).maAllocated =
      [(y, max (alignmentAdjust b) M), (x, max (alignmentAdjust a) M)] := by
    rw [hrun, h2.1, h1.1]
    unfold sizeToAlloc
    rw [hm1]
    rfl
  have hperm : order.Perm
      ((run (DynamicSizePool.init M) [Op.alloc a x, Op.alloc b y]).usedBlocks.map
        Block.data) := by
    rw [hused]
    rcases hord with rfl | rfl
    · exact List.Perm.swap _ _ _
    · exact List.Perm.refl _
  obtain ⟨hI3, hu3, hma3⟩ := deallocateAll_drains order _ hI hperm
  obtain ⟨hh, hp⟩ := hI3.drained hu3
  rw [hma3, hma] at hp
  refine ⟨h1.2, h2.2, hu3, ?_, hh, hp.trans (List.Perm.swap _ _ _)⟩
  have := hp.length_eq
  simpa using this

/-- C9 (amended), at a concrete input with adjacent spans: `allocate(1000)`
obtains `(4096, 1008)`, `allocate(2000)` obtains `(5104, 2000)`, which starts
where the first span ends. -/
theorem two_spans_two_heads_witness :
    ((256 : Nat) < 2 ^ 64 ∧
      RunOK (DynamicSizePool.init 256) [Op.alloc 1000 4096, Op.alloc 2000 5104] ∧
      (findUsableBlock (allocate (DynamicSizePool.init 256) 1000 4096).1.freeBlocks 2000).1 =
        none ∧
      (([4096, 5104] : List Nat) = [4096, 5104] ∨ ([4096, 5104] : List Nat) = [5104, 4096])) ∧
    ((deallocateAll (run (DynamicSizePool.init 256) [Op.alloc 1000 4096, Op.alloc 2000 5104])
      [4096, 5104]).freeBlocks.map (fun blk => (blk.data, blk.size))).Perm
      [(4096, max (alignmentAdjust 1000) 256), (5104, max (alignmentAdjust 2000) 256)] :=
  ⟨⟨by decide, by decide, by decide, by decide⟩,
    (two_spans_two_heads 256 1000 2000 4096 5104 [4096, 5104]
      (by decide) (by decide) (by decide) (by decide)).2.2.2.2.2⟩

/-- C10 (the claim as stated fails).  With `n = 2^64 - 1` and `minBytes = 256`
the rounding up of `n` wraps around to 0, the span obtained has 256 bytes, and
after the first round `p = allocate(n); deallocate(p)` the free list holds two
nodes. -/
theorem one_round_two_free_nodes :
    (allocate (DynamicSizePool.init 256) (2 ^ 64 - 1) 4096).1.maAllocated = [(4096, 256)] ∧
    numFreeBlocks (rounds (2 ^ 64 - 1) (fun _ => 4096) 1 (DynamicSizePool.init 256)) = 2 := by
  decide

/-- After the first round, and after every later one, the pool holds the one
span of the first request, wholly free. -/
theorem rounds_oneFreeSpan (M n : Nat) (ma : Nat → Nat)
    (hn15 : n + 15 < 2 ^ 64) (hspan : ma 0 + max (alignmentAdjust n) M < 2 ^ 64) :
    (allocate (DynamicSizePool.init M) n (ma 0)).1.maAllocated =
        [(ma 0, max (alignmentAdjust n) M)] ∧
      (allocate (DynamicSizePool.init M) n (ma 0)).1.totalBytes = max (alignmentAdjust n) M ∧
      numFreeBlocks (allocate (DynamicSizePool.init M) n (ma 0)).1 ≤ 1 ∧
      ∀ j, OneFreeSpan (rounds n ma (j + 1) (DynamicSizePool.init M)) (ma 0)
        (max (alignmentAdjust n) M) := by
  have hle : n ≤ max (alignmentAdjust n) M := le_sizeToAlloc (s := DynamicSizePool.init M) hn15
  have hlt : alignmentAdjust n < 2 ^ 64 := alignmentAdjust_lt hn15
  obtain ⟨hfb, hal⟩ := allocate_of_empty_free (s := DynamicSizePool.init M) rfl (ma 0) (ma 0) hle
  have h1 : OneFreeSpan (allocateBlock (DynamicSizePool.init M) n (ma 0)).1 (ma 0)
      (max (alignmentAdjust n) M) := by
    refine ⟨rfl, hfb, ?_, rfl⟩
    show wadd 0 (max (alignmentAdjust n) M) = _
    rw [wadd_of_lt (by omega)]; omega
  obtain ⟨r1, r2, r3, r4⟩ := round_of_oneFreeSpan h1 hle hspan (ma 0)
  rw [← hal] at r1 r2 r3
  refine ⟨r1, r2, r3, ?_⟩
  intro j
  induction j with
  | zero =>
    show OneFreeSpan (allocThenFree (DynamicSizePool.init M) n (ma 0)) _ _
    have : allocThenFree (DynamicSizePool.init M) n (ma 0) =
        allocThenFree (allocateBlock (DynamicSizePool.init M) n (ma 0)).1 n (ma 0) := by
      unfold allocThenFree
      rw [hal]
    rw [this]; exact r4
  | succ j ih =>
    exact (round_of_oneFreeSpan ih hle hspan (ma (j + 1))).2.2.2

/-- C10 (amended).  For every size `n` with `1 ≤ n` and `n + 15 < 2^64` and
every number `k` of rounds `p = allocate(n); deallocate(p)` on an initially
empty pool (the first backing span ending inside the address space): no
request has been made before the first round, and in every round `j < k`,
both after the `allocate` and after the `deallocate`, the log of backing
requests holds exactly the request of the first round, of
`max(alignmentAdjust(n), minBytes)` bytes, `numFreeBlocks()` is at most 1 and
`totalBytes` is the size of that request. -/
theorem rounds_single_backing_request (M n : Nat) (ma : Nat → Nat) (k : Nat)
    (_hn : 1 ≤ n) (hn15 : n + 15 < 2 ^ 64)
    (hspan : ma 0 + max (alignmentAdjust n) M < 2 ^ 64) :
    (DynamicSizePool.init M).maAllocated = [] ∧
    ∀ j, j < k →
      (allocate (rounds n ma j (DynamicSizePool.init M)) n (ma j)).1.maAllocated =
        [(ma 0, max (alignmentAdjust n) M)] ∧
      (rounds n ma (j + 1) (DynamicSizePool.init M)).maAllocated =
        [(ma 0, max (alignmentAdjust n) M)] ∧
      numFreeBlocks (allocate (rounds n ma j (DynamicSizePool.init M)) n (ma j)).1 ≤ 1 ∧
      numFreeBlocks (rounds n ma (j + 1) (DynamicSizePool.init M)) ≤ 1 ∧
      (allocate (rounds n ma j (DynamicSizePool.init M)) n (ma j)).1.totalBytes =
        max (alignmentAdjust n) M ∧
      (rounds n ma (j + 1) (DynamicSizePool.init M)).totalBytes =
        max (alignmentAdjust n) M := by
  refine ⟨rfl, ?_⟩
  intro j _
  obtain ⟨a1, a2, a3, hall⟩ := rounds_oneFreeSpan M n ma hn15 hspan
  have hle : n ≤ max (alignmentAdjust n) M := le_sizeToAlloc (s := DynamicSizePool.init M) hn15
  have hafter := hall j
  have hfree : numFreeBlocks (rounds n ma (j + 1) (DynamicSizePool.init M)) ≤ 1 := by
    unfold numFreeBlocks; rw [hafter.free]; simp
  cases j with
  | zero => exact ⟨a1, hafter.spans, a3, hfree, a2, hafter.total⟩
  | succ i =>
    obtain ⟨r1, r2, r3, _⟩ := round_of_oneFreeSpan (hall i) hle hspan (ma (i + 1))
    exact ⟨r1, hafter.spans, r3, hfree, r2, hafter.total⟩

/-- C10 (amended), at a concrete input: `n = 64`, `k = 100000`,
`minBytes = 256`, the backing source answering 4096. -/
theorem rounds_single_backing_request_witness :
    (1 ≤ 64 ∧ 64 + 15 < 2 ^ 64 ∧
      (fun _ : Nat => 4096) 0 + max (alignmentAdjust 64) 256 < 2 ^ 64 ∧ 99999 < 100000) ∧
    (rounds 64 (fun _ => 4096) (99999 + 1) (DynamicSizePool.init 256)).maAllocated =
      [(4096, max (alignmentAdjust 64) 256)] ∧
    numFreeBlocks (rounds 64 (fun _ => 4096) (99999 + 1) (DynamicSizePool.init 256)) ≤ 1 :=
  ⟨⟨by decide, by decide, by decide, by decide⟩,
    ((rounds_single_backing_request 256 64 (fun _ => 4096) 100000 (by decide)
      (by decide) (by decide)).2 99999 (by decide)).2.1,
    ((rounds_single_backing_request 256 64 (fun _ => 4096) 100000 (by decide)
      (by decide) (by decide)).2 99999 (by decide)).2.2.2.1⟩

/-! ## Integers and bits of the fixed-size pool -/

theorem toInt_of_lt {v : Nat} (h : v < 2 ^ 31) : toInt v = (v : Int) := by
  unfold toInt
  have h1 : v % 2 ^ 32 = v := Nat.mod_eq_of_lt (by omega)
  rw [h1, if_pos h]

theorem toSizeT_natCast {v : Nat} (h : v < 2 ^ 64) : toSizeT (v : Int) = v := by
  unfold toSizeT
  have : ((v : Int) % 2 ^ 64) = (v : Int) := Int.emod_eq_of_lt (by omega) (by omega)
  rw [this]; simp

theorem ptrAdd_natCast {sizeofT p k : Nat} (h : p + k * sizeofT < 2 ^ 64) :
    ptrAdd sizeofT p (k : Int) = p + k * sizeofT := by
  unfold ptrAdd
  have e : ((p : Int) + (k : Int) * (sizeofT : Int)) = ((p + k * sizeofT : Nat) : Int) := by
    push_cast; ring
  have h2 : ((p : Int) + (k : Int) * (sizeofT : Int)) % 2 ^ 64 = ((p + k * sizeofT : Nat) : Int) := by
    rw [e]; exact Int.emod_eq_of_lt (by omega) (by omega)
  rw [h2]; exact Int.toNat_ofNat _

theorem ffs_eq_zero_iff (w : Nat) : ffs w = 0 ↔ ∀ b, b < 32 → w.testBit b = false := by
  unfold ffs
  cases h : (List.range 32).find? (fun b => w.testBit b) with
  | none =>
    rw [List.find?_range_eq_none] at h
    simp only [true_iff]
    intro b hb
    simpa using h b hb
  | some b =>
    rw [List.find?_range_eq_some] at h
    simp only [Nat.add_one_ne_zero, false_iff]
    intro hall
    have := hall b (by simpa using h.2.1)
    rw [this] at h
    exact absurd h.1 (by simp)

theorem ffs_spec {w : Nat} (h : ffs w ≠ 0) :
    ffs w - 1 < 32 ∧ w.testBit (ffs w - 1) = true ∧ ∀ b, b < ffs w - 1 → w.testBit b = false := by
  unfold ffs at h ⊢
  cases hf : (List.range 32).find? (fun b => w.testBit b) with
  | none => rw [hf] at h; exact absurd rfl h
  | some b =>
    rw [List.find?_range_eq_some] at hf
    simp only [Nat.add_sub_cancel]
    refine ⟨by simpa using hf.2.1, hf.1, ?_⟩
    intro c hc
    simpa using hf.2.2 c hc

/-- Toggling bit `b` of a word of 32 bits. -/
theorem testBit_toggle (w b c : Nat) (hc : c < 32) :
    ((w ^^^ (1 <<< b)) % 2 ^ 32).testBit c = (w.testBit c ^^ decide (b = c)) := by
  rw [Nat.testBit_mod_two_pow, Nat.testBit_xor, Nat.one_shiftLeft, Nat.testBit_two_pow]
  simp [hc]

theorem toggle_toggle (w b : Nat) (hw : w < 2 ^ 32) (hb : b < 32) :
    (((w ^^^ (1 <<< b)) % 2 ^ 32) ^^^ (1 <<< b)) % 2 ^ 32 = w := by
  have h1 : (1 <<< b : Nat) < 2 ^ 32 := by
    rw [Nat.one_shiftLeft]; exact Nat.pow_lt_pow_right (by norm_num) hb
  have h2 : w ^^^ (1 <<< b) < 2 ^ 32 := Nat.xor_lt_two_pow hw h1
  rw [Nat.mod_eq_of_lt h2, Nat.xor_cancel_right, Nat.mod_eq_of_lt hw]

theorem toggle_lt (w b : Nat) : (w ^^^ (1 <<< b)) % 2 ^ 32 < 2 ^ 32 :=
  Nat.mod_lt _ (by norm_num)

/-- Counting over `0 .. n - 1` a predicate that is switched off at one place. -/
theorem countP_switch_off (n k : Nat) (f g : Nat → Bool) (hk : k < n)
    (hf : f k = true) (hg : g k = false) (hfg : ∀ j, j ≠ k → g j = f j) :
    (List.range n).countP g + 1 = (List.range n).countP f := by
  induction n with
  | zero => omega
  | succ m ih =>
    rw [List.range_succ, List.countP_append, List.countP_append]
    by_cases hkm : k = m
    · subst hkm
      have hsame : (List.range k).countP g = (List.range k).countP f := by
        apply List.countP_congr
        intro j hj
        have : j ≠ k := by
          have := List.mem_range.1 hj; omega
        rw [hfg j this]
      simp [hsame, hf, hg]
    · have := ih (by omega)
      have hm : g m = f m := hfg m (fun e => hkm e.symm)
      simp only [List.countP_cons, List.countP_nil, hm]
      omega

/-! ## Slots of a slab -/

theorem slotFree_lt {p : Pool} {k : Nat} (h : slotFree p k = true) : k < numSlots p := by
  unfold slotFree at h
  unfold numSlots
  by_contra hge
  have : p.avail.length ≤ k / 32 := by omega
  rw [List.getD_eq_getElem?_getD, List.getElem?_eq_none this] at h
  simp at h

theorem toggleSlot_length (avail : List Nat) (k : Nat) :
    (toggleSlot avail k).length = avail.length := by
  unfold toggleSlot; simp

/-- Flipping the bit of slot `k0` changes the state of that slot only. -/
theorem slotFree_toggle {p q : Pool} {k0 : Nat} (hq : q.avail = toggleSlot p.avail k0)
    (hk0 : k0 < numSlots p) (k : Nat) :
    slotFree q k = (slotFree p k ^^ decide (k0 = k)) := by
  unfold numSlots at hk0
  have hi : k0 / 32 < p.avail.length := by omega
  unfold slotFree
  rw [hq]
  unfold toggleSlot
  simp only [List.getD_eq_getElem?_getD, List.getElem?_set]
  by_cases hsame : k0 / 32 = k / 32
  · rw [if_pos hsame, if_pos hi]
    simp only [Option.getD_some]
    rw [testBit_toggle _ _ _ (Nat.mod_lt _ (by norm_num)), hsame]
    have : (k0 % 32 = k % 32) ↔ (k0 = k) := by omega
    simp only [this]
  · rw [if_neg hsame]
    have : k0 ≠ k := fun e => hsame (by rw [e])
    simp [this]

theorem numSlots_toggle {p q : Pool} {k0 : Nat} (hq : q.avail = toggleSlot p.avail k0) :
    numSlots q = numSlots p := by
  unfold numSlots; rw [hq, toggleSlot_length]

/-- Taking a free slot: one set bit less, one cleared bit more. -/
theorem count_take {p q : Pool} {k0 : Nat} (hq : q.avail = toggleSlot p.avail k0)
    (hfree : slotFree p k0 = true) :
    countSet q + 1 = countSet p ∧ countCleared q = countCleared p + 1 := by
  have hk0 := slotFree_lt hfree
  have hn := numSlots_toggle hq
  have htog := slotFree_toggle hq hk0
  unfold countSet countCleared
  rw [hn]
  constructor
  · apply countP_switch_off _ k0 _ _ hk0 hfree
    · rw [htog, hfree]; simp
    · intro j hj
      rw [htog]
      have : k0 ≠ j := fun e => hj e.symm
      simp [this]
  · symm
    apply countP_switch_off _ k0 _ _ hk0
    · rw [htog, hfree]; simp
    · rw [hfree]; rfl
    · intro j hj
      rw [htog]
      have : k0 ≠ j := fun e => hj e.symm
      simp [this]

/-- Giving back a slot in use: one set bit more, one cleared bit less. -/
theorem count_give {p q : Pool} {k0 : Nat} (hq : q.avail = toggleSlot p.avail k0)
    (hk0 : k0 < numSlots p) (hused : slotFree p k0 = false) :
    countSet q = countSet p + 1 ∧ countCleared q + 1 = countCleared p := by
  have hn := numSlots_toggle hq
  have htog := slotFree_toggle hq hk0
  unfold countSet countCleared
  rw [hn]
  constructor
  · symm
    apply countP_switch_off _ k0 _ _ hk0
    · rw [htog, hused]; simp
    · exact hused
    · intro j hj
      rw [htog]
      have : k0 ≠ j := fun e => hj e.symm
      simp [this]
  · apply countP_switch_off _ k0 _ _ hk0
    · rw [hused]; rfl
    · rw [htog, hused]; simp
    · intro j hj
      rw [htog]
      have : k0 ≠ j := fun e => hj e.symm
      simp [this]

theorem set_getElem_same (l : List Nat) (i : Nat) (h : i < l.length) : l.set i l[i] = l := by
  apply List.ext_getElem?
  intro j
  rw [List.getElem?_set]
  split_ifs with h1
  · subst h1; exact (List.getElem?_eq_getElem h).symm
  · rfl

theorem toggleSlot_toggleSlot (avail : List Nat) (k : Nat)
    (hw : ∀ w ∈ avail, w < 2 ^ 32) : toggleSlot (toggleSlot avail k) k = avail := by
  by_cases hi : k / 32 < avail.length
  · have hget : avail.getD (k / 32) 0 = avail[k / 32] := List.getD_eq_getElem _ _ hi
    have hwk : avail[k / 32] < 2 ^ 32 := hw _ (List.getElem_mem hi)
    unfold toggleSlot
    simp only [List.getD_eq_getElem?_getD, List.getElem?_set_self hi, Option.getD_some,
      List.set_set]
    rw [List.getElem?_eq_getElem hi, Option.getD_some,
      toggle_toggle _ _ hwk (Nat.mod_lt _ (by norm_num))]
    exact set_getElem_same avail _ hi
  · have h1 : toggleSlot avail k = avail := by
      unfold toggleSlot
      exact List.set_eq_of_length_le (by omega)
    rw [h1, h1]

theorem toggleSlot_lt (avail : List Nat) (k : Nat) (hw : ∀ w ∈ avail, w < 2 ^ 32) :
    ∀ w ∈ toggleSlot avail k, w < 2 ^ 32 := by
  intro w hwm
  unfold toggleSlot at hwm
  rcases List.mem_or_eq_of_mem_set hwm with h | h
  · exact hw w h
  · rw [h]; exact toggle_lt _ _

/-! ## `allocInPool` takes the lowest free slot -/

theorem firstAvail_none (avail : List Nat) : ∀ off, firstAvail avail off = none →
    ∀ j b, b < 32 → (avail.getD j 0).testBit b = false := by
  induction avail with
  | nil => intro off _ j b _; simp
  | cons w rest ih =>
    intro off h j b hb
    unfold firstAvail at h
    split_ifs at h with hw
    have hw0 : ffs w = 0 := by simpa using hw
    cases j with
    | zero => simpa using (ffs_eq_zero_iff w).1 hw0 b hb
    | succ j => simpa using ih (off + 1) h j b hb

theorem firstAvail_some (avail : List Nat) : ∀ off i bit, firstAvail avail off = some (i, bit) →
    off ≤ i ∧ i - off < avail.length ∧ bit < 32 ∧
      (avail.getD (i - off) 0).testBit bit = true ∧
      (∀ b, b < bit → (avail.getD (i - off) 0).testBit b = false) ∧
      ∀ j, j < i - off → ∀ b, b < 32 → (avail.getD j 0).testBit b = false := by
  induction avail with
  | nil => intro off i bit h; simp [firstAvail] at h
  | cons w rest ih =>
    intro off i bit h
    unfold firstAvail at h
    split_ifs at h with hw
    · simp only [Option.some.injEq, Prod.mk.injEq] at h
      obtain ⟨rfl, rfl⟩ := h
      obtain ⟨h1, h2, h3⟩ := ffs_spec hw
      refine ⟨le_refl _, by simp, h1, by simpa using h2, ?_, ?_⟩
      · intro b hb; simpa using h3 b hb
      · intro j hj; omega
    · have hw0 : ffs w = 0 := by simpa using hw
      obtain ⟨h1, h2, h3, h4, h5, h6⟩ := ih (off + 1) i bit h
      have e : i - off = (i - (off + 1)) + 1 := by omega
      refine ⟨by omega, by simp; omega, h3, ?_, ?_, ?_⟩
      · rw [e]; simpa using h4
      · intro b hb; rw [e]; simpa using h5 b hb
      · intro j hj b hb
        cases j with
        | zero => simpa using (ffs_eq_zero_iff w).1 hw0 b hb
        | succ j => simpa using h6 j (by omega) b hb

/-- The slab after slot `k` is taken by `allocInPool`. -/
theorem allocInPool_some {sizeofT : Nat} {p q : Pool} {ptr : Nat}
    (h : allocInPool sizeofT p = some (q, ptr)) :
    ∃ k, p.numAvail ≠ 0 ∧ k < numSlots p ∧ slotFree p k = true ∧
      (∀ k', k' < k → slotFree p k' = false) ∧
      q = { p with avail := toggleSlot p.avail k
                   numAvail := (p.numAvail + (2 ^ 32 - 1)) % 2 ^ 32 } ∧
      ptr = ptrAdd sizeofT p.data (toInt k) := by
  unfold allocInPool at h
  split_ifs at h with h0
  cases hf : firstAvail p.avail 0 with
  | none => rw [hf] at h; cases h
  | some ib =>
    obtain ⟨i, bit⟩ := ib
    rw [hf] at h
    simp only [Option.some.injEq, Prod.mk.injEq] at h
    obtain ⟨_, h2, h3, h4, h5, h6⟩ := firstAvail_some p.avail 0 i bit hf
    simp only [Nat.sub_zero] at h2 h4 h5 h6
    have e1 : (i * 32 + bit) / 32 = i := by omega
    have e2 : (i * 32 + bit) % 32 = bit := by omega
    refine ⟨i * 32 + bit, h0, by unfold numSlots; omega, ?_, ?_, ?_, ?_⟩
    · unfold slotFree; rw [e1, e2]; exact h4
    · intro k' hk'
      unfold slotFree
      by_cases hq : k' / 32 = i
      · rw [hq]; exact h5 _ (by omega)
      · exact h6 _ (by omega) _ (Nat.mod_lt _ (by norm_num))
    · rw [← h.1]
      unfold toggleSlot
      rw [e1, e2]
    · rw [← h.2]
      have : i * 4 * 8 + bit = i * 32 + bit := by omega
      rw [this]

theorem allocInPool_none {sizeofT : Nat} {p : Pool} (h : allocInPool sizeofT p = none) :
    p.numAvail = 0 ∨ ∀ k, slotFree p k = false := by
  unfold allocInPool at h
  split_ifs at h with h0
  · exact Or.inl h0
  · right
    cases hf : firstAvail p.avail 0 with
    | none =>
      intro k
      exact firstAvail_none p.avail 0 hf _ _ (Nat.mod_lt _ (by norm_num))
    | some ib =>
      obtain ⟨i, bit⟩ := ib
      rw [hf] at h; cases h

theorem allocInPool_of_numAvail_zero {sizeofT : Nat} {p : Pool} (h : p.numAvail = 0) :
    allocInPool sizeofT p = none := by
  unfold allocInPool; rw [if_pos h]

/-- `allocInPool` on a slab with a slot count that is not 0 and whose lowest
free slot is `k`. -/
theorem allocInPool_lowest {sizeofT : Nat} {p : Pool} {k : Nat} (h0 : p.numAvail ≠ 0)
    (hfree : slotFree p k = true) (hlow : ∀ k', k' < k → slotFree p k' = false) :
    allocInPool sizeofT p =
      some ({ p with avail := toggleSlot p.avail k
                     numAvail := (p.numAvail + (2 ^ 32 - 1)) % 2 ^ 32 },
            ptrAdd sizeofT p.data (toInt k)) := by
  cases h : allocInPool sizeofT p with
  | none =>
    rcases allocInPool_none h with h1 | h1
    · exact absurd h1 h0
    · rw [h1 k] at hfree; cases hfree
  | some r =>
    obtain ⟨q, ptr⟩ := r
    obtain ⟨k2, _, _, hf2, hl2, hq, hp⟩ := allocInPool_some h
    have : k2 = k := by
      rcases Nat.lt_trichotomy k2 k with hlt | heq | hgt
      · rw [hlow k2 hlt] at hf2; cases hf2
      · exact heq
      · rw [hl2 k hgt] at hfree; cases hfree
    subst this
    rw [hq, hp]

/-! ## Prefixes of a sequence of calls -/

theorem RunOK_take {ops : List Op} : ∀ {s : DynamicSizePool} (k : Nat), RunOK s ops →
    RunOK s (ops.take k) := by
  induction ops with
  | nil => intro s k h; simpa using h
  | cons op ops ih =>
    intro s k h
    cases k with
    | zero => simp [RunOK]
    | succ k => exact ⟨h.1, ih k h.2⟩

/-! ## The walks over the chain of slabs -/

theorem numPerPool_eq {NP : Nat} (h : NP * 32 ≤ 2 ^ 31) : numPerPool NP = NP * 32 := by
  unfold numPerPool
  rw [Nat.mod_eq_of_lt (by omega)]
  omega

theorem slot_mul_lt {k n sz : Nat} (hk : k < n) (hsz : 1 ≤ sz) : k * sz < n * sz :=
  Nat.mul_lt_mul_of_pos_right hk hsz

theorem inSlab_iff {NP sizeofT : Nat} {p : Pool} {ptr : Nat} (hNP : NP * 32 ≤ 2 ^ 31)
    (hfit : p.data + NP * 32 * sizeofT < 2 ^ 64) :
    InSlab NP sizeofT p ptr ↔ p.data ≤ ptr ∧ ptr < p.data + NP * 32 * sizeofT := by
  unfold InSlab
  rw [numPerPool_eq hNP, ptrAdd_natCast hfit]

theorem allocWalk_some {sizeofT : Nat} : ∀ {pool chain : List Pool} {ptr : Nat},
    allocWalk sizeofT pool = some (chain, ptr) →
    ∃ pre q post q1, pool = pre ++ q :: post ∧ chain = pre ++ q1 :: post ∧
      (∀ r ∈ pre, allocInPool sizeofT r = none) ∧ allocInPool sizeofT q = some (q1, ptr) := by
  intro pool
  induction pool with
  | nil => intro chain ptr h; simp [allocWalk] at h
  | cons curr rest ih =>
    intro chain ptr h
    unfold allocWalk at h
    cases hc : allocInPool sizeofT curr with
    | some r =>
      obtain ⟨c, p⟩ := r
      rw [hc] at h
      simp only [Option.some.injEq, Prod.mk.injEq] at h
      obtain ⟨rfl, rfl⟩ := h
      exact ⟨[], curr, rest, c, rfl, rfl, by simp, hc⟩
    | none =>
      rw [hc] at h
      cases hr : allocWalk sizeofT rest with
      | none => rw [hr] at h; simp at h
      | some r =>
        obtain ⟨c, p⟩ := r
        rw [hr] at h
        simp only [Option.some.injEq, Prod.mk.injEq] at h
        obtain ⟨rfl, rfl⟩ := h
        obtain ⟨pre, q, post, q1, h1, h2, h3, h4⟩ := ih hr
        refine ⟨curr :: pre, q, post, q1, by rw [h1]; rfl, by rw [h2]; rfl, ?_, h4⟩
        intro r hr
        rcases List.mem_cons.1 hr with rfl | hr
        · exact hc
        · exact h3 r hr

theorem allocWalk_split {sizeofT : Nat} {q q1 : Pool} {post : List Pool} {ptr : Nat}
    (hq : allocInPool sizeofT q = some (q1, ptr)) : ∀ {pre : List Pool},
    (∀ r ∈ pre, allocInPool sizeofT r = none) →
    allocWalk sizeofT (pre ++ q :: post) = some (pre ++ q1 :: post, ptr) := by
  intro pre
  induction pre with
  | nil => intro _; simp [allocWalk, hq]
  | cons r pre ih =>
    intro h
    have h1 := h r (List.mem_cons_self _ _)
    have h2 := ih (fun x hx => h x (List.mem_cons_of_mem _ hx))
    simp [allocWalk, h1, h2]

theorem allocWalk_none_iff {sizeofT : Nat} {pool : List Pool} :
    allocWalk sizeofT pool = none ↔ ∀ r ∈ pool, allocInPool sizeofT r = none := by
  induction pool with
  | nil => simp [allocWalk]
  | cons curr rest ih =>
    unfold allocWalk
    cases hc : allocInPool sizeofT curr with
    | some r => simp [hc]
    | none =>
      cases hr : allocWalk sizeofT rest with
      | some r =>
        have : ¬ ∀ r ∈ rest, allocInPool sizeofT r = none := fun h => by
          rw [ih.2 h] at hr; cases hr
        simp [hc, this]
      | none =>
        simp only [hc, true_and, List.mem_cons, forall_eq_or_imp, true_iff]
        exact ih.1 hr

theorem deallocWalk_split {NP sizeofT ptr : Nat} {q : Pool} {post : List Pool}
    (hq : InSlab NP sizeofT q ptr) (hal : (ptr - q.data) % sizeofT = 0) : ∀ {pre : List Pool},
    (∀ r ∈ pre, ¬ InSlab NP sizeofT r ptr) →
    deallocWalk NP sizeofT ptr (pre ++ q :: post) =
      Freed.gave (pre ++
        { q with
          avail := xorAt q.avail
            (toInt (toSizeT (toInt ((ptr - q.data) / sizeofT)) / 4 / 8))
            (toInt (toSizeT (toInt ((ptr - q.data) / sizeofT)) % (4 * 8)))
          numAvail := (q.numAvail + 1) % 2 ^ 32 } :: post) := by
  intro pre
  induction pre with
  | nil =>
    intro _
    unfold InSlab at hq
    simp [deallocWalk, hq, hal]
  | cons r pre ih =>
    intro h
    have h1 := h r (List.mem_cons_self _ _)
    have h2 := ih (fun x hx => h x (List.mem_cons_of_mem _ hx))
    unfold InSlab at h1
    rw [List.cons_append]
    unfold deallocWalk
    rw [if_neg h1, h2]
    rfl

theorem deallocWalk_none {NP sizeofT ptr : Nat} : ∀ {pool : List Pool},
    (∀ r ∈ pool, ¬ InSlab NP sizeofT r ptr) →
    deallocWalk NP sizeofT ptr pool = Freed.noSlab := by
  intro pool
  induction pool with
  | nil => intro _; rfl
  | cons r pool ih =>
    intro h
    have h1 := h r (List.mem_cons_self _ _)
    have h2 := ih (fun x hx => h x (List.mem_cons_of_mem _ hx))
    unfold InSlab at h1
    simp only [deallocWalk, h1, if_false, h2]

theorem xorAt_slot (avail : List Nat) {k : Nat} (hk : k < 2 ^ 31) :
    xorAt avail (toInt (toSizeT (toInt k) / 4 / 8)) (toInt (toSizeT (toInt k) % (4 * 8))) =
      toggleSlot avail k := by
  have e1 : toInt k = (k : Int) := toInt_of_lt hk
  have e2 : toSizeT (toInt k) = k := by rw [e1]; exact toSizeT_natCast (by omega)
  have e3 : toInt (k / 4 / 8) = ((k / 32 : Nat) : Int) := by
    rw [Nat.div_div_eq_div_mul]
    exact toInt_of_lt (by omega)
  have e4 : toInt (k % (4 * 8)) = ((k % 32 : Nat) : Int) := toInt_of_lt (by omega)
  rw [e2, e3, e4]
  unfold xorAt toggleSlot
  rw [if_pos (Int.ofNat_nonneg _)]
  simp only [Int.toNat_ofNat]

theorem slot_div {k sz r : Nat} (hr : r < sz) : (k * sz + r) / sz = k := by
  have hsz : 0 < sz := by omega
  rw [Nat.add_comm, Nat.add_mul_div_right _ _ hsz, Nat.div_eq_of_lt hr, Nat.zero_add]

/-! ## A fresh slab -/

theorem newPool_numAvail (NP a : Nat) : (newPool NP a).numAvail = (NP * 32) % 2 ^ 32 := by
  unfold newPool numPerPool
  simp only
  omega

theorem newPool_data_lt (NP a : Nat) : (newPool NP a).data < 2 ^ 64 := by
  unfold newPool wadd
  exact Nat.mod_lt _ (by norm_num)

theorem slotFree_newPool {NP a k : Nat} (hk : k < NP * 32) :
    slotFree (newPool NP a) k = true := by
  unfold slotFree newPool
  simp only
  have h1 : k / 32 < NP := by omega
  have h2 : k % 32 < 32 := Nat.mod_lt _ (by norm_num)
  rw [List.getD_eq_getElem?_getD, List.getElem?_replicate, if_pos h1]
  simp only [Option.getD_some]
  rw [Nat.testBit_two_pow_sub_one]
  simpa using h2

theorem numSlots_newPool (NP a : Nat) : numSlots (newPool NP a) = 32 * NP := by
  simp [numSlots, newPool]

theorem countSet_newPool (NP a : Nat) : countSet (newPool NP a) = 32 * NP := by
  unfold countSet
  rw [numSlots_newPool]
  have : ∀ k ∈ List.range (32 * NP), (fun k => slotFree (newPool NP a) k) k = true := by
    intro k hk
    exact slotFree_newPool (by have := List.mem_range.1 hk; omega)
  rw [List.countP_eq_length.2 this, List.length_range]

theorem countCleared_newPool (NP a : Nat) : countCleared (newPool NP a) = 0 := by
  unfold countCleared
  rw [numSlots_newPool, List.countP_eq_zero]
  intro k hk
  have := @slotFree_newPool NP a k (by have := List.mem_range.1 hk; omega)
  simp [this]

theorem ptrAdd_zero {sizeofT p : Nat} (hp : p < 2 ^ 64) : ptrAdd sizeofT p (toInt 0) = p := by
  have h0 : toInt 0 = ((0 : Nat) : Int) := toInt_of_lt (by norm_num)
  rw [h0, ptrAdd_natCast (by omega)]
  omega

/-- `allocInPool` on a fresh slab takes slot 0. -/
theorem allocInPool_newPool {NP a : Nat} (sizeofT : Nat) (h1 : 1 ≤ NP)
    (h2 : (NP * 32) % 2 ^ 32 ≠ 0) :
    allocInPool sizeofT (newPool NP a) =
      some ({ data := (newPool NP a).data
              avail := toggleSlot (newPool NP a).avail 0
              numAvail := (NP * 32) % 2 ^ 32 - 1 },
            (newPool NP a).data) := by
  have hn := newPool_numAvail NP a
  rw [@allocInPool_lowest sizeofT (newPool NP a) 0 (by rw [hn]; exact h2)
    (slotFree_newPool (by omega)) (by intro k hk; omega), ptrAdd_zero (newPool_data_lt NP a), hn]
  have : ((NP * 32) % 2 ^ 32 + (2 ^ 32 - 1)) % 2 ^ 32 = (NP * 32) % 2 ^ 32 - 1 := by omega
  rw [this]

theorem xor_all_ones : ((2 ^ 32 - 1) ^^^ (1 <<< 0)) % 2 ^ 32 = 2 ^ 32 - 2 := by decide

theorem toggleSlot_newPool {NP a : Nat} (h1 : 1 ≤ NP) :
    toggleSlot (newPool NP a).avail 0 = (2 ^ 32 - 2) :: List.replicate (NP - 1) (2 ^ 32 - 1) := by
  obtain ⟨n, rfl⟩ : ∃ n, NP = n + 1 := ⟨NP - 1, by omega⟩
  have hav : (newPool (n + 1) a).avail = (2 ^ 32 - 1) :: List.replicate n (2 ^ 32 - 1) := by
    unfold newPool
    simp only [List.replicate_succ]
  rw [hav]
  unfold toggleSlot
  have e0 : 0 / 32 = 0 := rfl
  have e1 : 0 % 32 = 0 := rfl
  rw [e0, e1, List.getD_cons_zero, xor_all_ones, List.set_cons_zero, Nat.add_sub_cancel]

/-! ## `FixedSizePool::allocate()` -/

theorem allocate_of_walk {NP sizeofT : Nat} {ma : Nat → Nat} {s : FixedSizePool}
    {chain : List Pool} {ptr : Nat} (fuel : Nat)
    (h : allocWalk sizeofT s.pool = some (chain, ptr)) :
    FixedSizePool.allocate NP sizeofT ma (fuel + 1) s =
      some ({ pool := chain, numBlocks := (s.numBlocks + 1) % 2 ^ 64 }, ptr) := by
  simp [FixedSizePool.allocate, h]

theorem allocate_of_full {NP sizeofT : Nat} {ma : Nat → Nat} {s : FixedSizePool} (fuel : Nat)
    (h : allocWalk sizeofT s.pool = none) :
    FixedSizePool.allocate NP sizeofT ma (fuel + 1) s =
      FixedSizePool.allocate NP sizeofT ma fuel
        { s with pool := s.pool ++ [newPool NP (ma s.pool.length)] } := by
  simp [FixedSizePool.allocate, h]

theorem allocWalk_of_numAvail_zero {sizeofT : Nat} {pool : List Pool}
    (h : ∀ p ∈ pool, p.numAvail = 0) : allocWalk sizeofT pool = none :=
  allocWalk_none_iff.2 (fun r hr => allocInPool_of_numAvail_zero (h r hr))

/-- The call that finds every slab full, for a slab size whose `numAvail` is
not truncated to 0: one nested call, one slab appended, slot 0 of it taken. -/
theorem allocate_grows {NP sizeofT : Nat} {ma : Nat → Nat} {s : FixedSizePool}
    (h1 : 1 ≤ NP) (h2 : (NP * 32) % 2 ^ 32 ≠ 0) (h : allocWalk sizeofT s.pool = none) :
    FixedSizePool.allocate NP sizeofT ma 2 s =
      some ({ pool := s.pool ++
                [{ data := (newPool NP (ma s.pool.length)).data
                   avail := toggleSlot (newPool NP (ma s.pool.length)).avail 0
                   numAvail := (NP * 32) % 2 ^ 32 - 1 }]
              numBlocks := (s.numBlocks + 1) % 2 ^ 64 },
            (newPool NP (ma s.pool.length)).data) := by
  rw [allocate_of_full 1 h]
  have hw := @allocWalk_split sizeofT _ _ [] _
    (@allocInPool_newPool NP (ma s.pool.length) sizeofT h1 h2) s.pool (allocWalk_none_iff.1 h)
  rw [allocate_of_walk 0 hw]

theorem allocate_grows_any_fuel {NP sizeofT : Nat} {ma : Nat → Nat} {s : FixedSizePool}
    (fuel : Nat) (h1 : 1 ≤ NP) (h2 : (NP * 32) % 2 ^ 32 ≠ 0)
    (h : allocWalk sizeofT s.pool = none) :
    FixedSizePool.allocate NP sizeofT ma (fuel + 2) s =
      FixedSizePool.allocate NP sizeofT ma 2 s := by
  rw [allocate_grows h1 h2 h, allocate_of_full (fuel + 1) h]
  have hw := @allocWalk_split sizeofT _ _ [] _
    (@allocInPool_newPool NP (ma s.pool.length) sizeofT h1 h2) s.pool (allocWalk_none_iff.1 h)
  rw [allocate_of_walk fuel hw]

/-- When `numAvail` of a fresh slab is truncated to 0, `allocate()` on a pool
of full slabs appends slabs without end. -/
theorem allocate_none_of_truncated {NP sizeofT : Nat} {ma : Nat → Nat}
    (h0 : (NP * 32) % 2 ^ 32 = 0) : ∀ (fuel : Nat) (s : FixedSizePool),
    (∀ p ∈ s.pool, p.numAvail = 0) → FixedSizePool.allocate NP sizeofT ma fuel s = none := by
  intro fuel
  induction fuel with
  | zero => intro s _; rfl
  | succ fuel ih =>
    intro s hs
    rw [allocate_of_full fuel (allocWalk_of_numAvail_zero hs)]
    apply ih
    intro p hp
    rcases List.mem_append.1 hp with hp | hp
    · exact hs p hp
    · rw [List.mem_singleton.1 hp, newPool_numAvail, h0]

/-! ## The lowest free slot of a slab -/

theorem countSet_le (p : Pool) : countSet p ≤ numSlots p := by
  unfold countSet
  exact (List.countP_le_length _).trans (by rw [List.length_range])

theorem countCleared_le (p : Pool) : countCleared p ≤ numSlots p := by
  unfold countCleared
  exact (List.countP_le_length _).trans (by rw [List.length_range])

theorem exists_lowest_free {p : Pool} (h : 0 < countSet p) :
    ∃ k, k < numSlots p ∧ slotFree p k = true ∧ ∀ k1, k1 < k → slotFree p k1 = false := by
  unfold countSet at h
  obtain ⟨k0, hk0, hf0⟩ := List.countP_pos_iff.1 h
  have hex : ∃ k, slotFree p k = true := ⟨k0, hf0⟩
  refine ⟨Nat.find hex, ?_, Nat.find_spec hex, ?_⟩
  · have := Nat.find_min' hex hf0
    have := List.mem_range.1 hk0
    omega
  · intro k1 hk1
    have := Nat.find_min hex hk1
    simpa using this

/-- Taking a free slot clears exactly its avail bit. -/
theorem slotFree_take {p : Pool} {k : Nat} (n : Nat) (hk : k < numSlots p)
    (hfree : slotFree p k = true) (k1 : Nat) :
    slotFree { p with avail := toggleSlot p.avail k, numAvail := n } k1 =
      (slotFree p k1 && decide (k1 ≠ k)) := by
  rw [@slotFree_toggle p { p with avail := toggleSlot p.avail k, numAvail := n } k rfl hk k1]
  by_cases h : k = k1
  · subst h; simp [hfree]
  · have h1 : k1 ≠ k := fun e => h e.symm
    simp [h, h1]

/-! ## `FixedSizePool::deallocate(ptr)` -/

theorem slot_index_lt {NP sizeofT d ptr : Nat} (h1 : d ≤ ptr)
    (h2 : ptr < d + NP * 32 * sizeofT) : (ptr - d) / sizeofT < NP * 32 := by
  apply Nat.div_lt_of_lt_mul
  rw [Nat.mul_comm]
  omega

/-- The call on a pointer to a slot of the slab `q`, no slab in front of `q`
passing the range test: the avail bit of the slot is flipped. -/
theorem deallocate_slot {NP sizeofT ptr : Nat} {s : FixedSizePool} {pre post : List Pool}
    {q : Pool} (hs : s.pool = pre ++ q :: post)
    (hpre : ∀ r ∈ pre, ¬ InSlab NP sizeofT r ptr) (hq : InSlab NP sizeofT q ptr)
    (hNP : NP * 32 ≤ 2 ^ 31) (hfit : q.data + NP * 32 * sizeofT < 2 ^ 64)
    (hal : (ptr - q.data) % sizeofT = 0) :
    (ptr - q.data) / sizeofT < NP * 32 ∧
    FixedSizePool.deallocate NP sizeofT s ptr =
      some ({ pool := pre ++
                { q with
                  avail := toggleSlot q.avail ((ptr - q.data) / sizeofT)
                  numAvail := (q.numAvail + 1) % 2 ^ 32 } :: post
              numBlocks := (s.numBlocks + (2 ^ 64 - 1)) % 2 ^ 64 }, false) := by
  have hq2 := (inSlab_iff hNP hfit).1 hq
  have hk := slot_index_lt hq2.1 hq2.2
  refine ⟨hk, ?_⟩
  unfold FixedSizePool.deallocate
  rw [hs, deallocWalk_split hq hal hpre, xorAt_slot q.avail (by omega)]

theorem deallocate_none {NP sizeofT ptr : Nat} {s : FixedSizePool}
    (h : ∀ r ∈ s.pool, ¬ InSlab NP sizeofT r ptr) :
    FixedSizePool.deallocate NP sizeofT s ptr = some (s, true) := by
  unfold FixedSizePool.deallocate
  rw [deallocWalk_none h]

/-- Giving back a slot in use sets exactly its avail bit. -/
theorem slotFree_give {p : Pool} {k : Nat} (n : Nat) (hk : k < numSlots p)
    (hused : slotFree p k = false) (k1 : Nat) :
    slotFree { p with avail := toggleSlot p.avail k, numAvail := n } k1 =
      (slotFree p k1 || decide (k1 = k)) := by
  rw [@slotFree_toggle p { p with avail := toggleSlot p.avail k, numAvail := n } k rfl hk k1]
  by_cases h : k = k1
  · subst h; simp [hused]
  · have h1 : k1 ≠ k := fun e => h e.symm
    simp [h, h1]

/-! ## Disjoint slabs -/

theorem slabDisjoint_symm (n sz : Nat) : Symmetric (SlabDisjoint n sz) := by
  intro p q h
  unfold SlabDisjoint at h ⊢
  omega

theorem slabs_measure {n sz : Nat} (hpos : 0 < n * sz) {pool : List Pool}
    (hd : pool.Pairwise (SlabDisjoint n sz)) (hfit : ∀ p ∈ pool, p.data + n * sz < 2 ^ 64) :
    pool.length * (n * sz) < 2 ^ 64 := by
  have hnd : (pool.map (fun p => p.data / (n * sz))).Nodup := by
    unfold List.Nodup
    rw [List.pairwise_map]
    refine hd.imp ?_
    intro a b hab heq
    unfold SlabDisjoint at hab
    have ha := Nat.div_add_mod a.data (n * sz)
    have hb := Nat.div_add_mod b.data (n * sz)
    have hma := Nat.mod_lt a.data hpos
    have hmb := Nat.mod_lt b.data hpos
    rw [heq] at ha
    omega
  have hsub : pool.map (fun p => p.data / (n * sz)) ⊆ List.range ((2 ^ 64 - 1) / (n * sz)) := by
    intro x hx
    obtain ⟨p, hp, rfl⟩ := List.mem_map.1 hx
    rw [List.mem_range]
    have h1 := hfit p hp
    have h2 : (p.data + n * sz) / (n * sz) ≤ (2 ^ 64 - 1) / (n * sz) :=
      Nat.div_le_div_right (by omega)
    rw [Nat.add_div_right _ hpos] at h2
    exact h2
  have hlen := (List.subperm_of_subset hnd hsub).length_le
  rw [List.length_map, List.length_range] at hlen
  have h3 := Nat.div_mul_le_self (2 ^ 64 - 1) (n * sz)
  have h4 : pool.length * (n * sz) ≤ (2 ^ 64 - 1) / (n * sz) * (n * sz) :=
    Nat.mul_le_mul_right _ hlen
  omega

theorem slot_inj {n sz : Nat} {pool : List Pool} (hd : pool.Pairwise (SlabDisjoint n sz))
    (hsz : 1 ≤ sz) {p q : Pool} (hp : p ∈ pool) (hq : q ∈ pool) {k k1 : Nat} (hk : k < n)
    (hk1 : k1 < n) (h : p.data + k * sz = q.data + k1 * sz) : p = q ∧ k = k1 := by
  have h1 := slot_mul_lt hk hsz
  have h2 := slot_mul_lt hk1 hsz
  by_cases hpq : p = q
  · subst hpq
    exact ⟨rfl, Nat.eq_of_mul_eq_mul_right (by omega : 0 < sz) (by omega)⟩
  · have := hd.forall (slabDisjoint_symm n sz) hp hq hpq
    unfold SlabDisjoint at this
    omega

theorem pairwise_replace {n sz : Nat} {pre post : List Pool} {q q1 : Pool}
    (hd : (pre ++ q :: post).Pairwise (SlabDisjoint n sz)) (hdata : q1.data = q.data) :
    (pre ++ q1 :: post).Pairwise (SlabDisjoint n sz) := by
  rw [List.pairwise_append, List.pairwise_cons] at hd ⊢
  obtain ⟨h1, ⟨h2, h3⟩, h4⟩ := hd
  refine ⟨h1, ⟨?_, h3⟩, ?_⟩
  · intro b hb
    have := h2 b hb
    unfold SlabDisjoint at this ⊢
    rw [hdata]; exact this
  · intro a ha b hb
    rcases List.mem_cons.1 hb with rfl | hb
    · have := h4 a ha q (List.mem_cons_self _ _)
      unfold SlabDisjoint at this ⊢
      rw [hdata]; exact this
    · exact h4 a ha b (List.mem_cons_of_mem _ hb)

theorem pairwise_snoc {n sz : Nat} {pool : List Pool} {q : Pool}
    (hd : pool.Pairwise (SlabDisjoint n sz)) (hq : ∀ p ∈ pool, SlabDisjoint n sz p q) :
    (pool ++ [q]).Pairwise (SlabDisjoint n sz) := by
  rw [List.pairwise_append]
  refine ⟨hd, List.pairwise_singleton _ _, ?_⟩
  intro a ha b hb
  rw [List.mem_singleton.1 hb]
  exact hq a ha

theorem sum_countCleared_le {m : Nat} : ∀ {pool : List Pool}, (∀ p ∈ pool, numSlots p = m) →
    (pool.map countCleared).sum ≤ pool.length * m := by
  intro pool
  induction pool with
  | nil => intro _; simp
  | cons p pool ih =>
    intro h
    have h1 := countCleared_le p
    rw [h p (List.mem_cons_self _ _)] at h1
    have h2 := ih (fun x hx => h x (List.mem_cons_of_mem _ hx))
    simp only [List.map_cons, List.sum_cons, List.length_cons]
    rw [Nat.add_mul, Nat.one_mul]
    omega

theorem SlabOK.numSlots_eq {NP sizeofT : Nat} {p : Pool} (h : SlabOK NP sizeofT p) :
    numSlots p = NP * 32 := by
  unfold numSlots; rw [h.words]; omega

/-- The slots in use of well-formed, pairwise disjoint slabs fit the address
space: their number times the slot size is below `2^64`. -/
theorem inUse_bound {NP sizeofT : Nat} {pool : List Pool} (hpar : FixedParams NP sizeofT)
    (hok : ∀ p ∈ pool, SlabOK NP sizeofT p)
    (hd : pool.Pairwise (SlabDisjoint (NP * 32) sizeofT)) :
    (pool.map countCleared).sum * sizeofT < 2 ^ 64 := by
  obtain ⟨h1, _, h3⟩ := hpar
  have hpos : 0 < NP * 32 * sizeofT := Nat.mul_pos (by omega) (by omega)
  have hm := slabs_measure hpos hd (fun p hp => (hok p hp).fits)
  have hs := @sum_countCleared_le (NP * 32) pool (fun p hp => (hok p hp).numSlots_eq)
  have := Nat.mul_le_mul_right sizeofT hs
  rw [Nat.mul_assoc] at this
  omega

/-! ## The invariant of the fixed-size pool -/

theorem FixedInv.atInit {NP sizeofT : Nat} {ma : Nat → Nat}
    (hfresh : FreshSlab NP sizeofT [] (newPool NP (ma 0))) (hNP : NP * 32 ≤ 2 ^ 31) :
    FixedInv NP sizeofT (FixedSizePool.init NP ma) [] where
  slabs := by
    intro p hp
    rw [show p = newPool NP (ma 0) from List.mem_singleton.1 hp]
    refine ⟨by simp [newPool], ?_, ?_, hfresh.1⟩
    · intro w hw
      have : w = 2 ^ 32 - 1 := List.eq_of_mem_replicate hw
      omega
    · rw [newPool_numAvail, countSet_newPool]; omega
  disjoint := by simp [FixedSizePool.init]
  inUse := by simp [FixedSizePool.init, countCleared_newPool]
  nodup := List.nodup_nil
  held := by
    intro x
    simp only [List.not_mem_nil, false_iff]
    rintro ⟨p, hp, k, hk, hfree, _⟩
    rw [show p = newPool NP (ma 0) from List.mem_singleton.1 hp, slotFree_newPool hk] at hfree
    cases hfree

/-- Appending a fresh slab keeps the invariant. -/
theorem FixedInv.append {NP sizeofT : Nat} {s : FixedSizePool} {ptrs : List Nat} {a : Nat}
    (h : FixedInv NP sizeofT s ptrs) (hNP : NP * 32 ≤ 2 ^ 31)
    (hfresh : FreshSlab NP sizeofT s.pool (newPool NP a)) :
    FixedInv NP sizeofT { s with pool := s.pool ++ [newPool NP a] } ptrs where
  slabs := by
    intro p hp
    rcases List.mem_append.1 hp with hp | hp
    · exact h.slabs p hp
    · rw [show p = newPool NP a from List.mem_singleton.1 hp]
      refine ⟨by simp [newPool], ?_, ?_, hfresh.1⟩
      · intro w hw
        have : w = 2 ^ 32 - 1 := List.eq_of_mem_replicate hw
        omega
      · rw [newPool_numAvail, countSet_newPool]; omega
  disjoint := pairwise_snoc h.disjoint hfresh.2
  inUse := by
    simp only [List.map_append, List.sum_append, List.map_cons, List.map_nil, List.sum_cons,
      List.sum_nil, countCleared_newPool, Nat.add_zero]
    exact h.inUse
  nodup := h.nodup
  held := by
    intro x
    rw [h.held x]
    constructor
    · rintro ⟨p, hp, r⟩
      exact ⟨p, List.mem_append_left _ hp, r⟩
    · rintro ⟨p, hp, k, hk, hfree, hx⟩
      rcases List.mem_append.1 hp with hp | hp
      · exact ⟨p, hp, k, hk, hfree, hx⟩
      · rw [show p = newPool NP a from List.mem_singleton.1 hp, slotFree_newPool hk] at hfree
        cases hfree

/-- Taking the slot that the walk of `allocate()` finds keeps the invariant,
the pointer returned joining the pointers held. -/
theorem FixedInv.take {NP sizeofT : Nat} {s : FixedSizePool} {ptrs : List Nat}
    {chain : List Pool} {ptr : Nat} (h : FixedInv NP sizeofT s ptrs)
    (hpar : FixedParams NP sizeofT) (hw : allocWalk sizeofT s.pool = some (chain, ptr)) :
    FixedInv NP sizeofT { pool := chain, numBlocks := (s.numBlocks + 1) % 2 ^ 64 }
      (ptr :: ptrs) := by
  obtain ⟨hNP1, hNP, hsz⟩ := hpar
  obtain ⟨pre, q, post, q1, hpool, hchain, _, hq⟩ := allocWalk_some hw
  obtain ⟨k, _, hk, hfree, _, hq1, hptr⟩ := allocInPool_some hq
  have hqmem : q ∈ s.pool := by rw [hpool]; simp
  have hqok := h.slabs q hqmem
  have hkn : k < NP * 32 := by rw [← hqok.numSlots_eq]; exact hk
  have hkm := slot_mul_lt hkn hsz
  have hfit := hqok.fits
  have hptr2 : ptr = q.data + k * sizeofT := by
    rw [hptr, toInt_of_lt (by omega), ptrAdd_natCast (by omega)]
  have hav : q1.avail = toggleSlot q.avail k := by rw [hq1]
  have hdata : q1.data = q.data := by rw [hq1]
  obtain ⟨hc1, hc2⟩ := count_take hav hfree
  have hle := countSet_le q
  rw [hqok.numSlots_eq] at hle
  have hcq := hqok.count
  have hnum : q1.numAvail = countSet q1 := by
    rw [hq1] at hc1 ⊢
    simp only at hc1 ⊢
    omega
  have hq1ok : SlabOK NP sizeofT q1 :=
    ⟨by rw [hav, toggleSlot_length]; exact hqok.words,
     by rw [hav]; exact toggleSlot_lt _ _ hqok.word_lt, hnum, by rw [hdata]; exact hfit⟩
  have hslot : ∀ k1, slotFree q1 k1 = (slotFree q k1 && decide (k1 ≠ k)) := by
    intro k1; rw [hq1]; exact slotFree_take _ hk hfree k1
  have hslabs : ∀ p ∈ chain, SlabOK NP sizeofT p := by
    intro p hp
    rw [hchain] at hp
    rcases List.mem_append.1 hp with hp | hp
    · exact h.slabs p (by rw [hpool]; exact List.mem_append_left _ hp)
    · rcases List.mem_cons.1 hp with rfl | hp
      · exact hq1ok
      · exact h.slabs p (by rw [hpool]; simp [hp])
  have hdis : chain.Pairwise (SlabDisjoint (NP * 32) sizeofT) := by
    rw [hchain]; exact pairwise_replace (by rw [← hpool]; exact h.disjoint) hdata
  have hsum : (chain.map countCleared).sum = (s.pool.map countCleared).sum + 1 := by
    rw [hchain, hpool]
    simp only [List.map_append, List.sum_append, List.map_cons, List.sum_cons, hc2]
    omega
  have hb := inUse_bound ⟨hNP1, hNP, hsz⟩ hslabs hdis
  have hb2 : (chain.map countCleared).sum < 2 ^ 64 :=
    lt_of_le_of_lt (Nat.le_mul_of_pos_right _ (by omega)) hb
  have hnot : ptr ∉ ptrs := by
    intro hin
    obtain ⟨p, hp, k1, hk1, hf1, hx⟩ := (h.held ptr).1 hin
    rw [hptr2] at hx
    obtain ⟨rfl, rfl⟩ := slot_inj h.disjoint hsz hqmem hp hkn hk1 hx
    rw [hfree] at hf1
    cases hf1
  refine ⟨hslabs, hdis, ?_, List.nodup_cons.2 ⟨hnot, h.nodup⟩, ?_⟩
  · show (s.numBlocks + 1) % 2 ^ 64 = (chain.map countCleared).sum
    rw [hsum, ← h.inUse] at hb2 ⊢
    exact Nat.mod_eq_of_lt hb2
  · intro x
    show x ∈ ptr :: ptrs ↔ ∃ p ∈ chain, _
    rw [List.mem_cons, h.held x, hchain, hpool]
    constructor
    · rintro (rfl | ⟨p, hp, k1, hk1, hf1, hx⟩)
      · refine ⟨q1, by simp, k, hkn, ?_, by rw [hdata]; exact hptr2⟩
        rw [hslot]; simp
      · rcases List.mem_append.1 hp with hp | hp
        · exact ⟨p, List.mem_append_left _ hp, k1, hk1, hf1, hx⟩
        · rcases List.mem_cons.1 hp with rfl | hp
          · refine ⟨q1, by simp, k1, hk1, ?_, by rw [hdata]; exact hx⟩
            rw [hslot, hf1]; rfl
          · exact ⟨p, by simp [hp], k1, hk1, hf1, hx⟩
    · rintro ⟨p, hp, k1, hk1, hf1, hx⟩
      rcases List.mem_append.1 hp with hp | hp
      · exact Or.inr ⟨p, List.mem_append_left _ hp, k1, hk1, hf1, hx⟩
      · rcases List.mem_cons.1 hp with rfl | hp
        · rw [hslot] at hf1
          by_cases hkk : k1 = k
          · left; rw [hx, hdata, hkk, hptr2]
          · right
            refine ⟨q, by simp, k1, hk1, ?_, by rw [← hdata]; exact hx⟩
            simpa [hkk] using hf1
        · exact Or.inr ⟨p, by simp [hp], k1, hk1, hf1, hx⟩

/-! ## The invariant along a sequence of calls -/

/-- A pointer held lies in one slab, at a slot whose avail bit is cleared,
and no slab in front of it passes the range test of `deallocate`. -/
theorem FixedInv.locate {NP sizeofT : Nat} {s : FixedSizePool} {ptrs : List Nat} {x : Nat}
    (h : FixedInv NP sizeofT s ptrs) (hpar : FixedParams NP sizeofT) (hx : x ∈ ptrs) :
    ∃ pre q post k, s.pool = pre ++ q :: post ∧ k < NP * 32 ∧ slotFree q k = false ∧
      x = q.data + k * sizeofT ∧ (x - q.data) / sizeofT = k ∧
      (∀ r ∈ pre, ¬ InSlab NP sizeofT r x) ∧ InSlab NP sizeofT q x := by
  obtain ⟨_, hNP, hsz⟩ := hpar
  obtain ⟨q, hq, k, hk, hused, hxe⟩ := (h.held x).1 hx
  obtain ⟨pre, post, hpool⟩ := List.append_of_mem hq
  have hkm := slot_mul_lt hk hsz
  refine ⟨pre, q, post, k, hpool, hk, hused, hxe, ?_, ?_, ?_⟩
  · rw [hxe, Nat.add_sub_cancel_left]
    exact Nat.mul_div_cancel _ (by omega)
  · intro r hr
    have hrm : r ∈ s.pool := by rw [hpool]; exact List.mem_append_left _ hr
    rw [inSlab_iff hNP (h.slabs r hrm).fits]
    have hd := h.disjoint
    rw [hpool, List.pairwise_append] at hd
    have := hd.2.2 r hr q (List.mem_cons_self _ _)
    unfold SlabDisjoint at this
    omega
  · rw [inSlab_iff hNP (h.slabs q hq).fits]
    omega

/-- Giving back a pointer held keeps the invariant: `deallocate` returns
normally and the pointer leaves the pointers held. -/
theorem FixedInv.give {NP sizeofT : Nat} {s : FixedSizePool} {ptrs : List Nat} {x : Nat}
    (h : FixedInv NP sizeofT s ptrs) (hpar : FixedParams NP sizeofT) (hx : x ∈ ptrs) :
    ∃ s1, FixedSizePool.deallocate NP sizeofT s x = some (s1, false) ∧
      FixedInv NP sizeofT s1 (ptrs.erase x) := by
  obtain ⟨pre, q, post, k, hpool, hkn, hused, hxe, hdiv, hpre, hq⟩ := h.locate hpar hx
  obtain ⟨hNP1, hNP, hsz⟩ := hpar
  have hqmem : q ∈ s.pool := by rw [hpool]; simp
  have hqok := h.slabs q hqmem
  have hal : (x - q.data) % sizeofT = 0 := by
    rw [hxe, Nat.add_sub_cancel_left]
    exact Nat.mul_mod_left _ _
  obtain ⟨_, hd⟩ := deallocate_slot hpool hpre hq hNP hqok.fits hal
  rw [hdiv] at hd
  refine ⟨_, hd, ?_⟩
  have hk : k < numSlots q := by rw [hqok.numSlots_eq]; exact hkn
  obtain ⟨hc1, hc2⟩ := @count_give q
    { q with avail := toggleSlot q.avail k, numAvail := (q.numAvail + 1) % 2 ^ 32 } k rfl hk hused
  have hle := countSet_le
    { q with avail := toggleSlot q.avail k, numAvail := (q.numAvail + 1) % 2 ^ 32 }
  rw [@numSlots_toggle q _ k rfl, hqok.numSlots_eq] at hle
  have hcq := hqok.count
  have hq1ok : SlabOK NP sizeofT
      { q with avail := toggleSlot q.avail k, numAvail := (q.numAvail + 1) % 2 ^ 32 } :=
    ⟨by simp only [toggleSlot_length]; exact hqok.words,
     toggleSlot_lt _ _ hqok.word_lt, by simp only at hc1 ⊢; omega, hqok.fits⟩
  have hslot := fun k1 => @slotFree_give q k ((q.numAvail + 1) % 2 ^ 32) hk hused k1
  have hb := inUse_bound ⟨hNP1, hNP, hsz⟩ h.slabs h.disjoint
  have hb2 : (s.pool.map countCleared).sum < 2 ^ 64 :=
    lt_of_le_of_lt (Nat.le_mul_of_pos_right _ (by omega)) hb
  have hdis := h.disjoint
  rw [hpool] at hdis
  refine ⟨?_, pairwise_replace hdis rfl, ?_, h.nodup.erase x, ?_⟩
  · intro p hp
    rcases List.mem_append.1 hp with hp | hp
    · exact h.slabs p (by rw [hpool]; exact List.mem_append_left _ hp)
    · rcases List.mem_cons.1 hp with rfl | hp
      · exact hq1ok
      · exact h.slabs p (by rw [hpool]; simp [hp])
  · show (s.numBlocks + (2 ^ 64 - 1)) % 2 ^ 64 = _
    have hin := h.inUse
    rw [hpool] at hin hb2
    simp only [List.map_append, List.sum_append, List.map_cons, List.sum_cons] at hin hb2 ⊢
    omega
  · intro y
    rw [h.nodup.mem_erase_iff, h.held y, hpool]
    constructor
    · rintro ⟨hne, p, hp, k1, hk1, hf1, hy⟩
      rcases List.mem_append.1 hp with hp | hp
      · exact ⟨p, List.mem_append_left _ hp, k1, hk1, hf1, hy⟩
      · rcases List.mem_cons.1 hp with hpq | hp
        · rw [hpq] at hf1 hy
          refine ⟨{ q with avail := toggleSlot q.avail k
                           numAvail := (q.numAvail + 1) % 2 ^ 32 },
            by simp, k1, hk1, ?_, hy⟩
          rw [hslot, hf1]
          have : k1 ≠ k := by rintro rfl; exact hne (by rw [hy, hxe])
          simp [this]
        · exact ⟨p, by simp [hp], k1, hk1, hf1, hy⟩
    · rintro ⟨p, hp0, k1, hk1, hf1, hy⟩
      have hne_of : ∀ p1 ∈ s.pool, p1 ≠ q ∨ k1 ≠ k → y = p1.data + k1 * sizeofT → y ≠ x := by
        intro p1 hp1 hne hy1 hyx
        rw [hy1, hxe] at hyx
        obtain ⟨e1, e2⟩ := slot_inj h.disjoint hsz hp1 hqmem hk1 hkn hyx
        rcases hne with hne | hne
        · exact hne e1
        · exact hne e2
      have hkm := slot_mul_lt hkn hsz
      rw [List.pairwise_append, List.pairwise_cons] at hdis
      rcases List.mem_append.1 hp0 with hp1 | hp2
      · have hpm : p ∈ s.pool := by rw [hpool]; exact List.mem_append_left _ hp1
        refine ⟨hne_of p hpm (Or.inl ?_) hy, p, List.mem_append_left _ hp1, k1, hk1, hf1, hy⟩
        intro hpq
        have := hdis.2.2 p hp1 q (List.mem_cons_self _ _)
        rw [hpq] at this
        unfold SlabDisjoint at this
        omega
      · rcases List.mem_cons.1 hp2 with hpq | hp3
        · rw [hpq, hslot] at hf1
          rw [hpq] at hy
          have hk1k : k1 ≠ k := by rintro rfl; simp at hf1
          have hf2 : slotFree q k1 = false := by simpa [hk1k] using hf1
          exact ⟨hne_of q hqmem (Or.inr hk1k) hy, q, by simp, k1, hk1, hf2, hy⟩
        · have hpm : p ∈ s.pool := by rw [hpool]; simp [hp3]
          refine ⟨hne_of p hpm (Or.inl ?_) hy, p, by simp [hp3], k1, hk1, hf1, hy⟩
          intro hpq
          have := hdis.2.1.1 p hp3
          rw [hpq] at this
          unfold SlabDisjoint at this
          omega

/-! ## `allocate()` and the sequences of calls under the invariant -/

theorem params_not_truncated {NP sizeofT : Nat} (hpar : FixedParams NP sizeofT) :
    (NP * 32) % 2 ^ 32 ≠ 0 := by
  obtain ⟨h1, h2, _⟩ := hpar
  omega

/-- The walk of `allocate()` after the chain has grown by a fresh slab. -/
theorem allocWalk_grown {NP sizeofT a : Nat} {pool : List Pool} (hpar : FixedParams NP sizeofT)
    (h : allocWalk sizeofT pool = none) :
    allocWalk sizeofT (pool ++ [newPool NP a]) =
      some (pool ++
        [{ data := (newPool NP a).data
           avail := toggleSlot (newPool NP a).avail 0
           numAvail := (NP * 32) % 2 ^ 32 - 1 }], (newPool NP a).data) :=
  @allocWalk_split sizeofT _ _ [] _
    (@allocInPool_newPool NP a sizeofT hpar.1 (params_not_truncated hpar)) pool
    (allocWalk_none_iff.1 h)

/-- Under the invariant `allocate()` returns within one nested call, and the
invariant holds afterwards with the pointer returned added to those held. -/
theorem FixedInv.allocated {NP sizeofT : Nat} {ma : Nat → Nat} {s : FixedSizePool}
    {ptrs : List Nat} (h : FixedInv NP sizeofT s ptrs) (hpar : FixedParams NP sizeofT)
    (hok : FixedOpOK NP sizeofT ma (s, ptrs) FOp.alloc) :
    ∃ s1 ptr, FixedSizePool.allocate NP sizeofT ma 2 s = some (s1, ptr) ∧
      FixedInv NP sizeofT s1 (ptr :: ptrs) := by
  cases hw : allocWalk sizeofT s.pool with
  | some r =>
    obtain ⟨chain, ptr⟩ := r
    exact ⟨_, ptr, allocate_of_walk 1 hw, h.take hpar hw⟩
  | none =>
    have hg := h.append hpar.2.1 (hok hw)
    have hw2 := @allocWalk_grown NP sizeofT (ma s.pool.length) s.pool hpar hw
    refine ⟨_, _, ?_, hg.take hpar hw2⟩
    rw [allocate_of_full 1 hw, allocate_of_walk 0 hw2]

/-- Under the invariant every call of a sequence returns, and the invariant
holds after each of them. -/
theorem FixedInv.runs {NP sizeofT : Nat} {ma : Nat → Nat} (hpar : FixedParams NP sizeofT)
    {ops : List FOp} (rest : List FOp) : ∀ {st : FixedSizePool × List Nat},
    FixedInv NP sizeofT st.1 st.2 → FixedRunOK NP sizeofT ma st (ops ++ rest) →
    ∃ st1, fixedRun NP sizeofT ma st ops = some st1 ∧ FixedInv NP sizeofT st1.1 st1.2 ∧
      FixedRunOK NP sizeofT ma st1 rest := by
  induction ops with
  | nil => intro st h hok; exact ⟨st, rfl, h, hok⟩
  | cons op ops ih =>
    intro st h hok
    obtain ⟨hop, hrest⟩ := hok
    cases op with
    | alloc =>
      obtain ⟨s1, ptr, ha, hinv⟩ := h.allocated hpar hop
      have hstep : fixedStep NP sizeofT ma st FOp.alloc = some (s1, ptr :: st.2) := by
        simp [fixedStep, ha]
      obtain ⟨st1, h1, h2, h3⟩ := @ih (s1, ptr :: st.2) hinv (hrest _ hstep)
      exact ⟨st1, by simp [fixedRun, hstep, h1], h2, h3⟩
    | dealloc x =>
      obtain ⟨s1, hd, hinv⟩ := h.give hpar hop
      have hstep : fixedStep NP sizeofT ma st (FOp.dealloc x) = some (s1, st.2.erase x) := by
        simp [fixedStep, hd]
      obtain ⟨st1, h1, h2, h3⟩ := @ih (s1, st.2.erase x) hinv (hrest _ hstep)
      exact ⟨st1, by simp [fixedRun, hstep, h1], h2, h3⟩

/-- Under the invariant, `deallocate(p)` right after the `p = allocate()`
that took a slot of the chain restores the state. -/
theorem round_trip_of_walk {NP sizeofT : Nat} {s : FixedSizePool} {ptrs : List Nat}
    {chain : List Pool} {ptr : Nat} (h : FixedInv NP sizeofT s ptrs)
    (hpar : FixedParams NP sizeofT) (hw : allocWalk sizeofT s.pool = some (chain, ptr)) :
    FixedSizePool.deallocate NP sizeofT
      { pool := chain, numBlocks := (s.numBlocks + 1) % 2 ^ 64 } ptr = some (s, false) := by
  have hinv := h.take hpar hw
  obtain ⟨hNP1, hNP, hsz⟩ := hpar
  obtain ⟨pre, q, post, q1, hpool, hchain, _, hq⟩ := allocWalk_some hw
  obtain ⟨k, hnum, hk, hfree, _, hq1, hptr⟩ := allocInPool_some hq
  have hqmem : q ∈ s.pool := by rw [hpool]; simp
  have hqok := h.slabs q hqmem
  have hkn : k < NP * 32 := by rw [← hqok.numSlots_eq]; exact hk
  have hkm := slot_mul_lt hkn hsz
  have hfit := hqok.fits
  have hptr2 : ptr = q.data + k * sizeofT := by
    rw [hptr, toInt_of_lt (by omega), ptrAdd_natCast (by omega)]
  have hdata : q1.data = q.data := by rw [hq1]
  have hdis := h.disjoint
  rw [hpool, List.pairwise_append] at hdis
  have hpre : ∀ r ∈ pre, ¬ InSlab NP sizeofT r ptr := by
    intro r hr
    have hrm : r ∈ s.pool := by rw [hpool]; exact List.mem_append_left _ hr
    rw [inSlab_iff hNP (h.slabs r hrm).fits]
    have := hdis.2.2 r hr q (List.mem_cons_self _ _)
    unfold SlabDisjoint at this
    omega
  have hin : InSlab NP sizeofT q1 ptr := by
    rw [inSlab_iff hNP (by rw [hdata]; exact hfit), hdata]
    omega
  obtain ⟨_, hd⟩ := @deallocate_slot NP sizeofT ptr
    { pool := chain, numBlocks := (s.numBlocks + 1) % 2 ^ 64 } pre post q1 hchain hpre hin hNP
    (by rw [hdata]; exact hfit)
    (by rw [hdata, hptr2, Nat.add_sub_cancel_left]; exact Nat.mul_mod_left _ _)
  have hdiv : (ptr - q1.data) / sizeofT = k := by
    rw [hdata, hptr2, Nat.add_sub_cancel_left]
    exact Nat.mul_div_cancel _ (by omega)
  have hb := inUse_bound ⟨hNP1, hNP, hsz⟩ h.slabs h.disjoint
  have hb2 : s.numBlocks < 2 ^ 64 := by
    rw [h.inUse]
    exact lt_of_le_of_lt (Nat.le_mul_of_pos_right _ (by omega)) hb
  have hle := countSet_le q
  rw [hqok.numSlots_eq, ← hqok.count] at hle
  have e1 : ((s.numBlocks + 1) % 2 ^ 64 + (2 ^ 64 - 1)) % 2 ^ 64 = s.numBlocks := by omega
  have e2 : (q1.numAvail + 1) % 2 ^ 32 = q.numAvail := by
    rw [hq1]; simp only; omega
  have e3 : toggleSlot q1.avail k = q.avail := by
    rw [hq1]; exact toggleSlot_toggleSlot _ _ hqok.word_lt
  rw [hd, hdiv, e2, e3, hdata]
  simp only [e1]
  rw [← hpool]

/-! ## A slab filled from slot 0 on, and slot indices that do not fit an `int` -/

theorem filledTo_newPool (NP a : Nat) (hNP : NP * 32 < 2 ^ 32) :
    FilledTo NP (newPool NP a) 0 := by
  refine ⟨by simp [newPool], ?_, ?_, countCleared_newPool NP a, ?_⟩
  · intro k
    by_cases hk : k < NP * 32
    · rw [slotFree_newPool hk]; simp [hk]
    · have : slotFree (newPool NP a) k ≠ true := by
        intro h
        have := slotFree_lt h
        rw [numSlots_newPool] at this
        omega
      simp [hk, this]
  · rw [newPool_numAvail, Nat.mod_eq_of_lt hNP]; rfl
  · rw [countSet_newPool]; omega

/-- `allocInPool` on a slab whose first `m` slots are in use takes slot `m`;
the pointer is computed with the `int` that `m` is stored in. -/
theorem allocInPool_filledTo {NP sizeofT : Nat} {p : Pool} {m : Nat} (hNP : NP * 32 < 2 ^ 32)
    (h : FilledTo NP p m) (hm : m < NP * 32) :
    ∃ q, allocInPool sizeofT p = some (q, ptrAdd sizeofT p.data (toInt m)) ∧
      q.data = p.data ∧ FilledTo NP q (m + 1) := by
  obtain ⟨hlen, hslot, hnum, hcl, hset⟩ := h
  have hfree : slotFree p m = true := by rw [hslot]; simp [hm]
  have hlow : ∀ k, k < m → slotFree p k = false := by
    intro k hk
    rw [hslot]
    simp; omega
  have hq := @allocInPool_lowest sizeofT p m (by omega) hfree hlow
  refine ⟨_, hq, rfl, ?_⟩
  have hk0 : m < numSlots p := by unfold numSlots; omega
  obtain ⟨c1, c2⟩ := @count_take p
    { p with avail := toggleSlot p.avail m
             numAvail := (p.numAvail + (2 ^ 32 - 1)) % 2 ^ 32 } m rfl hfree
  refine ⟨by simp only [toggleSlot_length]; exact hlen, ?_, ?_, by omega, by omega⟩
  · intro k
    rw [@slotFree_toggle p _ m rfl hk0 k, hslot]
    by_cases h1 : m = k
    · subst h1; simp [hm]
    · by_cases h2 : m ≤ k
      · have : m + 1 ≤ k := by omega
        simp [h1, h2, this]
      · have : ¬ m + 1 ≤ k := by omega
        simp [h1, h2, this]
  · simp only
    omega

/-- On a pool of one slab, whose first `m` slots are in use, `n` calls of
`allocate()` take the slots `m` to `m + n - 1`. -/
theorem run_filledTo {NP sizeofT : Nat} (ma : Nat → Nat) (hNP : NP * 32 < 2 ^ 32) :
    ∀ (n m : Nat) (st : FixedSizePool × List Nat) (p : Pool),
      st.1.pool = [p] → st.1.numBlocks = m → FilledTo NP p m → m + n ≤ NP * 32 →
      ∃ st1 p1, fixedRun NP sizeofT ma st (List.replicate n FOp.alloc) = some st1 ∧
        st1.1.pool = [p1] ∧ st1.1.numBlocks = m + n ∧ p1.data = p.data ∧
        FilledTo NP p1 (m + n) := by
  intro n
  induction n with
  | zero =>
    intro m st p hp hb hf _
    exact ⟨st, p, rfl, hp, hb, rfl, hf⟩
  | succ n ih =>
    intro m st p hp hb hf hmn
    obtain ⟨q, hq, hd, hfq⟩ := @allocInPool_filledTo NP sizeofT p m hNP hf (by omega)
    have hw : allocWalk sizeofT st.1.pool = some ([q], ptrAdd sizeofT p.data (toInt m)) := by
      rw [hp]
      exact @allocWalk_split sizeofT p q [] _ hq [] (by simp)
    have ha := @allocate_of_walk NP sizeofT ma st.1 _ _ 1 hw
    have hstep : fixedStep NP sizeofT ma st FOp.alloc =
        some ({ pool := [q], numBlocks := (st.1.numBlocks + 1) % 2 ^ 64 },
          ptrAdd sizeofT p.data (toInt m) :: st.2) := by
      simp [fixedStep, ha]
    obtain ⟨st1, p1, hr, h1, h2, h3, h4⟩ := ih (m + 1)
      ({ pool := [q], numBlocks := (st.1.numBlocks + 1) % 2 ^ 64 },
        ptrAdd sizeofT p.data (toInt m) :: st.2) q rfl
      (by simp only; rw [hb]; omega) hfq (by omega)
    refine ⟨st1, p1, ?_, h1, by rw [h2]; omega, by rw [h3, hd], ?_⟩
    · rw [List.replicate_succ]
      unfold fixedRun
      rw [hstep]
      exact hr
    · have : m + 1 + n = m + (n + 1) := by omega
      rw [← this]; exact h4

/-- A slot index `k` from `2^31` on does not fit the `int indexD` of
`deallocate`: `indexD` is `k - 2^32`, and `indexI`, computed in `size_t` and
stored in an `int`, is negative (`-2^26` for `k = 2^31`), so the statement
`curr->avail[indexI] ^= ...` writes below the bitmap and no word of the bitmap
is changed. -/
theorem xorAt_wrapped (avail : List Nat) {k : Nat} (hk1 : 2 ^ 31 ≤ k) (hk2 : k < 2 ^ 32) :
    xorAt avail (toInt (toSizeT (toInt k) / 4 / 8)) (toInt (toSizeT (toInt k) % (4 * 8))) =
      avail := by
  have e1 : toInt k = (k : Int) - 2 ^ 32 := by
    unfold toInt
    rw [Nat.mod_eq_of_lt hk2, if_neg (by omega)]
  have e2 : toSizeT (toInt k) = 2 ^ 64 - 2 ^ 32 + k := by
    rw [e1]
    unfold toSizeT
    omega
  have e3 : toInt (toSizeT (toInt k) / 4 / 8) < 0 := by
    rw [e2]
    unfold toInt
    have : (2 ^ 64 - 2 ^ 32 + k) / 4 / 8 % 2 ^ 32 = 2 ^ 32 - 2 ^ 27 + k / 32 := by omega
    rw [this, if_neg (by omega)]
    omega
  unfold xorAt
  rw [if_neg (by omega)]

/-- `deallocate(ptr)` for the address of a slot whose index is `2^31` or more:
the call returns, with `numAvail` incremented and `numBlocks` decremented, and
every avail bit as before. -/
theorem deallocate_wrapped_index {NP sizeofT ptr : Nat} {s : FixedSizePool}
    {pre post : List Pool} {q : Pool} (hs : s.pool = pre ++ q :: post)
    (hpre : ∀ r ∈ pre, ¬ InSlab NP sizeofT r ptr) (hq : InSlab NP sizeofT q ptr)
    (hal : (ptr - q.data) % sizeofT = 0)
    (hk1 : 2 ^ 31 ≤ (ptr - q.data) / sizeofT) (hk2 : (ptr - q.data) / sizeofT < 2 ^ 32) :
    FixedSizePool.deallocate NP sizeofT s ptr =
      some ({ pool := pre ++ { q with numAvail := (q.numAvail + 1) % 2 ^ 32 } :: post
              numBlocks := (s.numBlocks + (2 ^ 64 - 1)) % 2 ^ 64 }, false) := by
  unfold FixedSizePool.deallocate
  rw [hs, deallocWalk_split hq hal hpre, xorAt_wrapped q.avail hk1 hk2]

/-- `deallocate(ptr)` for a pointer inside a slot of the first slab whose slot
range holds it: the pointer subtraction has no defined result. -/
theorem deallocate_inside_slot {NP sizeofT ptr : Nat} {s : FixedSizePool}
    {pre post : List Pool} {q : Pool} (hs : s.pool = pre ++ q :: post)
    (hpre : ∀ r ∈ pre, ¬ InSlab NP sizeofT r ptr) (hq : InSlab NP sizeofT q ptr)
    (hal : (ptr - q.data) % sizeofT ≠ 0) :
    FixedSizePool.deallocate NP sizeofT s ptr = none := by
  have hw : ∀ (l : List Pool), (∀ r ∈ l, ¬ InSlab NP sizeofT r ptr) →
      deallocWalk NP sizeofT ptr (l ++ q :: post) = Freed.undefinedDiff := by
    intro l
    induction l with
    | nil =>
      intro _
      unfold InSlab at hq
      simp [deallocWalk, hq, hal]
    | cons r l ih =>
      intro hl
      have h1 := hl r (List.mem_cons_self _ _)
      have h2 := ih (fun x hx => hl x (List.mem_cons_of_mem _ hx))
      unfold InSlab at h1
      rw [List.cons_append]
      unfold deallocWalk
      rw [if_neg h1, h2]
  unfold FixedSizePool.deallocate
  rw [hs, hw pre hpre]

/-! ## The pool of `NP = 2^26 + 1` after `2^31` calls of `allocate()` -/

/-- `FixedSizePool<T, MA, 2^26 + 1>` with slots of 8 bytes, the backing source
answering `2^40`: the one slab has `2^31 + 32` slots, and `n` calls of
`allocate()` on the pool the constructor builds take the slots 0 to `n - 1`. -/
theorem bigSlab_reach (n : Nat) (hn : n ≤ 2 ^ 31 + 32) :
    ∃ st p, fixedRun (2 ^ 26 + 1) 8 highMa (FixedSizePool.init (2 ^ 26 + 1) highMa, [])
        (List.replicate n FOp.alloc) = some st ∧
      st.1.pool = [p] ∧ st.1.numBlocks = n ∧ p.data = 2 ^ 40 + 32 ∧
      FilledTo (2 ^ 26 + 1) p n := by
  obtain ⟨st, p, h1, h2, h3, h4, h5⟩ := @run_filledTo (2 ^ 26 + 1) 8 highMa (by norm_num) n 0
    (FixedSizePool.init (2 ^ 26 + 1) highMa, []) (newPool (2 ^ 26 + 1) (highMa 0)) rfl rfl
    (filledTo_newPool _ _ (by norm_num)) (by omega)
  have hd : (newPool (2 ^ 26 + 1) (highMa 0)).data = 2 ^ 40 + 32 := by
    show wadd (2 ^ 40) 32 = 2 ^ 40 + 32
    decide
  rw [Nat.zero_add] at h3 h5
  exact ⟨st, p, h1, h2, h3, by rw [h4, hd], h5⟩

/-- The pointer `data + entry` for `int entry = 2^31`, which is `-2^31`. -/
theorem ptrAdd_wrapped_index :
    ptrAdd 8 (2 ^ 40 + 32) (toInt (2 ^ 31)) = 2 ^ 40 + 32 - 2 ^ 34 := by
  decide

/-- The call of `allocate()` that follows `2^31` calls on the pool of
`NP = 2^26 + 1`: slot `2^31` is taken, and the pointer returned is
`2^31` slots below the slab. -/
theorem bigSlab_next {st : FixedSizePool × List Nat} {p : Pool} (fuel : Nat)
    (hp : st.1.pool = [p]) (hb : st.1.numBlocks = 2 ^ 31) (hd : p.data = 2 ^ 40 + 32)
    (hf : FilledTo (2 ^ 26 + 1) p (2 ^ 31)) :
    ∃ q, FixedSizePool.allocate (2 ^ 26 + 1) 8 highMa (fuel + 1) st.1 =
        some ({ pool := [q], numBlocks := 2 ^ 31 + 1 }, 2 ^ 40 + 32 - 2 ^ 34) ∧
      q.data = 2 ^ 40 + 32 ∧ FilledTo (2 ^ 26 + 1) q (2 ^ 31 + 1) := by
  obtain ⟨q, hq, hqd, hfq⟩ := @allocInPool_filledTo (2 ^ 26 + 1) 8 p (2 ^ 31) (by norm_num) hf
    (by norm_num)
  rw [hd, ptrAdd_wrapped_index] at hq
  have hw : allocWalk 8 st.1.pool = some ([q], 2 ^ 40 + 32 - 2 ^ 34) := by
    rw [hp]
    exact @allocWalk_split 8 p q [] _ hq [] (by simp)
  have ha := @allocate_of_walk (2 ^ 26 + 1) 8 highMa st.1 _ _ fuel hw
  rw [hb] at ha
  exact ⟨q, ha, by rw [hqd, hd], hfq⟩

/-- The slot with index `2^31` of the slab at `2^40 + 32` passes the range
test of `deallocate`, and `deallocate` of its address returns with the bitmap
unchanged. -/
theorem bigSlab_give {s : FixedSizePool} {q : Pool}
    (hq : s.pool = [q]) (hd : q.data = 2 ^ 40 + 32) :
    InSlab (2 ^ 26 + 1) 8 q (q.data + 2 ^ 31 * 8) ∧
    FixedSizePool.deallocate (2 ^ 26 + 1) 8 s (q.data + 2 ^ 31 * 8) =
      some ({ pool := [{ q with numAvail := (q.numAvail + 1) % 2 ^ 32 }]
              numBlocks := (s.numBlocks + (2 ^ 64 - 1)) % 2 ^ 64 }, false) := by
  have hin : InSlab (2 ^ 26 + 1) 8 q (q.data + 2 ^ 31 * 8) := by
    unfold InSlab
    rw [hd]
    decide
  have e : (q.data + 2 ^ 31 * 8 - q.data) = 2 ^ 31 * 8 := by omega
  refine ⟨hin, ?_⟩
  exact @deallocate_wrapped_index (2 ^ 26 + 1) 8 _ s [] [] q hq (by simp) hin
    (by rw [e]; norm_num) (by rw [e]; norm_num) (by rw [e]; norm_num)

/-! ## The first loop of `freeAllBlocks` keeps the invariant -/

theorem Inv.releaseHead {s : DynamicSizePool} (h : Inv s) {curr : Block} {rest : List Block}
    (hu : s.usedBlocks = curr :: rest) : Inv (releaseBlock s (0, curr) none) := by
  have hd := h.deallocate curr.data
  rw [deallocate_present s curr.data [] rest curr hu rfl (by simp)] at hd
  have e : (releaseBlock s (0, curr) none).usedBlocks = rest :=
    releaseBlock_head_used s curr rest hu
  exact ⟨hd.minBytes_lt, hd.spans, by rw [e]; exact hd.tiles, hd.free⟩

theorem Inv.drainUsed (fuel : Nat) : ∀ {s : DynamicSizePool}, Inv s →
    Inv (releaseUsedLoop fuel s) := by
  induction fuel with
  | zero => intro s h; exact h
  | succ k ih =>
    intro s h
    unfold releaseUsedLoop
    cases hu : s.usedBlocks with
    | nil => exact h
    | cons curr rest => exact ih (h.releaseHead hu)

/-! ## Disjoint spans fit the address space -/

theorem spans_cover {l : List (Nat × Nat)} (hd : l.Pairwise SpanDisjoint) :
    ∃ F : Finset Nat, F.card = (l.map (fun sp => sp.2)).sum ∧
      ∀ x, x ∈ F ↔ ∃ sp ∈ l, sp.1 ≤ x ∧ x < sp.1 + sp.2 := by
  induction l with
  | nil => exact ⟨∅, by simp, by simp⟩
  | cons a t ih =>
    rw [List.pairwise_cons] at hd
    obtain ⟨F, hF1, hF2⟩ := ih hd.2
    have hdis : Disjoint (Finset.Ico a.1 (a.1 + a.2)) F := by
      rw [Finset.disjoint_left]
      intro x hx hxF
      obtain ⟨sp, hsp, h1, h2⟩ := (hF2 x).1 hxF
      have := hd.1 sp hsp
      unfold SpanDisjoint at this
      rw [Finset.mem_Ico] at hx
      omega
    refine ⟨Finset.Ico a.1 (a.1 + a.2) ∪ F, ?_, ?_⟩
    · rw [Finset.card_union_of_disjoint hdis, Nat.card_Ico, hF1]
      simp
    · intro x
      rw [Finset.mem_union, Finset.mem_Ico, hF2 x]
      constructor
      · rintro (h | ⟨sp, hsp, h⟩)
        · exact ⟨a, List.mem_cons_self _ _, h⟩
        · exact ⟨sp, List.mem_cons_of_mem _ hsp, h⟩
      · rintro ⟨sp, hsp, h⟩
        rcases List.mem_cons.1 hsp with rfl | hsp
        · exact Or.inl h
        · exact Or.inr ⟨sp, hsp, h⟩

/-- Pairwise disjoint spans that end inside the 64-bit address space hold
fewer than `2^64` bytes in total. -/
theorem spans_measure {l : List (Nat × Nat)} (hb : ∀ sp ∈ l, sp.1 + sp.2 < 2 ^ 64)
    (hd : l.Pairwise SpanDisjoint) : (l.map (fun sp => sp.2)).sum < 2 ^ 64 := by
  obtain ⟨F, hF1, hF2⟩ := spans_cover hd
  have hsub : F ⊆ Finset.range (2 ^ 64 - 1) := by
    intro x hx
    obtain ⟨sp, hsp, _, h2⟩ := (hF2 x).1 hx
    have := hb sp hsp
    rw [Finset.mem_range]
    omega
  have := Finset.card_le_card hsub
  rw [Finset.card_range, hF1] at this
  omega

/-! ## The sizes of the nodes add up to `totalBytes` -/

theorem size_le_sum {l : List Block} {b : Block} (hb : b ∈ l) :
    b.size ≤ (l.map (fun c => c.size)).sum := by
  induction l with
  | nil => cases hb
  | cons c t ih =>
    simp only [List.map_cons, List.sum_cons]
    rcases List.mem_cons.1 hb with rfl | hb
    · omega
    · have := ih hb; omega

theorem mergeWithNext_sum {cur : Block} {next : List Block}
    (h : cur.size + (next.map (fun c => c.size)).sum < 2 ^ 64) :
    ((mergeWithNext cur next).1.map (fun c => c.size)).sum =
      cur.size + (next.map (fun c => c.size)).sum := by
  cases next with
  | nil => simp [mergeWithNext]
  | cons nxt rest =>
    simp only [List.map_cons, List.sum_cons] at h
    rw [mergeWithNext_cons]
    split_ifs with hm
    · simp only [List.map_cons, List.sum_cons]
      rw [wadd_of_lt (by omega)]
      omega
    · simp only [List.map_cons, List.sum_cons]

theorem releaseIntoFree_sum {fl : List Block} {b : Block}
    (h : (fl.map (fun c => c.size)).sum + b.size < 2 ^ 64) :
    ((releaseIntoFree fl b).1.map (fun c => c.size)).sum =
      (fl.map (fun c => c.size)).sum + b.size := by
  have hsplit := List.takeWhile_append_dropWhile (fun c => decide (c.data < b.data)) fl
  have hsum : (fl.map (fun c => c.size)).sum =
      ((fl.takeWhile (fun c => decide (c.data < b.data))).map (fun c => c.size)).sum +
      ((fl.dropWhile (fun c => decide (c.data < b.data))).map (fun c => c.size)).sum := by
    conv_lhs => rw [← hsplit]
    rw [List.map_append, List.sum_append]
  rcases List.eq_nil_or_concat (fl.takeWhile (fun c => decide (c.data < b.data))) with
    hnil | ⟨bs, p, hcat⟩
  · rw [hnil, List.map_nil, List.sum_nil, Nat.zero_add] at hsum
    rw [releaseIntoFree_nil hnil, mergeWithNext_sum (by omega)]
    omega
  · rw [List.concat_eq_append] at hcat
    rw [hcat] at hsum
    simp only [List.map_append, List.sum_append, List.map_cons, List.map_nil, List.sum_cons,
      List.sum_nil, Nat.add_zero] at hsum
    rw [releaseIntoFree_concat hcat]
    split_ifs with hm
    · simp only [List.map_append, List.sum_append]
      have hw : wadd p.size b.size = p.size + b.size := wadd_of_lt (by omega)
      rw [mergeWithNext_sum (by simp only [hw]; omega)]
      simp only [hw]
      omega
    · simp only [List.map_append, List.sum_append, List.map_cons, List.map_nil, List.sum_cons,
        List.sum_nil, Nat.add_zero]
      rw [mergeWithNext_sum (by omega)]
      omega

theorem SumInv.total_lt {s : DynamicSizePool} (h : SumInv s) : s.totalBytes < 2 ^ 64 := by
  rw [h.total]
  exact spans_measure h.bounded h.disjoint

theorem sumInv_init {minBytes : Nat} (h : minBytes < 2 ^ 64) :
    SumInv (DynamicSizePool.init minBytes) :=
  ⟨h, by simp [DynamicSizePool.init], by simp [DynamicSizePool.init],
    by simp [sizeSum, DynamicSizePool.init], by simp [bytesObtained, DynamicSizePool.init]⟩

theorem sumInv_carve {s : DynamicSizePool} (h : SumInv s) {pre post : List Block} {b : Block}
    {n : Nat} (hf : s.freeBlocks = pre ++ b :: post) (hn : n ≤ b.size) :
    SumInv (carve s pre b post n).1 := by
  have hlt := h.total_lt
  have hsum := h.sum
  unfold sizeSum at hsum
  rw [hf] at hsum
  simp only [List.map_append, List.sum_append, List.map_cons, List.sum_cons] at hsum
  unfold carve
  split_ifs with hk
  · refine ⟨h.minBytes_lt, h.bounded, h.disjoint, ?_, h.total⟩
    show sizeSum _ = s.totalBytes
    unfold sizeSum
    simp only [List.map_append, List.sum_append, List.map_cons, List.sum_cons]
    omega
  · refine ⟨h.minBytes_lt, h.bounded, h.disjoint, ?_, h.total⟩
    show sizeSum _ = s.totalBytes
    unfold sizeSum
    simp only [List.map_append, List.sum_append, List.map_cons, List.sum_cons]
    rw [wsub_of_le hn (by omega)]
    omega

theorem sumInv_allocateBlock {s : DynamicSizePool} (h : SumInv s) {n ma : Nat}
    (hfresh : FreshSpan s ma (sizeToAlloc s n)) : SumInv (allocateBlock s n ma).1 := by
  rw [allocateBlock_state]
  have hb : ∀ sp ∈ (ma, sizeToAlloc s n) :: s.maAllocated, sp.1 + sp.2 < 2 ^ 64 := by
    intro sp hsp
    rcases List.mem_cons.1 hsp with rfl | hsp
    · exact hfresh.1
    · exact h.bounded sp hsp
  have hd : ((ma, sizeToAlloc s n) :: s.maAllocated).Pairwise SpanDisjoint :=
    List.pairwise_cons.2 ⟨hfresh.2, h.disjoint⟩
  have hm := spans_measure hb hd
  simp only [List.map_cons, List.sum_cons] at hm
  have ht := h.total
  unfold bytesObtained at ht
  have hsplit := List.takeWhile_append_dropWhile (fun c => decide (c.data < ma)) s.freeBlocks
  have hsum := h.sum
  unfold sizeSum at hsum
  rw [← hsplit] at hsum
  simp only [List.map_append, List.sum_append] at hsum
  refine ⟨h.minBytes_lt, hb, hd, ?_, ?_⟩
  · show sizeSum _ = wadd s.totalBytes (sizeToAlloc s n)
    rw [wadd_of_lt (by omega)]
    unfold sizeSum
    simp only [List.map_append, List.sum_append, List.map_cons, List.sum_cons]
    omega
  · show wadd s.totalBytes (sizeToAlloc s n) = bytesObtained _
    rw [wadd_of_lt (by omega)]
    unfold bytesObtained
    simp only [List.map_cons, List.sum_cons]
    omega

theorem sumInv_allocate {s : DynamicSizePool} (h : SumInv s) {n ma : Nat}
    (hok : OpFits s (Op.alloc n ma)) : SumInv (allocate s n ma).1 := by
  obtain ⟨hn, hfresh⟩ := hok
  cases hfind : (findUsableBlock s.freeBlocks n).1 with
  | some ib =>
    obtain ⟨i, b⟩ := ib
    rw [allocate_found ma hfind]
    obtain ⟨h1, h2, _⟩ := findUsableBlock_some hfind
    exact sumInv_carve h h2 h1
  | none =>
    rw [allocate_grow ma hfind]
    apply sumInv_carve (sumInv_allocateBlock h (hfresh hfind))
    · rw [allocateBlock_state]
    · exact le_sizeToAlloc hn

theorem sumInv_deallocate {s : DynamicSizePool} (h : SumInv s) (ptr : Nat) :
    SumInv (deallocate s ptr) := by
  by_cases hex : ∃ c ∈ s.usedBlocks, c.data = ptr
  · obtain ⟨pre, b, post, hu, hb, hpre⟩ := exists_first_used ptr s.usedBlocks hex
    rw [deallocate_present s ptr pre post b hu hb hpre]
    have hlt := h.total_lt
    have hsum := h.sum
    unfold sizeSum at hsum
    rw [hu] at hsum
    simp only [List.map_append, List.sum_append, List.map_cons, List.sum_cons] at hsum
    refine ⟨h.minBytes_lt, h.bounded, h.disjoint, ?_, h.total⟩
    show sizeSum _ = s.totalBytes
    unfold sizeSum
    simp only [List.map_append, List.sum_append]
    rw [releaseIntoFree_sum (by omega)]
    omega
  · have : ∀ c ∈ s.usedBlocks, c.data ≠ ptr := by
      intro c hc e; exact hex ⟨c, hc, e⟩
    rw [deallocate_absent s ptr this]
    exact h

theorem sumInv_run {ops : List Op} : ∀ {s : DynamicSizePool}, SumInv s → RunFits s ops →
    SumInv (run s ops) := by
  induction ops with
  | nil => intro s h _; exact h
  | cons op ops ih =>
    intro s h hok
    cases op with
    | alloc n ma => exact ih (sumInv_allocate h hok.1) hok.2
    | dealloc ptr => exact ih (sumInv_deallocate h ptr) hok.2

theorem RunFits_take {ops : List Op} : ∀ {s : DynamicSizePool} (k : Nat), RunFits s ops →
    RunFits s (ops.take k) := by
  induction ops with
  | nil => intro s k h; simpa using h
  | cons op ops ih =>
    intro s k h
    cases k with
    | zero => simp [RunFits]
    | succ k => exact ⟨h.1, ih k h.2⟩

/-! ## Giving back the block just taken -/

theorem takeWhile_dropWhile_split {d : Nat} {post : List Block}
    (h2 : ∀ x ∈ post, ¬ x.data < d) : ∀ {pre : List Block}, (∀ x ∈ pre, x.data < d) →
    (pre ++ post).takeWhile (fun b => decide (b.data < d)) = pre ∧
    (pre ++ post).dropWhile (fun b => decide (b.data < d)) = post := by
  intro pre
  induction pre with
  | nil =>
    intro _
    cases post with
    | nil => simp
    | cons q r =>
      have := h2 q (List.mem_cons_self _ _)
      simp [List.takeWhile_cons, List.dropWhile_cons, this]
  | cons c t ih =>
    intro h1
    have hc := h1 c (List.mem_cons_self _ _)
    obtain ⟨e1, e2⟩ := ih (fun x hx => h1 x (List.mem_cons_of_mem _ hx))
    simp only [List.cons_append, List.takeWhile_cons, List.dropWhile_cons, hc, decide_True,
      if_true, e1, e2, and_self]

/-- In a sorted, coalesced free list the node `b` is not merged with its
neighbours when it is linked in again. -/
theorem releaseIntoFree_keep {pre post : List Block} {b : Block}
    (hs : FreeOK (pre ++ b :: post))
    (hend : ∀ q ∈ pre ++ b :: post, q.data + q.size < 2 ^ 64) :
    releaseIntoFree (pre ++ post) b = (pre ++ b :: post, 0) := by
  have hsort := hs.sorted
  rw [List.pairwise_append, List.pairwise_cons] at hsort
  obtain ⟨_, ⟨hpost, _⟩, hpre⟩ := hsort
  have hpre2 : ∀ x ∈ pre, x.data < b.data := fun x hx => hpre x hx b (List.mem_cons_self _ _)
  have hpost2 : ∀ x ∈ post, ¬ x.data < b.data := by
    intro x hx; have := hpost x hx; omega
  obtain ⟨e1, e2⟩ := takeWhile_dropWhile_split hpost2 hpre2
  have hchain := hs.coalesced
  rw [List.chain'_split] at hchain
  obtain ⟨hc1, hc2⟩ := hchain
  have hb := hend b (by simp)
  have hnext : mergeWithNext b post = (b :: post, 0) := by
    cases post with
    | nil => rfl
    | cons q r =>
      rw [mergeWithNext_cons, wadd_of_lt hb]
      have hnm : NoMerge b q := (List.chain'_cons.1 hc2).1
      unfold NoMerge at hnm
      rw [if_neg hnm]
  rcases List.eq_nil_or_concat pre with hnil | ⟨bs, p, hcat⟩
  · subst hnil
    rw [releaseIntoFree_nil (by simpa using e1), e2, hnext]
    rfl
  · rw [List.concat_eq_append] at hcat
    subst hcat
    have hp := hend p (by simp)
    have hnm : NoMerge p b := by
      rw [List.append_assoc, List.chain'_append] at hc1
      simpa using hc1.2.1
    unfold NoMerge at hnm
    rw [releaseIntoFree_concat e1, wadd_of_lt hp, if_neg hnm, e2, hnext]

/-- In a sorted, coalesced free list the two parts of a node `b` that was
split are merged into `b` again when the first part is given back. -/
theorem releaseIntoFree_split {pre post : List Block} {b : Block} {n : Nat}
    (hs : FreeOK (pre ++ b :: post))
    (hend : ∀ q ∈ pre ++ b :: post, q.data + q.size < 2 ^ 64)
    (hn1 : 1 ≤ n) (hn : n < b.size) :
    releaseIntoFree
        (pre ++ { data := wadd b.data n, size := wsub b.size n, isHead := false } :: post)
        { b with size := n } = (pre ++ b :: post, 1) := by
  have hsort := hs.sorted
  rw [List.pairwise_append, List.pairwise_cons] at hsort
  obtain ⟨_, ⟨hpost, _⟩, hpre⟩ := hsort
  have hb := hend b (by simp)
  have hwa : wadd b.data n = b.data + n := wadd_of_lt (by omega)
  have hws : wsub b.size n = b.size - n := wsub_of_le (by omega) (by omega)
  have hpre2 : ∀ x ∈ pre, x.data < b.data := fun x hx => hpre x hx b (List.mem_cons_self _ _)
  have hpost2 : ∀ x ∈ ({ data := wadd b.data n, size := wsub b.size n, isHead := false } ::
      post : List Block), ¬ x.data < b.data := by
    intro x hx
    rcases List.mem_cons.1 hx with rfl | hx
    · simp only [hwa]; omega
    · have := hpost x hx; omega
  obtain ⟨e1, e2⟩ := @takeWhile_dropWhile_split b.data _ hpost2 pre hpre2
  have hchain := hs.coalesced
  rw [List.chain'_split] at hchain
  obtain ⟨hc1, _⟩ := hchain
  have hnext : mergeWithNext { b with size := n }
      ({ data := wadd b.data n, size := wsub b.size n, isHead := false } :: post) =
      (b :: post, 1) := by
    rw [mergeWithNext_cons, if_pos ⟨rfl, rfl⟩]
    have : wadd n (wsub b.size n) = b.size := by
      rw [hws, wadd_of_lt (by omega)]
      omega
    simp only [this]
  rcases List.eq_nil_or_concat pre with hnil | ⟨bs, p, hcat⟩
  · subst hnil
    rw [releaseIntoFree_nil (by simpa using e1)]
    show mergeWithNext _ (List.dropWhile _ ([] ++ _)) = _
    rw [e2, hnext]
    rfl
  · rw [List.concat_eq_append] at hcat
    subst hcat
    have hp := hend p (by simp)
    have hnm : NoMerge p b := by
      rw [List.append_assoc, List.chain'_append] at hc1
      simpa using hc1.2.1
    unfold NoMerge at hnm
    have hrel := @releaseIntoFree_concat
      (bs ++ [p] ++ { data := wadd b.data n, size := wsub b.size n, isHead := false } :: post)
      bs p { b with size := n } e1
    have hcond : ¬ (wadd p.data p.size = ({ b with size := n } : Block).data ∧
        ({ b with size := n } : Block).isHead = false) := by
      rw [wadd_of_lt hp]; exact hnm
    rw [if_neg hcond] at hrel
    have e3 : List.dropWhile (fun c => decide (c.data < ({ b with size := n } : Block).data))
        (bs ++ [p] ++ { data := wadd b.data n, size := wsub b.size n, isHead := false } :: post) =
        { data := wadd b.data n, size := wsub b.size n, isHead := false } :: post := e2
    rw [e3, hnext] at hrel
    exact hrel

/-- In a good state, `p = allocate(n); deallocate(p)` served from the free
list restores both lists and makes no call to the backing source. -/
theorem round_trip_restores {s : DynamicSizePool} (h : Inv s) {n i : Nat} {b : Block}
    (ma : Nat) (hn : 1 ≤ n) (hfind : (findUsableBlock s.freeBlocks n).1 = some (i, b)) :
    (allocThenFree s n ma).freeBlocks = s.freeBlocks ∧
    (allocThenFree s n ma).usedBlocks = s.usedBlocks ∧
    (allocate s n ma).1.maAllocated = s.maAllocated ∧
    (allocThenFree s n ma).maAllocated = s.maAllocated ∧
    (allocThenFree s n ma).maDeallocated = s.maDeallocated ∧
    (allocThenFree s n ma).totalBytes = s.totalBytes := by
  obtain ⟨hle, hf, _⟩ := findUsableBlock_some hfind
  have hfree : FreeOK (s.freeBlocks.take i ++ b :: s.freeBlocks.drop (i + 1)) := by
    rw [← hf]; exact h.free
  have hend : ∀ q ∈ s.freeBlocks.take i ++ b :: s.freeBlocks.drop (i + 1),
      q.data + q.size < 2 ^ 64 := by
    rw [← hf]
    intro q hq
    exact h.tiles.end_lt h.spans (List.mem_append_right _ hq)
  unfold allocThenFree
  rw [allocate_found ma hfind]
  unfold carve
  split_ifs with hk
  · simp only
    rw [deallocate_present _ b.data [] s.usedBlocks b rfl rfl (by simp)]
    simp only [releaseIntoFree_keep hfree hend, List.nil_append]
    refine ⟨hf.symm, ?_, ?_, ?_, ?_, ?_⟩ <;> trivial
  · simp only
    have hlt : n < b.size := by
      have : b.size ≠ n := fun e => hk (Or.inl e)
      omega
    rw [deallocate_present _ b.data [] s.usedBlocks { b with size := n } rfl rfl (by simp)]
    simp only [releaseIntoFree_split hfree hend hn hlt, List.nil_append]
    refine ⟨hf.symm, ?_, ?_, ?_, ?_, ?_⟩ <;> trivial

/-! ## The node pool of `DynamicSizePool` -/

theorem nodeParams : FixedParams (2 ^ 6) sizeofBlock := by decide

theorem allocWalk_data {sizeofT : Nat} {pool chain : List Pool} {ptr : Nat}
    (h : allocWalk sizeofT pool = some (chain, ptr)) :
    chain.map (fun p => p.data) = pool.map (fun p => p.data) := by
  obtain ⟨pre, q, post, q1, h1, h2, _, hq⟩ := allocWalk_some h
  obtain ⟨k, _, _, _, _, hq1, _⟩ := allocInPool_some hq
  rw [h1, h2, hq1]
  simp

theorem deallocWalk_data {NP sizeofT ptr : Nat} : ∀ {pool chain : List Pool},
    deallocWalk NP sizeofT ptr pool = Freed.gave chain →
    chain.map (fun p => p.data) = pool.map (fun p => p.data) := by
  intro pool
  induction pool with
  | nil => intro chain h; simp [deallocWalk] at h
  | cons curr rest ih =>
    intro chain h
    unfold deallocWalk at h
    split_ifs at h with hc hal
    · simp only [Freed.gave.injEq] at h
      rw [← h]; simp
    · cases hr : deallocWalk NP sizeofT ptr rest with
      | noSlab => rw [hr] at h; simp at h
      | undefinedDiff => rw [hr] at h; simp at h
      | gave r =>
        rw [hr] at h
        simp only [Freed.gave.injEq] at h
        rw [← h]
        simp [ih hr]

theorem deallocate_data {NP sizeofT : Nat} {s : FixedSizePool} {ptr : Nat}
    {r : FixedSizePool × Bool} (h : FixedSizePool.deallocate NP sizeofT s ptr = some r) :
    r.1.pool.map (fun p => p.data) = s.pool.map (fun p => p.data) := by
  unfold FixedSizePool.deallocate at h
  cases hw : deallocWalk NP sizeofT ptr s.pool with
  | noSlab =>
    rw [hw] at h
    simp only [Option.some.injEq] at h
    rw [← h]
  | undefinedDiff => rw [hw] at h; cases h
  | gave chain =>
    rw [hw] at h
    simp only [Option.some.injEq] at h
    rw [← h]
    exact deallocWalk_data hw

/-- Taking a slot increments `numBlocks` without wrap-around. -/
theorem take_numBlocks {NP sizeofT : Nat} {s : FixedSizePool} {ptrs : List Nat}
    {chain : List Pool} {ptr : Nat} (h : FixedInv NP sizeofT s ptrs)
    (hpar : FixedParams NP sizeofT) (hw : allocWalk sizeofT s.pool = some (chain, ptr)) :
    (s.numBlocks + 1) % 2 ^ 64 = s.numBlocks + 1 := by
  have hnew := h.take hpar hw
  obtain ⟨pre, q, post, q1, hpool, hchain, _, hq⟩ := allocWalk_some hw
  obtain ⟨k, _, hk, hfree, _, hq1, _⟩ := allocInPool_some hq
  have hav : q1.avail = toggleSlot q.avail k := by rw [hq1]
  obtain ⟨_, hc2⟩ := count_take hav hfree
  have hsum : (chain.map countCleared).sum = (s.pool.map countCleared).sum + 1 := by
    rw [hchain, hpool]
    simp only [List.map_append, List.sum_append, List.map_cons, List.sum_cons, hc2]
    omega
  have h1 : (s.numBlocks + 1) % 2 ^ 64 = (chain.map countCleared).sum := hnew.inUse
  rw [h1, hsum, h.inUse]

/-- Giving back a pointer held decrements `numBlocks` without wrap-around. -/
theorem give_numBlocks {NP sizeofT : Nat} {s s1 : FixedSizePool} {ptrs : List Nat} {x : Nat}
    (h : FixedInv NP sizeofT s ptrs) (hpar : FixedParams NP sizeofT) (hx : x ∈ ptrs)
    (hd : FixedSizePool.deallocate NP sizeofT s x = some (s1, false)) :
    s1.numBlocks + 1 = s.numBlocks := by
  obtain ⟨pre, q, post, k, hpool, hkn, hused, hxe, hdiv, hpre, hq⟩ := h.locate hpar hx
  have hqmem : q ∈ s.pool := by rw [hpool]; simp
  have hqok := h.slabs q hqmem
  have hal : (x - q.data) % sizeofT = 0 := by
    rw [hxe, Nat.add_sub_cancel_left]
    exact Nat.mul_mod_left _ _
  obtain ⟨_, hd2⟩ := deallocate_slot hpool hpre hq hpar.2.1 hqok.fits hal
  rw [hd2] at hd
  simp only [Option.some.injEq] at hd
  have hk : k < numSlots q := by rw [hqok.numSlots_eq]; exact hkn
  obtain ⟨_, hc2⟩ := @count_give q
    { q with avail := toggleSlot q.avail k, numAvail := (q.numAvail + 1) % 2 ^ 32 } k rfl hk hused
  have hb := inUse_bound hpar h.slabs h.disjoint
  have hb2 : (s.pool.map countCleared).sum < 2 ^ 64 :=
    lt_of_le_of_lt (Nat.le_mul_of_pos_right _ (by have := hpar.2.2; omega)) hb
  have hin := h.inUse
  rw [hpool] at hin hb2
  simp only [List.map_append, List.sum_append, List.map_cons, List.sum_cons] at hin hb2
  have e : s1.numBlocks = (s.numBlocks + (2 ^ 64 - 1)) % 2 ^ 64 := by
    have := congrArg (fun r => r.1.numBlocks) hd
    exact this.symm
  rw [e]
  omega

theorem freshSlab_of_oracle {ia : Nat → Nat} {N : Nat} (hfresh : NodeSlabsFresh ia N)
    {pool : List Pool}
    (hslabs : pool.map (fun p => p.data) =
      (List.range pool.length).map (fun j => (newPool (2 ^ 6) (ia j)).data))
    (hlen : pool.length ≤ N) :
    FreshSlab (2 ^ 6) sizeofBlock pool (newPool (2 ^ 6) (ia pool.length)) := by
  obtain ⟨_, h1, h2⟩ := hfresh pool.length hlen
  refine ⟨h1, ?_⟩
  intro p hp
  have hpd : p.data ∈ pool.map (fun p => p.data) := List.mem_map.2 ⟨p, hp, rfl⟩
  rw [hslabs] at hpd
  obtain ⟨i, hi, hie⟩ := List.mem_map.1 hpd
  have := h2 i (List.mem_range.1 hi)
  unfold SlabDisjoint at this ⊢
  rw [← hie]
  exact this

/-! ## The invariant of the node pool -/

theorem slabs_of_chain {ia : Nat → Nat} {pool chain : List Pool}
    (hd : chain.map (fun p => p.data) = pool.map (fun p => p.data))
    (hs : pool.map (fun p => p.data) =
      (List.range pool.length).map (fun j => (newPool (2 ^ 6) (ia j)).data)) :
    chain.length = pool.length ∧
    chain.map (fun p => p.data) =
      (List.range chain.length).map (fun j => (newPool (2 ^ 6) (ia j)).data) := by
  have hl : chain.length = pool.length := by
    have := congrArg List.length hd
    simpa using this
  exact ⟨hl, by rw [hd, hl]; exact hs⟩

/-- `blockPool.allocate()` under the invariant: the call returns within one
nested call, and the invariant holds with the new node. -/
theorem NodePoolInv.alloc {ia : Nat → Nat} {bp : FixedSizePool} {held : List Nat} {B N : Nat}
    (h : NodePoolInv ia bp held B) (hfresh : NodeSlabsFresh ia N) (hB : B + 1 ≤ N) :
    ∃ bp1 p, FixedSizePool.allocate (2 ^ 6) sizeofBlock ia 2 bp = some (bp1, p) ∧
      NodePoolInv ia bp1 (p :: held) (B + 1) := by
  have hlen := h.len
  cases hw : allocWalk sizeofBlock bp.pool with
  | some r =>
    obtain ⟨chain, p⟩ := r
    obtain ⟨hl, hs⟩ := slabs_of_chain (allocWalk_data hw) h.slabs
    refine ⟨_, p, allocate_of_walk 1 hw, h.fixed.take nodeParams hw, ?_, hs, ?_⟩
    · show (bp.numBlocks + 1) % 2 ^ 64 = (p :: held).length
      rw [take_numBlocks h.fixed nodeParams hw, h.count]
      rfl
    · show chain.length ≤ B + 1 + 1
      omega
  | none =>
    have hf := freshSlab_of_oracle hfresh h.slabs (by omega)
    have hg := h.fixed.append nodeParams.2.1 hf
    have hw2 := @allocWalk_grown (2 ^ 6) sizeofBlock (ia bp.pool.length) bp.pool nodeParams hw
    have hs0 : (bp.pool ++ [newPool (2 ^ 6) (ia bp.pool.length)]).map (fun p => p.data) =
        (List.range (bp.pool ++ [newPool (2 ^ 6) (ia bp.pool.length)]).length).map
          (fun j => (newPool (2 ^ 6) (ia j)).data) := by
      rw [List.map_append, h.slabs, List.length_append, List.length_singleton,
        List.range_succ, List.map_append]
      rfl
    obtain ⟨hl, hs⟩ := slabs_of_chain (allocWalk_data hw2) hs0
    refine ⟨_, _, by rw [allocate_of_full 1 hw, allocate_of_walk 0 hw2],
      hg.take nodeParams hw2, ?_, hs, ?_⟩
    · show (bp.numBlocks + 1) % 2 ^ 64 = (_ :: held).length
      have := take_numBlocks hg nodeParams hw2
      rw [this, h.count]
      rfl
    · rw [hl, List.length_append, List.length_singleton]
      omega

/-- `blockPool.deallocate(x)` on the address of a node under the invariant:
the call returns normally, and the invariant holds without that node. -/
theorem NodePoolInv.dealloc {ia : Nat → Nat} {bp : FixedSizePool} {held : List Nat} {B : Nat}
    {x : Nat} (h : NodePoolInv ia bp held B) (hx : x ∈ held) :
    ∃ bp1, FixedSizePool.deallocate (2 ^ 6) sizeofBlock bp x = some (bp1, false) ∧
      NodePoolInv ia bp1 (held.erase x) B := by
  obtain ⟨bp1, hd, hinv⟩ := h.fixed.give nodeParams hx
  have hnb := give_numBlocks h.fixed nodeParams hx hd
  have hdata := deallocate_data hd
  obtain ⟨hl, hs⟩ := slabs_of_chain hdata h.slabs
  refine ⟨bp1, hd, hinv, ?_, hs, by rw [hl]; exact h.len⟩
  have hc := h.count
  have hle := List.length_erase_of_mem hx
  have hpos : 0 < held.length := List.length_pos_of_mem hx
  omega

/-- C11 (the claim as stated fails).  `NP = 2^26 + 1`, slots of 8 bytes, the
slab at `2^40 + 32`: after `2^31` calls of `allocate()` the slab has
`numAvail = 32`, the number of its set avail bits, and its lowest free slot is
`k = 2^31`.  `allocInPool` stores `k` in `int entry`, where it is `-2^31`,
and `allocate()` returns `data - 2^31 * 8`, an address below the slab, not
`data + k * 8`. -/
theorem allocate_returns_address_below_slab :
    ∃ st p, fixedRun (2 ^ 26 + 1) 8 highMa (FixedSizePool.init (2 ^ 26 + 1) highMa, [])
        (List.replicate (2 ^ 31) FOp.alloc) = some st ∧
      st.1.pool = [p] ∧ p.data = 2 ^ 40 + 32 ∧ p.numAvail = 32 ∧ countSet p = 32 ∧
      slotFree p (2 ^ 31) = true ∧ (∀ k, k < 2 ^ 31 → slotFree p k = false) ∧
      (FixedSizePool.allocate (2 ^ 26 + 1) 8 highMa 1 st.1).map (fun r => r.2) =
        some (2 ^ 40 + 32 - 2 ^ 31 * 8) ∧
      2 ^ 40 + 32 - 2 ^ 31 * 8 ≠ p.data + 2 ^ 31 * 8 := by
  obtain ⟨st, p, hrun, hp, hb, hd, hf⟩ := bigSlab_reach (2 ^ 31) (by norm_num)
  obtain ⟨q, ha, _, _⟩ := bigSlab_next 0 hp hb hd hf
  obtain ⟨_, hslot, hnum, _, hset⟩ := hf
  refine ⟨st, p, hrun, hp, hd, by omega, by omega, ?_, ?_, ?_, by rw [hd]; norm_num⟩
  · rw [hslot]; decide
  · intro k hk
    rw [hslot]
    simp; omega
  · rw [ha]; rfl

/-- C11 (amended): in a pool whose chain is `pre ++ sl :: post`, where every
slab of `pre` has `numAvail = 0` and `sl` has `numAvail > 0`, `numAvail` being
the number of set avail bits of `sl`, the slab `sl` having at most `2^31`
slots (so that a slot index fits `int entry`), which end inside the address
space, there is a lowest slot index `k`
whose avail bit is set, and `allocate()` returns the address
`sl.data + k * sizeof(T)`, clears exactly that bit, decrements `sl.numAvail`,
leaves the other slabs and the number of slabs unchanged and increments
`numBlocks`. -/
theorem allocate_takes_lowest_free_slot (NP sizeofT : Nat) (ma : Nat → Nat) (fuel : Nat)
    (s : FixedSizePool) (pre post : List Pool) (sl : Pool)
    (hs : s.pool = pre ++ sl :: post)
    (hpre : ∀ p ∈ pre, p.numAvail = 0)
    (hsl : 0 < sl.numAvail) (hcount : sl.numAvail = countSet sl)
    (hint : numSlots sl ≤ 2 ^ 31) (hfit : sl.data + numSlots sl * sizeofT < 2 ^ 64) :
    ∃ k, k < numSlots sl ∧ slotFree sl k = true ∧ (∀ k1, k1 < k → slotFree sl k1 = false) ∧
      FixedSizePool.allocate NP sizeofT ma (fuel + 1) s =
        some ({ pool := pre ++
                  { sl with avail := toggleSlot sl.avail k, numAvail := sl.numAvail - 1 } :: post
                numBlocks := (s.numBlocks + 1) % 2 ^ 64 },
              sl.data + k * sizeofT) ∧
      (∀ k1, slotFree { sl with avail := toggleSlot sl.avail k, numAvail := sl.numAvail - 1 } k1 =
        (slotFree sl k1 && decide (k1 ≠ k))) ∧
      (pre ++ { sl with avail := toggleSlot sl.avail k, numAvail := sl.numAvail - 1 } ::
        post).length = s.pool.length := by
  obtain ⟨k, hk, hfree, hlow⟩ := exists_lowest_free (by rw [← hcount]; exact hsl)
  refine ⟨k, hk, hfree, hlow, ?_, slotFree_take _ hk hfree, by rw [hs]; simp⟩
  have hle := countSet_le sl
  have hq := @allocInPool_lowest sizeofT sl k (by omega) hfree hlow
  have e1 : (sl.numAvail + (2 ^ 32 - 1)) % 2 ^ 32 = sl.numAvail - 1 := by omega
  have e2 : toInt k = (k : Int) := toInt_of_lt (by omega)
  have e3 : k * sizeofT ≤ numSlots sl * sizeofT := Nat.mul_le_mul_right _ (by omega)
  rw [e1, e2, ptrAdd_natCast (by omega)] at hq
  have hw := @allocWalk_split sizeofT _ _ post _ hq pre
    (fun r hr => allocInPool_of_numAvail_zero (hpre r hr))
  rw [← hs] at hw
  exact allocate_of_walk fuel hw

/-- C11 (amended), at a concrete input: `NP = 1`, slots of 8 bytes, a full slab, a slab
with slots 0 and 1 in use, and a slab with every slot free; slot 2 of the
second slab is taken. -/
theorem allocate_takes_lowest_free_slot_witness :
    (({ pool := [{ data := 4128, avail := [0], numAvail := 0 },
                 { data := 8224, avail := [2 ^ 32 - 4], numAvail := 30 },
                 { data := 12320, avail := [2 ^ 32 - 1], numAvail := 32 }],
        numBlocks := 34 } : FixedSizePool).pool =
        [{ data := 4128, avail := [0], numAvail := 0 }] ++
          ({ data := 8224, avail := [2 ^ 32 - 4], numAvail := 30 } : Pool) ::
          [{ data := 12320, avail := [2 ^ 32 - 1], numAvail := 32 }] ∧
      (∀ p ∈ ([{ data := 4128, avail := [0], numAvail := 0 }] : List Pool), p.numAvail = 0) ∧
      0 < ({ data := 8224, avail := [2 ^ 32 - 4], numAvail := 30 } : Pool).numAvail ∧
      ({ data := 8224, avail := [2 ^ 32 - 4], numAvail := 30 } : Pool).numAvail =
        countSet { data := 8224, avail := [2 ^ 32 - 4], numAvail := 30 } ∧
      numSlots { data := 8224, avail := [2 ^ 32 - 4], numAvail := 30 } ≤ 2 ^ 31 ∧
      8224 + numSlots { data := 8224, avail := [2 ^ 32 - 4], numAvail := 30 } * 8 < 2 ^ 64) ∧
    ∃ k, k < numSlots { data := 8224, avail := [2 ^ 32 - 4], numAvail := 30 } ∧
      slotFree { data := 8224, avail := [2 ^ 32 - 4], numAvail := 30 } k = true ∧
      (∀ k1, k1 < k → slotFree { data := 8224, avail := [2 ^ 32 - 4], numAvail := 30 } k1 = false) ∧
      FixedSizePool.allocate 1 8 spacedMa (0 + 1)
          { pool := [{ data := 4128, avail := [0], numAvail := 0 },
                     { data := 8224, avail := [2 ^ 32 - 4], numAvail := 30 },
                     { data := 12320, avail := [2 ^ 32 - 1], numAvail := 32 }],
            numBlocks := 34 } =
        some ({ pool := [{ data := 4128, avail := [0], numAvail := 0 }] ++
                  { data := 8224, avail := toggleSlot [2 ^ 32 - 4] k, numAvail := 30 - 1 } ::
                  [{ data := 12320, avail := [2 ^ 32 - 1], numAvail := 32 }]
                numBlocks := (34 + 1) % 2 ^ 64 },
              8224 + k * 8) :=
  ⟨⟨rfl, by decide, by decide, by decide, by decide, by decide⟩,
    (allocate_takes_lowest_free_slot 1 8 spacedMa 0
      { pool := [{ data := 4128, avail := [0], numAvail := 0 },
                 { data := 8224, avail := [2 ^ 32 - 4], numAvail := 30 },
                 { data := 12320, avail := [2 ^ 32 - 1], numAvail := 32 }],
        numBlocks := 34 }
      [{ data := 4128, avail := [0], numAvail := 0 }]
      [{ data := 12320, avail := [2 ^ 32 - 1], numAvail := 32 }]
      { data := 8224, avail := [2 ^ 32 - 4], numAvail := 30 }
      rfl (by decide) (by decide) (by decide) (by decide) (by decide)).imp
      (fun _ h => ⟨h.1, h.2.1, h.2.2.1, h.2.2.2.1⟩)⟩
/-! ## C12: `allocate()` on a pool of full slabs -/

/-- C12 (the claim as stated fails).  For `NP = 2^27` the constant
`numPerPool = NP * 32 = 2^32` is stored in the `unsigned int numAvail` of a
fresh slab as 0: the slab the constructor builds counts as full, and so does
every slab appended later, so a call of `allocate()` returns within no number
of nested calls. -/
theorem allocate_does_not_return_for_truncated_numAvail :
    (∀ p ∈ (FixedSizePool.init (2 ^ 27) spacedMa).pool, p.numAvail = 0) ∧
    ¬ ∃ fuel, (FixedSizePool.allocate (2 ^ 27) 8 spacedMa fuel
        (FixedSizePool.init (2 ^ 27) spacedMa)).isSome = true := by
  have h0 : (2 ^ 27 * 32) % 2 ^ 32 = 0 := by norm_num
  have hs : ∀ p ∈ (FixedSizePool.init (2 ^ 27) spacedMa).pool, p.numAvail = 0 := by
    intro p hp
    rw [List.mem_singleton.1 hp, newPool_numAvail, h0]
  refine ⟨hs, ?_⟩
  rintro ⟨fuel, h⟩
  rw [allocate_none_of_truncated h0 fuel _ hs] at h
  cases h

/-- C12 (amended): for `NP ≥ 1` with `NP * 32` not a multiple of `2^32` (so
that `numAvail` of a fresh slab is not truncated to 0), `allocate()` in a pool
where every slab has `numAvail = 0` does not return without a nested call and
returns after exactly one: it appends one slab at the tail of the chain, built
with all its `NP * 32` slots free, returns the address of slot 0 of that slab
(whose avail bit is then the only cleared one), leaves the slabs that were
there unchanged, increments `numBlocks`, and `numPools()` is one larger. -/
theorem allocate_appends_one_slab (NP sizeofT : Nat) (ma : Nat → Nat) (s : FixedSizePool)
    (fuel : Nat) (hNP : 1 ≤ NP) (htr : (NP * 32) % 2 ^ 32 ≠ 0)
    (hfull : ∀ p ∈ s.pool, p.numAvail = 0) :
    FixedSizePool.allocate NP sizeofT ma 1 s = none ∧
    FixedSizePool.allocate NP sizeofT ma (fuel + 2) s =
      some ({ pool := s.pool ++
                [{ data := wadd (ma s.pool.length) sizeofPool
                   avail := (2 ^ 32 - 2) :: List.replicate (NP - 1) (2 ^ 32 - 1)
                   numAvail := (NP * 32) % 2 ^ 32 - 1 }]
              numBlocks := (s.numBlocks + 1) % 2 ^ 64 },
            wadd (ma s.pool.length) sizeofPool) ∧
    (∀ k, k < NP * 32 → slotFree (newPool NP (ma s.pool.length)) k = true) ∧
    (FixedSizePool.allocate NP sizeofT ma (fuel + 2) s).map
        (fun r => FixedSizePool.numPools r.1) = some (FixedSizePool.numPools s + 1) := by
  have hw := @allocWalk_of_numAvail_zero sizeofT _ hfull
  have h2 : FixedSizePool.allocate NP sizeofT ma (fuel + 2) s =
      some ({ pool := s.pool ++
                [{ data := wadd (ma s.pool.length) sizeofPool
                   avail := (2 ^ 32 - 2) :: List.replicate (NP - 1) (2 ^ 32 - 1)
                   numAvail := (NP * 32) % 2 ^ 32 - 1 }]
              numBlocks := (s.numBlocks + 1) % 2 ^ 64 },
            wadd (ma s.pool.length) sizeofPool) := by
    rw [allocate_grows_any_fuel fuel hNP htr hw, allocate_grows hNP htr hw,
      toggleSlot_newPool hNP]
    rfl
  refine ⟨?_, h2, fun k hk => slotFree_newPool hk, ?_⟩
  · rw [allocate_of_full 0 hw]; rfl
  · rw [h2]; simp [FixedSizePool.numPools]

/-- C12 (amended), at a concrete input: `NP = 1`, slots of 8 bytes, the one
slab of the pool full. -/
theorem allocate_appends_one_slab_witness :
    ((1 : Nat) ≤ 1 ∧ (1 * 32) % 2 ^ 32 ≠ 0 ∧
      ∀ p ∈ ({ pool := [{ data := 4128, avail := [0], numAvail := 0 }],
               numBlocks := 32 } : FixedSizePool).pool, p.numAvail = 0) ∧
    FixedSizePool.allocate 1 8 spacedMa (0 + 2)
        { pool := [{ data := 4128, avail := [0], numAvail := 0 }], numBlocks := 32 } =
      some ({ pool := [{ data := 4128, avail := [0], numAvail := 0 },
                       { data := 8224, avail := [2 ^ 32 - 2], numAvail := 31 }]
              numBlocks := 33 },
            8224) :=
  ⟨⟨by decide, by decide, by decide⟩,
    (allocate_appends_one_slab 1 8 spacedMa
      { pool := [{ data := 4128, avail := [0], numAvail := 0 }], numBlocks := 32 } 0
      (by decide) (by decide) (by decide)).2.1⟩

/-! ## C13, C14, C17: sequences of calls on a fixed-size pool -/

/-- C13 (the claim as stated fails).  `NP = 2^26 + 1`, slots of 8 bytes, the
slab at `2^40 + 32`: in the state reached by `2^31` calls of `allocate()`,
`p = allocate()` takes slot `2^31` and returns `data - 2^31 * 8` (the slot
index does not fit `int entry`); `deallocate(p)` finds `p` in no slab and
leaves by its `throw`, so nothing is restored: `numBlocks` stays `2^31 + 1`. -/
theorem allocate_then_deallocate_does_not_restore :
    ∃ st s1, fixedRun (2 ^ 26 + 1) 8 highMa (FixedSizePool.init (2 ^ 26 + 1) highMa, [])
        (List.replicate (2 ^ 31) FOp.alloc) = some st ∧
      FixedSizePool.allocate (2 ^ 26 + 1) 8 highMa 2 st.1 =
        some (s1, 2 ^ 40 + 32 - 2 ^ 31 * 8) ∧
      FixedSizePool.deallocate (2 ^ 26 + 1) 8 s1 (2 ^ 40 + 32 - 2 ^ 31 * 8) = some (s1, true) ∧
      st.1.numBlocks = 2 ^ 31 ∧ s1.numBlocks = 2 ^ 31 + 1 := by
  obtain ⟨st, p, hrun, hp, hb, hd, hf⟩ := bigSlab_reach (2 ^ 31) (by norm_num)
  obtain ⟨q, ha, hqd, _⟩ := bigSlab_next 1 hp hb hd hf
  refine ⟨st, _, hrun, ha, ?_, hb, rfl⟩
  apply deallocate_none
  intro r hr
  rw [List.mem_singleton.1 hr]
  unfold InSlab
  rw [hqd]
  intro h
  have := h.1
  norm_num at this

/-- C13 (amended): for `1 ≤ NP` with `NP * 32 ≤ 2^31` (slot indices fit an
`int`) and every state `st` reached from the pool the constructor builds by
a sequence of `allocate()` calls and `deallocate(p)` calls on pointers held
(the slabs being fresh: inside the address space and disjoint),
`p = allocate()` returns and
`deallocate(p)` then returns normally and leaves either exactly the state
before the `allocate()` (when a slot of the chain was taken), or that state
with the one fresh slab appended by the `allocate()`, every slot of it free:
bitmaps, every `numAvail` and `numBlocks` are restored. -/
theorem allocate_then_deallocate_restores (NP sizeofT : Nat) (ma : Nat → Nat) (ops : List FOp)
    (hpar : FixedParams NP sizeofT)
    (hinit : FreshSlab NP sizeofT [] (newPool NP (ma 0)))
    (hok : FixedRunOK NP sizeofT ma (FixedSizePool.init NP ma, []) (ops ++ [FOp.alloc])) :
    ∃ st s1 p, fixedRun NP sizeofT ma (FixedSizePool.init NP ma, []) ops = some st ∧
      FixedSizePool.allocate NP sizeofT ma 2 st.1 = some (s1, p) ∧
      FixedSizePool.deallocate NP sizeofT s1 p =
        some (if (allocWalk sizeofT st.1.pool).isSome = true then st.1
          else { st.1 with pool := st.1.pool ++ [newPool NP (ma st.1.pool.length)] }, false) := by
  obtain ⟨st, hrun, hinv, hrest⟩ :=
    FixedInv.runs hpar [FOp.alloc] (FixedInv.atInit hinit hpar.2.1) hok
  cases hw : allocWalk sizeofT st.1.pool with
  | some r =>
    obtain ⟨chain, ptr⟩ := r
    refine ⟨st, _, ptr, hrun, allocate_of_walk 1 hw, ?_⟩
    rw [round_trip_of_walk hinv hpar hw]
    simp [hw]
  | none =>
    have hg := hinv.append hpar.2.1 (hrest.1 hw)
    have hw2 := @allocWalk_grown NP sizeofT (ma st.1.pool.length) st.1.pool hpar hw
    refine ⟨st, _, _, hrun, by rw [allocate_of_full 1 hw, allocate_of_walk 0 hw2], ?_⟩
    rw [round_trip_of_walk hg hpar hw2]
    simp [hw]

/-- C13 (amended), at a concrete input: `NP = 1`, slots of 8 bytes; after three
`allocate()` and the `deallocate` of the second pointer, `allocate()` returns
4136 again and `deallocate(4136)` restores the state. -/
theorem allocate_then_deallocate_restores_witness :
    (FixedParams 1 8 ∧ FreshSlab 1 8 [] (newPool 1 (spacedMa 0)) ∧
      FixedRunOK 1 8 spacedMa (FixedSizePool.init 1 spacedMa, [])
        ([FOp.alloc, FOp.alloc, FOp.alloc, FOp.dealloc 4136] ++ [FOp.alloc])) ∧
    ∃ st s1 p, fixedRun 1 8 spacedMa (FixedSizePool.init 1 spacedMa, [])
        [FOp.alloc, FOp.alloc, FOp.alloc, FOp.dealloc 4136] = some st ∧
      FixedSizePool.allocate 1 8 spacedMa 2 st.1 = some (s1, p) ∧
      FixedSizePool.deallocate 1 8 s1 p =
        some (if (allocWalk 8 st.1.pool).isSome = true then st.1
          else { st.1 with pool := st.1.pool ++ [newPool 1 (spacedMa st.1.pool.length)] },
          false) :=
  ⟨⟨by decide, by decide, by decide⟩,
    allocate_then_deallocate_restores 1 8 spacedMa
      [FOp.alloc, FOp.alloc, FOp.alloc, FOp.dealloc 4136] (by decide) (by decide) (by decide)⟩

/-- C14 (the claim as stated fails).  `NP = 2^26 + 1`, slots of 8 bytes, the
slab at `2^40 + 32`: after `2^31` calls of `allocate()` the next call returns
`data - 2^31 * 8`, which the caller then holds; it is the address of no slot
of the pool, so it corresponds to no (slab, bit) pair. -/
theorem allocate_returns_address_of_no_slot :
    ∃ st s1, fixedRun (2 ^ 26 + 1) 8 highMa (FixedSizePool.init (2 ^ 26 + 1) highMa, [])
        (List.replicate (2 ^ 31) FOp.alloc) = some st ∧
      FixedSizePool.allocate (2 ^ 26 + 1) 8 highMa 2 st.1 =
        some (s1, 2 ^ 40 + 32 - 2 ^ 31 * 8) ∧
      ¬ ∃ q ∈ s1.pool, ∃ k, k < (2 ^ 26 + 1) * 32 ∧ 2 ^ 40 + 32 - 2 ^ 31 * 8 = q.data + k * 8 := by
  obtain ⟨st, p, hrun, hp, hb, hd, hf⟩ := bigSlab_reach (2 ^ 31) (by norm_num)
  obtain ⟨q, ha, hqd, _⟩ := bigSlab_next 1 hp hb hd hf
  refine ⟨st, _, hrun, ha, ?_⟩
  rintro ⟨r, hr, k, _, hk⟩
  rw [List.mem_singleton.1 hr, hqd] at hk
  omega

/-- C14 (amended): for `1 ≤ NP` with `NP * 32 ≤ 2^31` (slot indices fit an
`int`) and every sequence of `allocate()` calls and `deallocate(p)` calls on
pointers held, from the pool the constructor builds (the slabs being fresh),
every call returns, each pointer is
held once, a further `allocate()` returns a pointer that no caller holds, and
every pointer held is the address of a slot of exactly one (slab, slot index)
pair, whose avail bit is 0. -/
theorem allocate_returns_slot_not_in_use (NP sizeofT : Nat) (ma : Nat → Nat) (ops : List FOp)
    (hpar : FixedParams NP sizeofT)
    (hinit : FreshSlab NP sizeofT [] (newPool NP (ma 0)))
    (hok : FixedRunOK NP sizeofT ma (FixedSizePool.init NP ma, []) (ops ++ [FOp.alloc])) :
    ∃ st s1 p, fixedRun NP sizeofT ma (FixedSizePool.init NP ma, []) ops = some st ∧
      FixedSizePool.allocate NP sizeofT ma 2 st.1 = some (s1, p) ∧ p ∉ st.2 ∧ st.2.Nodup ∧
      ∀ x ∈ st.2, ∃ q k, q ∈ st.1.pool ∧ k < NP * 32 ∧ x = q.data + k * sizeofT ∧
        slotFree q k = false ∧
        ∀ q1 k1, q1 ∈ st.1.pool → k1 < NP * 32 → x = q1.data + k1 * sizeofT →
          q1 = q ∧ k1 = k := by
  obtain ⟨st, hrun, hinv, hrest⟩ :=
    FixedInv.runs hpar [FOp.alloc] (FixedInv.atInit hinit hpar.2.1) hok
  obtain ⟨s1, p, ha, hinv1⟩ := hinv.allocated hpar hrest.1
  refine ⟨st, s1, p, hrun, ha, (List.nodup_cons.1 hinv1.nodup).1, hinv.nodup, ?_⟩
  intro x hx
  obtain ⟨q, hq, k, hk, hused, hxe⟩ := (hinv.held x).1 hx
  refine ⟨q, k, hq, hk, hxe, hused, ?_⟩
  intro q1 k1 hq1 hk1 hx1
  exact slot_inj hinv.disjoint hpar.2.2 hq1 hq hk1 hk (by rw [← hx1, ← hxe])

set_option maxRecDepth 100000 in
/-- C14 (amended), at a concrete input: `NP = 1`, slots of 8 bytes; 33 `allocate()`
calls (the last one appends a slab), two `deallocate`, then `allocate()`. -/
theorem allocate_returns_slot_not_in_use_witness :
    (FixedParams 1 8 ∧ FreshSlab 1 8 [] (newPool 1 (spacedMa 0)) ∧
      FixedRunOK 1 8 spacedMa (FixedSizePool.init 1 spacedMa, [])
        ((List.replicate 33 FOp.alloc ++ [FOp.dealloc 4136, FOp.dealloc 8224]) ++
          [FOp.alloc])) ∧
    ∃ st s1 p, fixedRun 1 8 spacedMa (FixedSizePool.init 1 spacedMa, [])
        (List.replicate 33 FOp.alloc ++ [FOp.dealloc 4136, FOp.dealloc 8224]) = some st ∧
      FixedSizePool.allocate 1 8 spacedMa 2 st.1 = some (s1, p) ∧ p ∉ st.2 :=
  ⟨⟨by decide, by decide, by decide⟩,
    (allocate_returns_slot_not_in_use 1 8 spacedMa
      (List.replicate 33 FOp.alloc ++ [FOp.dealloc 4136, FOp.dealloc 8224])
      (by decide) (by decide) (by decide)).imp
      (fun _ h => h.imp (fun _ h => h.imp (fun _ h => ⟨h.1, h.2.1, h.2.2.1⟩)))⟩

/-- C17 (the claim as stated fails).  `NP = 2^26 + 1`, slots of 8 bytes, the
slab at `2^40 + 32`: after `2^31 + 1` calls of `allocate()` slot `2^31` is in
use.  `deallocate` of its address `data + 2^31 * 8` stores the slot index in
`int indexD`, where it is `-2^31`; the call returns with `numBlocks`
decremented to `2^31` and no avail bit set, so `2^31 + 1` avail bits are
cleared and `allocatedSize()` is `2^31 * 8`. -/
theorem numBlocks_below_slots_in_use :
    ∃ st q s2, fixedRun (2 ^ 26 + 1) 8 highMa (FixedSizePool.init (2 ^ 26 + 1) highMa, [])
        (List.replicate (2 ^ 31 + 1) FOp.alloc) = some st ∧
      st.1.pool = [q] ∧ slotFree q (2 ^ 31) = false ∧
      FixedSizePool.deallocate (2 ^ 26 + 1) 8 st.1 (q.data + 2 ^ 31 * 8) = some (s2, false) ∧
      s2.numBlocks = 2 ^ 31 ∧ (s2.pool.map countCleared).sum = 2 ^ 31 + 1 ∧
      FixedSizePool.allocatedSize 8 s2 = 2 ^ 31 * 8 := by
  obtain ⟨st, q, hrun, hq, hb, hd, hf⟩ := bigSlab_reach (2 ^ 31 + 1) (by norm_num)
  obtain ⟨_, hgive⟩ := @bigSlab_give st.1 q hq hd
  obtain ⟨_, hslot, _, hcl, _⟩ := hf
  refine ⟨st, q, _, hrun, hq, by rw [hslot]; decide, hgive, ?_, ?_, ?_⟩
  · simp only [hb]
    norm_num
  · show ([countCleared q]).sum = _
    rw [List.sum_singleton, hcl]
  · unfold FixedSizePool.allocatedSize
    simp only [hb]
    norm_num

/-- C17 (amended): for `1 ≤ NP` with `NP * 32 ≤ 2^31` (slot indices fit an
`int`) and every sequence of `allocate()` calls (those that append a slab
included) and `deallocate(p)` calls on pointers held, from the pool the
constructor builds (the slabs being fresh), every call returns, and
afterwards `numBlocks` is the total number of
cleared avail bits over all slabs and `allocatedSize()` is `sizeof(T)` times
that number, without wrap-around. -/
theorem allocatedSize_counts_slots_in_use (NP sizeofT : Nat) (ma : Nat → Nat) (ops : List FOp)
    (hpar : FixedParams NP sizeofT)
    (hinit : FreshSlab NP sizeofT [] (newPool NP (ma 0)))
    (hok : FixedRunOK NP sizeofT ma (FixedSizePool.init NP ma, []) ops) :
    ∃ st, fixedRun NP sizeofT ma (FixedSizePool.init NP ma, []) ops = some st ∧
      st.1.numBlocks = (st.1.pool.map countCleared).sum ∧
      FixedSizePool.allocatedSize sizeofT st.1 = sizeofT * (st.1.pool.map countCleared).sum := by
  obtain ⟨st, hrun, hinv, _⟩ :=
    FixedInv.runs hpar [] (FixedInv.atInit hinit hpar.2.1) (by simpa using hok)
  refine ⟨st, hrun, hinv.inUse, ?_⟩
  have hb := inUse_bound hpar hinv.slabs hinv.disjoint
  unfold FixedSizePool.allocatedSize
  rw [hinv.inUse, Nat.mod_eq_of_lt hb, Nat.mul_comm]

set_option maxRecDepth 100000 in
/-- C17 (amended), at a concrete input: `NP = 1`, slots of 8 bytes; 33 `allocate()`
calls (the last one appends a slab) and two `deallocate`. -/
theorem allocatedSize_counts_slots_in_use_witness :
    (FixedParams 1 8 ∧ FreshSlab 1 8 [] (newPool 1 (spacedMa 0)) ∧
      FixedRunOK 1 8 spacedMa (FixedSizePool.init 1 spacedMa, [])
        (List.replicate 33 FOp.alloc ++ [FOp.dealloc 4128, FOp.dealloc 8224])) ∧
    ∃ st, fixedRun 1 8 spacedMa (FixedSizePool.init 1 spacedMa, [])
        (List.replicate 33 FOp.alloc ++ [FOp.dealloc 4128, FOp.dealloc 8224]) = some st ∧
      st.1.numBlocks = (st.1.pool.map countCleared).sum ∧
      FixedSizePool.allocatedSize 8 st.1 = 8 * (st.1.pool.map countCleared).sum :=
  ⟨⟨by decide, by decide, by decide⟩,
    allocatedSize_counts_slots_in_use 1 8 spacedMa
      (List.replicate 33 FOp.alloc ++ [FOp.dealloc 4128, FOp.dealloc 8224])
      (by decide) (by decide) (by decide)⟩

/-! ## C15: `deallocate(ptr)` on a pointer inside a slab -/

/-- C15 (the claim as stated fails).  `deallocate` flips the avail bit
(`^= 1 << indexB`), increments an `unsigned int`, takes the slot index from a
pointer subtraction and stores it in an `int`.
(1) On the pool the constructor builds (`NP = 1`, slots of 8 bytes, slab data
at 4128) the call `deallocate(4128)` meets the set avail bit of slot 0 and
leaves it cleared.
(2) On a slab whose `numAvail` is `2^32 - 1` the call leaves `numAvail = 0`.
(3) With slots of 12 bytes the pointer 4132 lies in the slot range of the slab
at 4128 but inside slot 0: the subtraction `ptr - start` of the two `T *` has
no defined result.
(4) For `NP = 2^26 + 1` (slots of 8 bytes, the slab at `2^40 + 32`), after
`2^31 + 1` calls of `allocate()` slot `2^31` is in use and its address is in
the slot range; `deallocate` of that address returns with the avail bit of the
slot still cleared. -/
theorem deallocate_free_slot_clears_bit :
    (InSlab 1 8 { data := 4128, avail := [2 ^ 32 - 1], numAvail := 32 } 4128 ∧
      FixedSizePool.deallocate 1 8 (FixedSizePool.init 1 spacedMa) 4128 =
        some ({ pool := [{ data := 4128, avail := [2 ^ 32 - 2], numAvail := 33 }],
                numBlocks := 2 ^ 64 - 1 }, false) ∧
      slotFree { data := 4128, avail := [2 ^ 32 - 2], numAvail := 33 } 0 = false) ∧
    FixedSizePool.deallocate 1 8
        { pool := [{ data := 4128, avail := [0], numAvail := 2 ^ 32 - 1 }], numBlocks := 32 }
        4128 =
      some ({ pool := [{ data := 4128, avail := [1], numAvail := 0 }], numBlocks := 31 },
        false) ∧
    (InSlab 1 12 { data := 4128, avail := [2 ^ 32 - 2], numAvail := 31 } 4132 ∧
      slotFree { data := 4128, avail := [2 ^ 32 - 2], numAvail := 31 } 0 = false ∧
      FixedSizePool.deallocate 1 12
        { pool := [{ data := 4128, avail := [2 ^ 32 - 2], numAvail := 31 }], numBlocks := 1 }
        4132 = none) ∧
    ∃ st q s2 q2, fixedRun (2 ^ 26 + 1) 8 highMa (FixedSizePool.init (2 ^ 26 + 1) highMa, [])
        (List.replicate (2 ^ 31 + 1) FOp.alloc) = some st ∧
      st.1.pool = [q] ∧ slotFree q (2 ^ 31) = false ∧
      InSlab (2 ^ 26 + 1) 8 q (q.data + 2 ^ 31 * 8) ∧
      FixedSizePool.deallocate (2 ^ 26 + 1) 8 st.1 (q.data + 2 ^ 31 * 8) = some (s2, false) ∧
      s2.pool = [q2] ∧ slotFree q2 (2 ^ 31) = false := by
  refine ⟨⟨by decide, by decide, by decide⟩, by decide, ⟨by decide, by decide, by decide⟩, ?_⟩
  obtain ⟨st, q, hrun, hq, hb, hd, hf⟩ := bigSlab_reach (2 ^ 31 + 1) (by norm_num)
  obtain ⟨hin, hgive⟩ := @bigSlab_give st.1 q hq hd
  obtain ⟨_, hslot, _, _, _⟩ := hf
  have hused : slotFree q (2 ^ 31) = false := by rw [hslot]; decide
  exact ⟨st, q, _, _, hrun, hq, hused, hin, hgive, rfl, hused⟩

/-- C15 (amended): for `1 ≤ NP` with `NP * 32 ≤ 2^31` and every pool state:
if `ptr` is the address `q.data + k * sizeof(T)` of a slot `k < NP * 32` of a
slab `q` of `NP` bitmap words whose slots end inside the address space (`q`
being the first slab in chain order that passes the range test of the code),
the avail bit of slot `k` is cleared (the slot is in use) and
`q.numAvail + 1 < 2^32`, then `ptr` passes the range test of `q`,
`deallocate(ptr)` returns normally, afterwards that avail bit is set and no
other avail bit of the slab has changed, the slab's `numAvail` is one larger
than before, the other slabs are unchanged and `numBlocks` is decremented. -/
theorem deallocate_frees_slot_in_use (NP sizeofT : Nat) (s : FixedSizePool)
    (pre post : List Pool) (q : Pool) (k : Nat)
    (hpar : FixedParams NP sizeofT)
    (hs : s.pool = pre ++ q :: post)
    (hpre : ∀ r ∈ pre, ¬ InSlab NP sizeofT r (q.data + k * sizeofT))
    (hk : k < NP * 32)
    (hwords : q.avail.length = NP) (hfit : q.data + NP * 32 * sizeofT < 2 ^ 64)
    (hused : slotFree q k = false)
    (hnum : q.numAvail + 1 < 2 ^ 32) :
    InSlab NP sizeofT q (q.data + k * sizeofT) ∧
    ∃ q1, FixedSizePool.deallocate NP sizeofT s (q.data + k * sizeofT) =
        some ({ pool := pre ++ q1 :: post
                numBlocks := (s.numBlocks + (2 ^ 64 - 1)) % 2 ^ 64 }, false) ∧
      q1.data = q.data ∧ q1.numAvail = q.numAvail + 1 ∧
      slotFree q1 k = true ∧
      ∀ k1, k1 ≠ k → slotFree q1 k1 = slotFree q k1 := by
  have hkm := slot_mul_lt hk hpar.2.2
  have hq : InSlab NP sizeofT q (q.data + k * sizeofT) := by
    rw [inSlab_iff hpar.2.1 hfit]
    omega
  have hdiff : q.data + k * sizeofT - q.data = k * sizeofT := Nat.add_sub_cancel_left _ _
  have hal : (q.data + k * sizeofT - q.data) % sizeofT = 0 := by
    rw [hdiff]
    exact Nat.mul_mod_left _ _
  have hdiv : (q.data + k * sizeofT - q.data) / sizeofT = k := by
    rw [hdiff]
    exact Nat.mul_div_cancel _ (by have := hpar.2.2; omega)
  obtain ⟨_, hd⟩ := deallocate_slot hs hpre hq hpar.2.1 hfit hal
  rw [hdiv] at hd
  have hk2 : k < numSlots q := by unfold numSlots; omega
  refine ⟨hq, _, hd, rfl, Nat.mod_eq_of_lt hnum, ?_, ?_⟩
  · rw [slotFree_give _ hk2 hused]; simp
  · intro k1 hk1
    rw [slotFree_give _ hk2 hused]; simp [hk1]

/-- C15 (amended), at a concrete input: `NP = 1`, slots of 8 bytes, slots 0
and 1 of the second slab in use, `deallocate(8232)` gives back slot 1. -/
theorem deallocate_frees_slot_in_use_witness :
    (FixedParams 1 8 ∧
      ({ pool := [{ data := 4128, avail := [0], numAvail := 0 },
                  { data := 8224, avail := [2 ^ 32 - 4], numAvail := 30 }],
         numBlocks := 34 } : FixedSizePool).pool =
        [{ data := 4128, avail := [0], numAvail := 0 }] ++
          ({ data := 8224, avail := [2 ^ 32 - 4], numAvail := 30 } : Pool) :: [] ∧
      (∀ r ∈ ([{ data := 4128, avail := [0], numAvail := 0 }] : List Pool),
        ¬ InSlab 1 8 r (8224 + 1 * 8)) ∧
      1 < 1 * 32 ∧
      ({ data := 8224, avail := [2 ^ 32 - 4], numAvail := 30 } : Pool).avail.length = 1 ∧
      8224 + 1 * 32 * 8 < 2 ^ 64 ∧
      slotFree { data := 8224, avail := [2 ^ 32 - 4], numAvail := 30 } 1 = false ∧
      30 + 1 < 2 ^ 32) ∧
    ∃ q1, FixedSizePool.deallocate 1 8
        { pool := [{ data := 4128, avail := [0], numAvail := 0 },
                   { data := 8224, avail := [2 ^ 32 - 4], numAvail := 30 }],
          numBlocks := 34 } (8224 + 1 * 8) =
        some ({ pool := [{ data := 4128, avail := [0], numAvail := 0 }] ++ q1 :: []
                numBlocks := (34 + (2 ^ 64 - 1)) % 2 ^ 64 }, false) ∧
      q1.data = 8224 ∧ q1.numAvail = 30 + 1 ∧ slotFree q1 1 = true :=
  ⟨⟨by decide, rfl, by decide, by decide, by decide, by decide, by decide, by decide⟩,
    (deallocate_frees_slot_in_use 1 8
      { pool := [{ data := 4128, avail := [0], numAvail := 0 },
                 { data := 8224, avail := [2 ^ 32 - 4], numAvail := 30 }],
        numBlocks := 34 }
      [{ data := 4128, avail := [0], numAvail := 0 }] []
      { data := 8224, avail := [2 ^ 32 - 4], numAvail := 30 } 1
      (by decide) rfl (by decide) (by decide) (by decide) (by decide) (by decide)
      (by decide)).2.imp (fun _ h => ⟨h.1, h.2.1, h.2.2.1, h.2.2.2.1⟩)⟩

/-! ## C16: `deallocate(ptr)` on a pointer outside the slabs -/

/-- C16 (the claim as stated fails).  On the pool the constructor builds
(`NP = 1`, slots of 8 bytes, slab data at 4128 .. 4384) the pointer 64 lies
in no slab, and `deallocate(64)` ends by `throw(std::bad_alloc())`: the call
does not return normally. -/
theorem deallocate_foreign_pointer_leaves_by_throw :
    (∀ p ∈ (FixedSizePool.init 1 spacedMa).pool, ¬ InSlab 1 8 p 64) ∧
    (FixedSizePool.deallocate 1 8 (FixedSizePool.init 1 spacedMa) 64).map (fun r => r.2) =
      some true := by
  refine ⟨?_, ?_⟩ <;> decide

/-- C16 (amended): `deallocate(ptr)` with a `ptr` that passes the range test
of no slab reports the error and leaves by `throw(std::bad_alloc())`; every
slab's bitmap, every `numAvail` and `numBlocks` are as before the call. -/
theorem deallocate_foreign_pointer_throws (NP sizeofT : Nat) (s : FixedSizePool) (ptr : Nat)
    (h : ∀ p ∈ s.pool, ¬ InSlab NP sizeofT p ptr) :
    FixedSizePool.deallocate NP sizeofT s ptr = some (s, true) :=
  deallocate_none h

/-- C16 (amended), at a concrete input: two slabs (`NP = 1`, slots of 8
bytes) and a pointer between them. -/
theorem deallocate_foreign_pointer_throws_witness :
    (∀ p ∈ ({ pool := [{ data := 4128, avail := [0], numAvail := 0 },
                       { data := 8224, avail := [2 ^ 32 - 4], numAvail := 30 }],
              numBlocks := 34 } : FixedSizePool).pool, ¬ InSlab 1 8 p 4384) ∧
    FixedSizePool.deallocate 1 8
        { pool := [{ data := 4128, avail := [0], numAvail := 0 },
                   { data := 8224, avail := [2 ^ 32 - 4], numAvail := 30 }],
          numBlocks := 34 } 4384 =
      some ({ pool := [{ data := 4128, avail := [0], numAvail := 0 },
                       { data := 8224, avail := [2 ^ 32 - 4], numAvail := 30 }],
              numBlocks := 34 }, true) :=
  ⟨by decide,
    deallocate_foreign_pointer_throws 1 8
      { pool := [{ data := 4128, avail := [0], numAvail := 0 },
                 { data := 8224, avail := [2 ^ 32 - 4], numAvail := 30 }],
        numBlocks := 34 } 4384 (by decide)⟩

/-! ## C18, C19: the allocators used by the test programs -/

/-- C18 (defect of the code): `FixedPoolAllocator::allocate()` in a pool
where every slab has `numAvail = 0` (`NP ≥ 1`, `NP * 32` not a multiple of
`2^32`) appends one slab and takes slot 0 of it in the nested call, but drops
the pointer the nested call returns: the call returns `NULL`, and `numBlocks`
has been incremented twice, once by the nested call and once by the call
itself. -/
theorem allocate_after_growth_returns_null (NP sizeofT : Nat) (ma : Nat → Nat)
    (s : FixedPoolAllocator) (hNP : 1 ≤ NP) (htr : (NP * 32) % 2 ^ 32 ≠ 0)
    (hfull : ∀ p ∈ s.pool, p.numAvail = 0) :
    FixedPoolAllocator.allocate NP sizeofT ma 2 s =
      some ({ pool := s.pool ++
                [{ data := wadd (ma s.pool.length) sizeofPool
                   avail := (2 ^ 32 - 2) :: List.replicate (NP - 1) (2 ^ 32 - 1)
                   numAvail := (NP * 32) % 2 ^ 32 - 1 }]
              numBlocks := ((s.numBlocks + 1) % 2 ^ 64 + 1) % 2 ^ 64 },
            none) := by
  have hw := @allocWalk_of_numAvail_zero sizeofT _ hfull
  have hw2 := @allocWalk_split sizeofT _ _ [] _
    (@allocInPool_newPool NP (ma s.pool.length) sizeofT hNP htr) s.pool (allocWalk_none_iff.1 hw)
  rw [toggleSlot_newPool hNP] at hw2
  simp only [FixedPoolAllocator.allocate, hw, hw2]
  rfl

/-- C18, at a concrete input: `NP = 1`, slots of 8 bytes.  32 calls of
`allocate()` on the pool the constructor builds fill its slab and leave
`numBlocks = 32`; the 33rd call returns `NULL` and leaves `numBlocks = 34`
with 33 slots in use. -/
theorem allocate_after_growth_returns_null_witness :
    ((FixedPoolAllocator.allocateTimes 1 8 spacedMa 32 (FixedPoolAllocator.init 1 spacedMa)).map
        Prod.fst =
        some { pool := [{ data := 4128, avail := [0], numAvail := 0 }], numBlocks := 32 } ∧
      (1 : Nat) ≤ 1 ∧ (1 * 32) % 2 ^ 32 ≠ 0 ∧
      ∀ p ∈ ({ pool := [{ data := 4128, avail := [0], numAvail := 0 }],
               numBlocks := 32 } : FixedPoolAllocator).pool, p.numAvail = 0) ∧
    FixedPoolAllocator.allocate 1 8 spacedMa 2
        { pool := [{ data := 4128, avail := [0], numAvail := 0 }], numBlocks := 32 } =
      some ({ pool := [{ data := 4128, avail := [0], numAvail := 0 },
                       { data := 8224, avail := [2 ^ 32 - 2], numAvail := 31 }]
              numBlocks := 34 },
            none) :=
  ⟨⟨by decide, by decide, by decide, by decide⟩,
    allocate_after_growth_returns_null 1 8 spacedMa
      { pool := [{ data := 4128, avail := [0], numAvail := 0 }], numBlocks := 32 }
      (by decide) (by decide) (by decide)⟩

/-- C19 (defect of the code): `allocate(8)` on a fresh
`DynamicPoolAllocator` with `MINSIZE = 64`, the backing source answering
65536.  `allocateBlock` calls `MA::allocate(size)` with `size = 8` and
records `allocSize = max(size, MINSIZE) = 64` in the new head block; after
the call the 8 bytes obtained are in use and the free list offers the 56
bytes that follow them, which were never obtained. -/
theorem allocateBlock_requests_size_records_allocSize :
    (DynamicPoolAllocator.allocateBlock 64 spacedMa (DynamicPoolAllocator.init spacedMa) 8
        65536).map (fun r => (r.1.maAllocated, r.1.freeBlocks)) =
      some ([(65536, 8)], [{ data := 65536, size := 64, isHead := true }]) ∧
    (DynamicPoolAllocator.allocate 64 spacedMa (DynamicPoolAllocator.init spacedMa) 8
        65536).map (fun r => (r.1.maAllocated, r.1.usedBlocks, r.1.freeBlocks, r.2)) =
      some ([(65536, 8)], [{ data := 65536, size := 8, isHead := true }],
        [{ data := 65544, size := 56, isHead := false }], 65536) := by
  refine ⟨?_, ?_⟩ <;> decide

/-! ## C20: the free list is sorted by address -/

/-- C20 (the claim as stated fails).  With `minBytes = 256`: `allocate(2^64-1)`
obtains the span `(4096, 256)` and, `alignmentAdjust` having wrapped around to
0, leaves a remainder node at 4095; after `deallocate(4096)` and `allocate(1)`
the free list holds two nodes with the same address 4096.  With adjacent
spans `(4096, 512)` and `(4608, 256)`, `allocate(0)` leaves a node of size 0
at 4608 and a non-head node at the start of the second span; after the calls
below the free list is `(4696, 168), (4608, 0)`, in decreasing order. -/
theorem free_list_not_increasing :
    (run (DynamicSizePool.init 256)
        [Op.alloc (2 ^ 64 - 1) 4096, Op.dealloc 4096, Op.alloc 1 0]).freeBlocks =
      [{ data := 4096, size := 256, isHead := false },
       { data := 4096, size := 2 ^ 64 - 1, isHead := true }] ∧
    (run (DynamicSizePool.init 256)
        [Op.alloc 512 4096, Op.alloc 256 4608, Op.dealloc 4608, Op.alloc 0 0,
         Op.dealloc 4096, Op.dealloc 4608, Op.alloc 600 0]).freeBlocks =
      [{ data := 4696, size := 168, isHead := false },
       { data := 4608, size := 0, isHead := true }] ∧
    (run (DynamicSizePool.init 256)
        [Op.alloc 512 4096, Op.alloc 256 4608, Op.dealloc 4608, Op.alloc 0 0,
         Op.dealloc 4096, Op.dealloc 4608, Op.alloc 600 0]).maAllocated =
      [(4608, 256), (4096, 512)] := by
  refine ⟨?_, ?_, ?_⟩ <;> decide

/-- C20 (amended): for every sequence of calls on an initially empty pool in
which every requested size `n` satisfies `1 ≤ n` and `n + 15 < 2^64` and the
backing source returns pairwise disjoint spans inside the address space
(`RunOK`), after every call of the sequence the addresses of the nodes of the
free list are strictly increasing in list order. -/
theorem free_list_strictly_increasing (minBytes : Nat) (ops : List Op)
    (hmin : minBytes < 2 ^ 64) (hok : RunOK (DynamicSizePool.init minBytes) ops) (k : Nat) :
    (run (DynamicSizePool.init minBytes) (ops.take k)).freeBlocks.Pairwise
      (fun p q => p.data < q.data) :=
  ((Inv.init hmin).run (RunOK_take k hok)).free.sorted

/-- C20 (amended), at a concrete input: three spans obtained in decreasing
order of address, then two blocks given back. -/
theorem free_list_strictly_increasing_witness :
    ((256 : Nat) < 2 ^ 64 ∧
      RunOK (DynamicSizePool.init 256)
        [Op.alloc 1000 12288, Op.alloc 2000 8192, Op.alloc 3000 4096, Op.dealloc 8192,
         Op.dealloc 12288]) ∧
    (run (DynamicSizePool.init 256)
        ([Op.alloc 1000 12288, Op.alloc 2000 8192, Op.alloc 3000 4096, Op.dealloc 8192,
          Op.dealloc 12288].take 5)).freeBlocks.Pairwise (fun p q => p.data < q.data) :=
  ⟨⟨by decide, by decide⟩,
    free_list_strictly_increasing 256
      [Op.alloc 1000 12288, Op.alloc 2000 8192, Op.alloc 3000 4096, Op.dealloc 8192,
       Op.dealloc 12288] (by decide) (by decide) 5⟩

/-! ## C21, C22: the free list once blocks have been given back -/

/-- C21 (the claim as stated fails).  With `minBytes = 256` and spans
`(8192, 1008)`, `(4096, 512)`, `(4608, 256)`, the second and third adjacent:
`allocate(0)` splits the free head `(4608, 256)` into a used node of size 0
and a free node that is not a head, and after `deallocate(8192)` has returned
the free list still holds `(4096, 512)` followed by `(4608, 256, not head)`
with `4096 + 512 = 4608`.  And with requests of `2^64 - 1` bytes, for which
`alignmentAdjust` wraps around to 0: after `deallocate(4352)` has returned the
free list holds `(4095, 256)` followed by `(4351, 257, not head)` with
`4095 + 256 = 4351`. -/
theorem free_list_mergeable_after_deallocate :
    (run (DynamicSizePool.init 256)
        [Op.alloc 1000 8192, Op.alloc 512 4096, Op.alloc 256 4608, Op.dealloc 4608,
         Op.dealloc 4096, Op.alloc 0 0, Op.dealloc 8192]).freeBlocks =
      [{ data := 4096, size := 512, isHead := true },
       { data := 4608, size := 256, isHead := false },
       { data := 8192, size := 1008, isHead := true }] ∧
    (run (DynamicSizePool.init 256)
        [Op.alloc (2 ^ 64 - 1) 4096, Op.alloc 256 0, Op.alloc 1 0, Op.dealloc 4095,
         Op.alloc (2 ^ 64 - 1) 4352, Op.dealloc 4352]).freeBlocks =
      [{ data := 4095, size := 256, isHead := false },
       { data := 4351, size := 257, isHead := false },
       { data := 4352, size := 2 ^ 64 - 1, isHead := true }] := by
  refine ⟨?_, ?_⟩ <;> decide

/-- C21 (amended): for every sequence of calls on an initially empty pool in
which every requested size `n` satisfies `1 ≤ n` and `n + 15 < 2^64` and the
backing source returns pairwise disjoint spans inside the address space
(`RunOK`), after every call of the sequence (so after every `deallocate`) no
node `q` of the free list that is not a head starts where the node `p` before
it ends, and every free node ends inside the address space, so that the sum
`p.data + p.size` of the code does not wrap around. -/
theorem free_list_coalesced (minBytes : Nat) (ops : List Op)
    (hmin : minBytes < 2 ^ 64) (hok : RunOK (DynamicSizePool.init minBytes) ops) (k : Nat) :
    (run (DynamicSizePool.init minBytes) (ops.take k)).freeBlocks.Chain'
        (fun p q => ¬ (p.data + p.size = q.data ∧ q.isHead = false)) ∧
    ∀ p ∈ (run (DynamicSizePool.init minBytes) (ops.take k)).freeBlocks,
      p.data + p.size < 2 ^ 64 := by
  have hinv := (Inv.init hmin).run (RunOK_take k hok)
  refine ⟨hinv.free.coalesced, ?_⟩
  intro p hp
  exact hinv.tiles.end_lt hinv.spans (List.mem_append_right _ hp)

/-- C21 (amended), at a concrete input: two adjacent spans `(4096, 512)` and
`(4608, 256)`, both given back. -/
theorem free_list_coalesced_witness :
    ((256 : Nat) < 2 ^ 64 ∧
      RunOK (DynamicSizePool.init 256)
        [Op.alloc 512 4096, Op.alloc 256 4608, Op.alloc 100 0, Op.dealloc 4608,
         Op.dealloc 4096]) ∧
    (run (DynamicSizePool.init 256)
        ([Op.alloc 512 4096, Op.alloc 256 4608, Op.alloc 100 0, Op.dealloc 4608,
          Op.dealloc 4096].take 5)).freeBlocks.Chain'
      (fun p q => ¬ (p.data + p.size = q.data ∧ q.isHead = false)) :=
  ⟨⟨by decide, by decide⟩,
    (free_list_coalesced 256
      [Op.alloc 512 4096, Op.alloc 256 4608, Op.alloc 100 0, Op.dealloc 4608,
       Op.dealloc 4096] (by decide) (by decide) 5).1⟩

/-- C22 (the code breaks its own assertion).  With `minBytes = 256`: after
`allocate(0)`, `allocate(1)`, `allocate(0)`, `deallocate(4096)` on the span
`(4096, 256)`, the first loop of `freeAllBlocks` leaves the free list
`(4096, 256, head), (4097, 0, not head)`; and after `allocate(2^64 - 1)`, for
which `alignmentAdjust` wraps around to 0, it leaves
`(4095, 257, not head), (4096, 2^64 - 1, head)`.  In both cases the used
list is empty and the second loop meets a node with `isHead = false`. -/
theorem drained_free_list_has_non_head :
    ((releaseUsedLoop 2 (run (DynamicSizePool.init 256)
        [Op.alloc 0 4096, Op.alloc 1 0, Op.alloc 0 0, Op.dealloc 4096])).usedBlocks = [] ∧
      (releaseUsedLoop 2 (run (DynamicSizePool.init 256)
        [Op.alloc 0 4096, Op.alloc 1 0, Op.alloc 0 0, Op.dealloc 4096])).freeBlocks =
        [{ data := 4096, size := 256, isHead := true },
         { data := 4097, size := 0, isHead := false }]) ∧
    ((releaseUsedLoop 1 (run (DynamicSizePool.init 256)
        [Op.alloc (2 ^ 64 - 1) 4096])).usedBlocks = [] ∧
      (releaseUsedLoop 1 (run (DynamicSizePool.init 256)
        [Op.alloc (2 ^ 64 - 1) 4096])).freeBlocks =
        [{ data := 4095, size := 257, isHead := false },
         { data := 4096, size := 2 ^ 64 - 1, isHead := true }]) := by
  refine ⟨⟨?_, ?_⟩, ⟨?_, ?_⟩⟩ <;> decide

/-- The assertion of `freeAllBlocks` for requests in range: from every state
reached from an empty pool by calls whose
requested sizes `n` satisfy `1 ≤ n` and `n + 15 < 2^64`, the backing source
returning pairwise disjoint spans inside the address space (`RunOK`), the
first loop of `freeAllBlocks` ends with an empty used list, and every node
then in the free list has `isHead = true`: the assertion of the second loop
holds at each of its rounds. -/
theorem drained_free_list_all_heads (minBytes : Nat) (ops : List Op)
    (hmin : minBytes < 2 ^ 64) (hok : RunOK (DynamicSizePool.init minBytes) ops) :
    (releaseUsedLoop (run (DynamicSizePool.init minBytes) ops).usedBlocks.length
        (run (DynamicSizePool.init minBytes) ops)).usedBlocks = [] ∧
    ∀ b ∈ (releaseUsedLoop (run (DynamicSizePool.init minBytes) ops).usedBlocks.length
        (run (DynamicSizePool.init minBytes) ops)).freeBlocks, b.isHead = true := by
  have hinv := (Inv.init hmin).run hok
  have hu := releaseUsedLoop_drains _ (run (DynamicSizePool.init minBytes) ops) (le_refl _)
  exact ⟨hu, (hinv.drainUsed _).free_isHead hu⟩

/-- The assertion of `freeAllBlocks` at a concrete input: two adjacent spans,
three blocks in use when the destructor runs. -/
theorem drained_free_list_all_heads_witness :
    ((256 : Nat) < 2 ^ 64 ∧
      RunOK (DynamicSizePool.init 256)
        [Op.alloc 512 4096, Op.alloc 256 4608, Op.dealloc 4096, Op.alloc 100 0,
         Op.alloc 200 0]) ∧
    ∀ b ∈ (releaseUsedLoop (run (DynamicSizePool.init 256)
        [Op.alloc 512 4096, Op.alloc 256 4608, Op.dealloc 4096, Op.alloc 100 0,
         Op.alloc 200 0]).usedBlocks.length
        (run (DynamicSizePool.init 256)
          [Op.alloc 512 4096, Op.alloc 256 4608, Op.dealloc 4096, Op.alloc 100 0,
           Op.alloc 200 0])).freeBlocks, b.isHead = true :=
  ⟨⟨by decide, by decide⟩,
    (drained_free_list_all_heads 256
      [Op.alloc 512 4096, Op.alloc 256 4608, Op.dealloc 4096, Op.alloc 100 0,
       Op.alloc 200 0] (by decide) (by decide)).2⟩

/-! ## C24: `alignmentAdjust` -/

/-- C24 (the claim as stated fails).  For `n = 2^64 - 1` the sum `n + 15`
wraps around and `alignmentAdjust(n)` is 0, which is below `n`; with
`minBytes = 256` the call `allocate(2^64 - 1)` asks the backing source for
`max(0, 256) = 256` bytes. -/
theorem alignmentAdjust_wraps_to_zero :
    alignmentAdjust (2 ^ 64 - 1) = 0 ∧
    sizeToAlloc (DynamicSizePool.init 256) (2 ^ 64 - 1) = 256 ∧
    (allocate (DynamicSizePool.init 256) (2 ^ 64 - 1) 4096).1.maAllocated = [(4096, 256)] := by
  refine ⟨?_, ?_, ?_⟩ <;> decide

/-- C24 (amended): for every `n` with `n + 15 < 2^64` (that is
`n ≤ 2^64 - 16`), `alignmentAdjust(n)` is a multiple of 16, is at least `n`,
and is at most every multiple of 16 that is at least `n`; the size
`max(alignmentAdjust(n), minBytes)` is at least `n`, and it is the number of
bytes `allocate(n)` asks of the backing source when no free block fits. -/
theorem alignmentAdjust_smallest_multiple (s : DynamicSizePool) (n ma : Nat)
    (h : n + 15 < 2 ^ 64) :
    alignmentAdjust n % 16 = 0 ∧ n ≤ alignmentAdjust n ∧
    (∀ m, m % 16 = 0 → n ≤ m → alignmentAdjust n ≤ m) ∧
    n ≤ sizeToAlloc s n ∧ sizeToAlloc s n = max (alignmentAdjust n) s.minBytes ∧
    ((findUsableBlock s.freeBlocks n).1 = none →
      (allocate s n ma).1.maAllocated = (ma, sizeToAlloc s n) :: s.maAllocated) := by
  have he := alignmentAdjust_eq h
  refine ⟨by rw [he]; omega, alignmentAdjust_ge h, ?_, le_sizeToAlloc h, rfl, ?_⟩
  · intro m hm hnm
    rw [he]; omega
  · intro hnone
    exact (allocate_grow_fields ma hnone).1

/-- C24 (amended), at a concrete input: `n = 1000`, `minBytes = 256`, an
empty pool. -/
theorem alignmentAdjust_smallest_multiple_witness :
    (1000 + 15 < 2 ^ 64) ∧
    (alignmentAdjust 1000 % 16 = 0 ∧ 1000 ≤ alignmentAdjust 1000 ∧
      (∀ m, m % 16 = 0 → 1000 ≤ m → alignmentAdjust 1000 ≤ m) ∧
      1000 ≤ sizeToAlloc (DynamicSizePool.init 256) 1000) :=
  ⟨by decide,
    ⟨(alignmentAdjust_smallest_multiple (DynamicSizePool.init 256) 1000 4096 (by decide)).1,
     (alignmentAdjust_smallest_multiple (DynamicSizePool.init 256) 1000 4096 (by decide)).2.1,
     (alignmentAdjust_smallest_multiple (DynamicSizePool.init 256) 1000 4096 (by decide)).2.2.1,
     (alignmentAdjust_smallest_multiple (DynamicSizePool.init 256) 1000 4096
       (by decide)).2.2.2.1⟩⟩

/-! ## C25: `numAvail` counts the set avail bits -/

/-- C25 (the claim as stated fails).  For `NP = 2^27` the slab the constructor
builds has `numAvail = 0` beside `2^32` set avail bits.  For `NP = 2^26 + 1`
(slots of 8 bytes, the slab at `2^40 + 32`): after `2^31 + 1` calls of
`allocate()` slot `2^31` is in use, and `deallocate` of its address
`data + 2^31 * 8`, whose slot index does not fit `int indexD`, returns with
`numAvail = 32` and 31 set avail bits. -/
theorem numAvail_above_set_bits :
    ((newPool (2 ^ 27) (spacedMa 0)).numAvail = 0 ∧
      countSet (newPool (2 ^ 27) (spacedMa 0)) = 2 ^ 32) ∧
    ∃ st q s2 q2, fixedRun (2 ^ 26 + 1) 8 highMa (FixedSizePool.init (2 ^ 26 + 1) highMa, [])
        (List.replicate (2 ^ 31 + 1) FOp.alloc) = some st ∧
      st.1.pool = [q] ∧ slotFree q (2 ^ 31) = false ∧
      FixedSizePool.deallocate (2 ^ 26 + 1) 8 st.1 (q.data + 2 ^ 31 * 8) = some (s2, false) ∧
      s2.pool = [q2] ∧ q2.numAvail = 32 ∧ countSet q2 = 31 := by
  refine ⟨⟨by rw [newPool_numAvail]; norm_num, by rw [countSet_newPool]; norm_num⟩, ?_⟩
  obtain ⟨st, q, hrun, hq, hb, hd, hf⟩ := bigSlab_reach (2 ^ 31 + 1) (by norm_num)
  obtain ⟨_, hgive⟩ := @bigSlab_give st.1 q hq hd
  obtain ⟨_, hslot, hnum, _, hset⟩ := hf
  refine ⟨st, q, _, _, hrun, hq, by rw [hslot]; decide, hgive, rfl, ?_, ?_⟩
  · have : q.numAvail = 31 := by omega
    simp only [this]
    norm_num
  · show countSet q = 31
    omega

/-- C25 (amended): for `1 ≤ NP` with `NP * 32 ≤ 2^31` (slot indices fit an
`int`, the slot count an `unsigned int`) and every sequence of `allocate()`
calls and `deallocate(p)` calls on pointers held, from the pool the
constructor builds (the slabs being fresh), every call returns, and after every
call of the sequence every slab has a bitmap of `NP` words of 32 bits and its
`numAvail` is the number of set bits of that bitmap. -/
theorem numAvail_counts_set_bits (NP sizeofT : Nat) (ma : Nat → Nat) (ops : List FOp)
    (hpar : FixedParams NP sizeofT)
    (hinit : FreshSlab NP sizeofT [] (newPool NP (ma 0)))
    (hok : FixedRunOK NP sizeofT ma (FixedSizePool.init NP ma, []) ops) (k : Nat) :
    ∃ st, fixedRun NP sizeofT ma (FixedSizePool.init NP ma, []) (ops.take k) = some st ∧
      ∀ p ∈ st.1.pool, p.avail.length = NP ∧ (∀ w ∈ p.avail, w < 2 ^ 32) ∧
        p.numAvail = countSet p := by
  obtain ⟨st, hrun, hinv, _⟩ :=
    FixedInv.runs hpar (ops.drop k) (FixedInv.atInit hinit hpar.2.1)
      (by rw [List.take_append_drop]; exact hok)
  refine ⟨st, hrun, ?_⟩
  intro p hp
  exact ⟨(hinv.slabs p hp).words, (hinv.slabs p hp).word_lt, (hinv.slabs p hp).count⟩

set_option maxRecDepth 100000 in
/-- C25 (amended), at a concrete input: `NP = 1`, slots of 8 bytes; 33 `allocate()`
calls (the last one appends a slab), then two `deallocate`. -/
theorem numAvail_counts_set_bits_witness :
    (FixedParams 1 8 ∧ FreshSlab 1 8 [] (newPool 1 (spacedMa 0)) ∧
      FixedRunOK 1 8 spacedMa (FixedSizePool.init 1 spacedMa, [])
        (List.replicate 33 FOp.alloc ++ [FOp.dealloc 4144, FOp.dealloc 8224])) ∧
    ∃ st, fixedRun 1 8 spacedMa (FixedSizePool.init 1 spacedMa, [])
        ((List.replicate 33 FOp.alloc ++ [FOp.dealloc 4144, FOp.dealloc 8224]).take 35) =
          some st ∧
      ∀ p ∈ st.1.pool, p.avail.length = 1 ∧ (∀ w ∈ p.avail, w < 2 ^ 32) ∧
        p.numAvail = countSet p :=
  ⟨⟨by decide, by decide, by decide⟩,
    numAvail_counts_set_bits 1 8 spacedMa
      (List.replicate 33 FOp.alloc ++ [FOp.dealloc 4144, FOp.dealloc 8224])
      (by decide) (by decide) (by decide) 35⟩

/-! ## C23: the sizes of the nodes and `totalBytes` -/

/-- C23 (the claim as stated fails).  With `minBytes = 256`, `allocate(2^64-1)`
obtains 256 bytes (`alignmentAdjust` wraps around to 0) and splits the node of
256 bytes into a used node of `2^64 - 1` bytes and a free node of
`256 - (2^64 - 1) = 257` bytes (modulo `2^64`): the sizes add up to
`2^64 + 256`, while `totalBytes` is 256. -/
theorem sizes_exceed_totalBytes :
    (run (DynamicSizePool.init 256) [Op.alloc (2 ^ 64 - 1) 4096]).usedBlocks =
      [{ data := 4096, size := 2 ^ 64 - 1, isHead := true }] ∧
    (run (DynamicSizePool.init 256) [Op.alloc (2 ^ 64 - 1) 4096]).freeBlocks =
      [{ data := 4095, size := 257, isHead := false }] ∧
    sizeSum (run (DynamicSizePool.init 256) [Op.alloc (2 ^ 64 - 1) 4096]) = 2 ^ 64 + 256 ∧
    (run (DynamicSizePool.init 256) [Op.alloc (2 ^ 64 - 1) 4096]).totalBytes = 256 := by
  refine ⟨?_, ?_, ?_, ?_⟩ <;> decide

/-- C23 (amended): for every sequence of calls on an initially empty pool
(`minBytes < 2^64`) in which every requested size `n` satisfies
`n + 15 < 2^64` and the backing source returns pairwise disjoint spans inside
the address space (`RunFits`), after every call of the sequence the `size`
fields of the nodes of the used list and of the free list add up to
`totalBytes`, which is the number of bytes obtained from the backing source,
none of which has been returned. -/
theorem sizes_add_up_to_totalBytes (minBytes : Nat) (ops : List Op)
    (hmin : minBytes < 2 ^ 64) (hok : RunFits (DynamicSizePool.init minBytes) ops) (k : Nat) :
    sizeSum (run (DynamicSizePool.init minBytes) (ops.take k)) =
      (run (DynamicSizePool.init minBytes) (ops.take k)).totalBytes ∧
    (run (DynamicSizePool.init minBytes) (ops.take k)).totalBytes =
      bytesObtained (run (DynamicSizePool.init minBytes) (ops.take k)) ∧
    (run (DynamicSizePool.init minBytes) (ops.take k)).maDeallocated = [] := by
  have hinv := sumInv_run (sumInv_init hmin) (RunFits_take k hok)
  exact ⟨hinv.sum, hinv.total, run_maDeallocated _ _⟩

/-- C23 (amended), at a concrete input: two spans, a request of 0 bytes, splits
and merges. -/
theorem sizes_add_up_to_totalBytes_witness :
    ((256 : Nat) < 2 ^ 64 ∧
      RunFits (DynamicSizePool.init 256)
        [Op.alloc 1000 4096, Op.alloc 0 8192, Op.alloc 100 0, Op.dealloc 4096,
         Op.alloc 300 0, Op.dealloc 8192]) ∧
    sizeSum (run (DynamicSizePool.init 256)
        ([Op.alloc 1000 4096, Op.alloc 0 8192, Op.alloc 100 0, Op.dealloc 4096,
          Op.alloc 300 0, Op.dealloc 8192].take 6)) =
      (run (DynamicSizePool.init 256)
        ([Op.alloc 1000 4096, Op.alloc 0 8192, Op.alloc 100 0, Op.dealloc 4096,
          Op.alloc 300 0, Op.dealloc 8192].take 6)).totalBytes :=
  ⟨⟨by decide, by decide⟩,
    (sizes_add_up_to_totalBytes 256
      [Op.alloc 1000 4096, Op.alloc 0 8192, Op.alloc 100 0, Op.dealloc 4096,
       Op.alloc 300 0, Op.dealloc 8192] (by decide) (by decide) 6).1⟩

/-! ## C26: the round trip `p = allocate(n); deallocate(p)` -/

/-- C26: for every state reached from an empty pool (`minBytes < 2^64`) by
calls whose requested sizes `m` satisfy `1 ≤ m` and `m + 15 < 2^64`, the
backing source returning pairwise disjoint spans inside the address space
(`RunOK`), and every `n ≥ 1` such that some free block has size at least `n`:
`p = allocate(n); deallocate(p)` makes no call to the backing source (the logs
of `MA::allocate` and `MA::deallocate` and `totalBytes` are unchanged, also
between the two calls), and afterwards the free list and the used list are
exactly as before the `allocate`. -/
theorem allocate_deallocate_round_trip (minBytes : Nat) (ops : List Op) (n ma : Nat)
    (hmin : minBytes < 2 ^ 64) (hok : RunOK (DynamicSizePool.init minBytes) ops)
    (hn : 1 ≤ n)
    (hfit : ∃ b ∈ (run (DynamicSizePool.init minBytes) ops).freeBlocks, n ≤ b.size) :
    (allocThenFree (run (DynamicSizePool.init minBytes) ops) n ma).freeBlocks =
      (run (DynamicSizePool.init minBytes) ops).freeBlocks ∧
    (allocThenFree (run (DynamicSizePool.init minBytes) ops) n ma).usedBlocks =
      (run (DynamicSizePool.init minBytes) ops).usedBlocks ∧
    (allocate (run (DynamicSizePool.init minBytes) ops) n ma).1.maAllocated =
      (run (DynamicSizePool.init minBytes) ops).maAllocated ∧
    (allocThenFree (run (DynamicSizePool.init minBytes) ops) n ma).maAllocated =
      (run (DynamicSizePool.init minBytes) ops).maAllocated ∧
    (allocThenFree (run (DynamicSizePool.init minBytes) ops) n ma).maDeallocated =
      (run (DynamicSizePool.init minBytes) ops).maDeallocated ∧
    (allocThenFree (run (DynamicSizePool.init minBytes) ops) n ma).totalBytes =
      (run (DynamicSizePool.init minBytes) ops).totalBytes := by
  have hinv := (Inv.init hmin).run hok
  cases hfind : (findUsableBlock (run (DynamicSizePool.init minBytes) ops).freeBlocks n).1 with
  | none =>
    obtain ⟨b, hb, hnb⟩ := hfit
    have := (findUsableBlock_none_iff _ n).1 hfind b hb
    omega
  | some ib =>
    obtain ⟨i, b⟩ := ib
    exact round_trip_restores hinv ma hn hfind

/-- C26, at a concrete input: two spans and the free list
`(4396, 100), (4546, 558), (8192, 2000)`, of which the first block is the best
fit for 40 bytes and is split. -/
theorem allocate_deallocate_round_trip_witness :
    ((256 : Nat) < 2 ^ 64 ∧
      RunOK (DynamicSizePool.init 256)
        [Op.alloc 1000 4096, Op.dealloc 4096, Op.alloc 300 0, Op.alloc 100 0, Op.alloc 50 0,
         Op.alloc 2000 8192, Op.dealloc 4396, Op.dealloc 8192] ∧
      (1 : Nat) ≤ 40 ∧
      ∃ b ∈ (run (DynamicSizePool.init 256)
        [Op.alloc 1000 4096, Op.dealloc 4096, Op.alloc 300 0, Op.alloc 100 0, Op.alloc 50 0,
         Op.alloc 2000 8192, Op.dealloc 4396, Op.dealloc 8192]).freeBlocks, 40 ≤ b.size) ∧
    (allocThenFree (run (DynamicSizePool.init 256)
        [Op.alloc 1000 4096, Op.dealloc 4096, Op.alloc 300 0, Op.alloc 100 0, Op.alloc 50 0,
         Op.alloc 2000 8192, Op.dealloc 4396, Op.dealloc 8192]) 40 0).freeBlocks =
      (run (DynamicSizePool.init 256)
        [Op.alloc 1000 4096, Op.dealloc 4096, Op.alloc 300 0, Op.alloc 100 0, Op.alloc 50 0,
         Op.alloc 2000 8192, Op.dealloc 4396, Op.dealloc 8192]).freeBlocks :=
  ⟨⟨by decide, by decide, by decide, by decide⟩,
    (allocate_deallocate_round_trip 256
      [Op.alloc 1000 4096, Op.dealloc 4096, Op.alloc 300 0, Op.alloc 100 0, Op.alloc 50 0,
       Op.alloc 2000 8192, Op.dealloc 4396, Op.dealloc 8192] 40 0
      (by decide) (by decide) (by decide) (by decide)).1⟩

/-! ## Claim C27 -/

set_option maxRecDepth 100000 in
/-- A run of the pool with its node pool, evaluated: five nodes are in use
afterwards, and the blocks of the two lists are those of the run without the
node pool. -/
theorem twoTier_run_example :
    (TwoTierPool.run spacedIa (TwoTierPool.init 256 spacedIa)
        [Op.alloc 1000 4096, Op.dealloc 4096, Op.alloc 300 0, Op.alloc 100 0,
         Op.alloc 50 0, Op.alloc 2000 8192, Op.dealloc 4396, Op.dealloc 8192]).map
      (fun t => (t.slotsInUse, t.numFreeBlocks, t.numUsedBlocks, t.nodes)) =
      some (5, 3, 2, [1048672, 1048608, 1048640, 1048704, 1048736]) ∧
    (TwoTierPool.run spacedIa (TwoTierPool.init 256 spacedIa)
        [Op.alloc 1000 4096, Op.dealloc 4096, Op.alloc 300 0, Op.alloc 100 0,
         Op.alloc 50 0, Op.alloc 2000 8192, Op.dealloc 4396, Op.dealloc 8192]).map
      (fun t => (t.usedBlocks.map Node.block, t.freeBlocks.map Node.block)) =
      some ((run (DynamicSizePool.init 256)
        [Op.alloc 1000 4096, Op.dealloc 4096, Op.alloc 300 0, Op.alloc 100 0,
         Op.alloc 50 0, Op.alloc 2000 8192, Op.dealloc 4396, Op.dealloc 8192]).usedBlocks,
      (run (DynamicSizePool.init 256)
        [Op.alloc 1000 4096, Op.dealloc 4096, Op.alloc 300 0, Op.alloc 100 0,
         Op.alloc 50 0, Op.alloc 2000 8192, Op.dealloc 4396, Op.dealloc 8192]).freeBlocks) := by
  refine ⟨?_, ?_⟩ <;> decide

end SimPool
